import Mathlib

/-!
# vgce: the UCI line parser, the search tree and the streaming loop

A shallow embedding of `src/uci/uci_data.hpp`, `src/uci/uci_parser.hpp`,
`src/model/search_tree.{hpp,cpp}`, `src/concurrent_queue.hpp`, and of the parts
of `src/process/platform/process_linux.cpp`, `src/uci/uci_client.cpp`,
`src/core/application.cpp` and `src/tui/renderer.cpp` that the properties are
about, followed by the properties proved about it.

Conventions of the embedding:
* `std::string` and `std::string_view` are lists of characters (`Str`);
* `std::optional<T>` is `Option T`;
* unsigned machine integers are natural numbers kept below `2 ^ w`, `i32` is an
  integer kept inside the signed 32-bit range;
* `f64` is an IEEE 754 binary64 value, given by sign, mantissa and exponent, with
  every operation rounded to the nearest value;
* the functions are embedded as sequential functions of the state; the
  reader-writer lock of the tree is not part of that sequential model and is
  described separately, by the accesses that each function makes under it.
-/

namespace vgce

/-- Text as held by `std::string` and viewed by `std::string_view`; a character
of the list stands for one `char` of the text. -/
abbrev Str := List Char

/-- Modelled from the spec: `types.hpp` is not among the sources; `u16` is the
unsigned 16-bit integer type, given here by its width in bits. -/
def u16 : Nat := 16

/-- Modelled from the spec: `types.hpp` is not among the sources; `u32` is the
unsigned 32-bit integer type, given here by its width in bits. -/
def u32 : Nat := 32

/-- Modelled from the spec: `types.hpp` is not among the sources; `u64` is the
unsigned 64-bit integer type, given here by its width in bits. -/
def u64 : Nat := 64

/-- Modelled from the spec: `types.hpp` is not among the sources; `i32` is the
signed 32-bit integer type, given here by its width in bits. -/
def i32 : Nat := 32

namespace uci

/-! ## `uci_data.hpp` -/

/-- The enumeration `Score::Type`. -/
inductive ScoreType where
  | Centipawns
  | Mate
deriving DecidableEq, Repr

/-- The struct `Score`. -/
structure Score where
  type : ScoreType
  value : Int
deriving DecidableEq, Repr

/-- The struct `WDL`. -/
structure WDL where
  win : Nat
  draw : Nat
  loss : Nat
deriving DecidableEq, Repr

/-- The struct `InfoData`; a default-constructed value has every optional empty,
an empty `pv` and empty strings. -/
structure InfoData where
  depth : Option Nat := none
  seldepth : Option Nat := none
  score : Option Score := none
  nodes : Option Nat := none
  nps : Option Nat := none
  tbhits : Option Nat := none
  hashfull : Option Nat := none
  time : Option Nat := none
  multipv : Option Nat := none
  pv : List Str := []
  wdl : Option WDL := none
  static_eval : Option Score := none
  raw_string : Str := []
  currmove : Str := []
  currmovenumber : Option Nat := none
deriving DecidableEq, Repr

/-! ## `uci_parser.hpp` -/

/-- The error code `std::errc` as far as `std::from_chars` produces it. -/
inductive Errc where
  | ok
  | invalid_argument
  | result_out_of_range
deriving DecidableEq, Repr

/-- Value of a run of decimal digits, most significant digit first. -/
def digitsValue (ds : List Char) : Nat :=
  ds.foldl (fun acc c => 10 * acc + (c.toNat - '0'.toNat)) 0

/-- The call `std::from_chars(first, last, value)` of the standard library for an
unsigned integer type of `bits` bits in base 10: the longest run of decimal
digits at the start of the text is read (no sign, no white space is accepted);
an empty run is `invalid_argument`, a value that does not fit is
`result_out_of_range`, and in both cases `value` keeps its initial `0`. -/
def from_chars_unsigned (bits : Nat) (sv : Str) : Errc × Nat :=
  let ds := sv.takeWhile Char.isDigit
  if ds.isEmpty then (Errc.invalid_argument, 0)
  else if digitsValue ds < 2 ^ bits then (Errc.ok, digitsValue ds)
  else (Errc.result_out_of_range, 0)

/-- The call `std::from_chars(first, last, value)` of the standard library for a
signed integer type of `bits` bits in base 10: an optional minus sign followed
by the longest run of decimal digits. -/
def from_chars_signed (bits : Nat) (sv : Str) : Errc × Int :=
  let negative := sv.head? = some '-'
  let ds := (if negative then sv.tail else sv).takeWhile Char.isDigit
  let v : Int := if negative then -(digitsValue ds : Int) else (digitsValue ds : Int)
  if ds.isEmpty then (Errc.invalid_argument, 0)
  else if -(2 ^ (bits - 1) : Int) ≤ v ∧ v < (2 ^ (bits - 1) : Int) then (Errc.ok, v)
  else (Errc.result_out_of_range, 0)

/-- The template `detail::parse_unsigned<T>`, `T` given by its width. -/
def parse_unsigned (bits : Nat) (sv : Str) : Option Nat :=
  let result := from_chars_unsigned bits sv
  if result.1 = Errc.ok then some result.2 else none

/-- The template `detail::parse_signed<T>`, `T` given by its width. -/
def parse_signed (bits : Nat) (sv : Str) : Option Int :=
  let result := from_chars_signed bits sv
  if result.1 = Errc.ok then some result.2 else none

/-- Puts a character in front of the first token of a token list. -/
def consToken (c : Char) : List Str → List Str
  | [] => [[c]]
  | tok :: toks => (c :: tok) :: toks

/-- The function `detail::split`: the text between two consecutive delimiters
(and before the first, and after the last) is one token, so a text with `k`
delimiters has `k + 1` tokens, some of which may be empty. -/
def split : Str → Char → List Str
  | [], _ => [[]]
  | c :: cs, delimiter =>
    if c = delimiter then [] :: split cs delimiter
    else consToken c (split cs delimiter)

/-- The function `detail::parse_score`. -/
def parse_score (type value : Str) : Option Score :=
  if type = "cp".toList then
    some { type := ScoreType.Centipawns, value := (parse_signed i32 value).getD 0 }
  else if type = "mate".toList then
    some { type := ScoreType.Mate, value := (parse_signed i32 value).getD 0 }
  else none

/-- The element `tokens[i]`. -/
def at_index (tokens : List Str) (i : Nat) : Str := tokens.getD i []

/-- The `for` loop of `detail::parse_info_search`, started at index `i` with the
fields gathered so far; every iteration advances `i`, so `fuel` iterations
suffice when `fuel` is at least the number of tokens. The index is a `u64`; it
stays below the number of tokens plus 3 and so does not wrap. -/
def parse_info_search_loop (tokens : List Str) : Nat → Nat → InfoData → InfoData
  | 0, _, data => data
  | fuel + 1, i, data =>
    if ¬ i < tokens.length then data
    else
      let token := at_index tokens i
      if token = "depth".toList ∧ i + 1 < tokens.length then
        parse_info_search_loop tokens fuel (i + 2)
          { data with depth := parse_unsigned u16 (at_index tokens (i + 1)) }
      else if token = "seldepth".toList ∧ i + 1 < tokens.length then
        parse_info_search_loop tokens fuel (i + 2)
          { data with seldepth := parse_unsigned u16 (at_index tokens (i + 1)) }
      else if token = "score".toList ∧ i + 2 < tokens.length then
        parse_info_search_loop tokens fuel (i + 3)
          { data with score := parse_score (at_index tokens (i + 1)) (at_index tokens (i + 2)) }
      else if token = "nodes".toList ∧ i + 1 < tokens.length then
        parse_info_search_loop tokens fuel (i + 2)
          { data with nodes := parse_unsigned u64 (at_index tokens (i + 1)) }
      else if token = "nps".toList ∧ i + 1 < tokens.length then
        parse_info_search_loop tokens fuel (i + 2)
          { data with nps := parse_unsigned u32 (at_index tokens (i + 1)) }
      else if token = "hashfull".toList ∧ i + 1 < tokens.length then
        parse_info_search_loop tokens fuel (i + 2)
          { data with hashfull := parse_unsigned u16 (at_index tokens (i + 1)) }
      else if token = "tbhits".toList ∧ i + 1 < tokens.length then
        parse_info_search_loop tokens fuel (i + 2)
          { data with tbhits := parse_unsigned u32 (at_index tokens (i + 1)) }
      else if token = "time".toList ∧ i + 1 < tokens.length then
        parse_info_search_loop tokens fuel (i + 2)
          { data with time := parse_unsigned u64 (at_index tokens (i + 1)) }
      else if token = "multipv".toList ∧ i + 1 < tokens.length then
        parse_info_search_loop tokens fuel (i + 2)
          { data with multipv := parse_unsigned u16 (at_index tokens (i + 1)) }
      else if token = "currmove".toList ∧ i + 1 < tokens.length then
        parse_info_search_loop tokens fuel (i + 2)
          { data with currmove := at_index tokens (i + 1) }
      else if token = "currmovenumber".toList ∧ i + 1 < tokens.length then
        parse_info_search_loop tokens fuel (i + 2)
          { data with currmovenumber := parse_unsigned u16 (at_index tokens (i + 1)) }
      else if token = "wdl".toList ∧ i + 3 < tokens.length then
        let w := parse_unsigned u32 (at_index tokens (i + 1))
        let d := parse_unsigned u32 (at_index tokens (i + 2))
        let l := parse_unsigned u32 (at_index tokens (i + 3))
        parse_info_search_loop tokens fuel (i + 4)
          (match w, d, l with
           | some w, some d, some l => { data with wdl := some { win := w, draw := d, loss := l } }
           | _, _, _ => data)
      else if token = "pv".toList ∧ i + 1 < tokens.length then
        { data with pv := data.pv ++ tokens.drop (i + 1) }
      else
        parse_info_search_loop tokens fuel (i + 1) data

/-- The function `detail::parse_info_search`; its result is always engaged. -/
def parse_info_search (line : Str) : Option InfoData :=
  let tokens := split line ' '
  some (parse_info_search_loop tokens tokens.length 1 { raw_string := line })

/-- What can leave `parse_line` other than by returning: `std::out_of_range`,
thrown by `std::string_view::substr` for a start position behind the end. -/
inductive Exception where
  | out_of_range
deriving DecidableEq, Repr

/-- How a call ends: it returns a value or it throws. -/
inductive Outcome (α : Type) where
  | returned (value : α)
  | thrown (e : Exception)
deriving DecidableEq, Repr

/-- The call `sv.find(pattern)`, counted from position `pos` of the whole text:
index of the first occurrence, `none` for `npos`. -/
def find_from (pattern : Str) : Str → Nat → Option Nat
  | [], pos => if pattern.isEmpty then some pos else none
  | c :: cs, pos =>
    if pattern.isPrefixOf (c :: cs) then some pos else find_from pattern cs (pos + 1)

/-- The call `sv.substr(pos)`: throws when `pos` is behind the end. -/
def substr (sv : Str) (pos : Nat) : Outcome Str :=
  if pos > sv.length then Outcome.thrown Exception.out_of_range else Outcome.returned (sv.drop pos)

/-- The function `detail::parse_info_string`. The reading of a floating-point
number is the argument `read_eval`: `read_eval tok` stands for
`static_cast<i32>(*val * 100.0)` where `val = parse_float(tok)`, and is `none`
when `parse_float` returns no value. The reading that the code makes is
`read_static_eval`, defined with the type `f64` further down; what is proved for
every `read_eval` holds for it. -/
def parse_info_string (read_eval : Str → Option Int) (line : Str) :
    Outcome (Option InfoData) :=
  let data : InfoData := { raw_string := line }
  match find_from "NNUE evaluation".toList line 0 with
  | some pos =>
    match substr line (pos + 18) with
    | Outcome.thrown e => Outcome.thrown e
    | Outcome.returned eval_part =>
      let tokens := split eval_part ' '
      if tokens.length ≥ 1 then
        match read_eval (at_index tokens 0) with
        | some val =>
          Outcome.returned (some { data with
            static_eval := some { type := ScoreType.Centipawns, value := val } })
        | none => Outcome.returned (some data)
      else Outcome.returned (some data)
  | none => Outcome.returned (some data)

/-- The function `parse_line`. -/
def parse_line (read_eval : Str → Option Int) (line : Str) :
    Outcome (Option InfoData) :=
  if "info string".toList.isPrefixOf line then parse_info_string read_eval line
  else if "info".toList.isPrefixOf line then Outcome.returned (parse_info_search line)
  else Outcome.returned none

/-! ## The loop of `parse_info_search` seen from the tokens ahead

The loop of the source walks an index over the token vector. For the proofs the
same loop is described by what one iteration does to the tokens that are still
ahead; `loop_eq_scan` shows that the two descriptions agree. -/

/-- The keys that `parse_info_search` recognises. -/
inductive Key where
  | depth | seldepth | score | nodes | nps | hashfull | tbhits | time | multipv
  | currmove | currmovenumber | wdl | pv
deriving DecidableEq, Repr

/-- The text of a key. -/
def Key.text : Key → Str
  | .depth => "depth".toList
  | .seldepth => "seldepth".toList
  | .score => "score".toList
  | .nodes => "nodes".toList
  | .nps => "nps".toList
  | .hashfull => "hashfull".toList
  | .tbhits => "tbhits".toList
  | .time => "time".toList
  | .multipv => "multipv".toList
  | .currmove => "currmove".toList
  | .currmovenumber => "currmovenumber".toList
  | .wdl => "wdl".toList
  | .pv => "pv".toList

/-- The key a token spells, if any. -/
def key_of (token : Str) : Option Key :=
  [Key.depth, Key.seldepth, Key.score, Key.nodes, Key.nps, Key.hashfull, Key.tbhits, Key.time,
    Key.multipv, Key.currmove, Key.currmovenumber, Key.wdl, Key.pv].find? (fun k => k.text = token)

/-- How many tokens must follow a key for its branch of the loop to be taken. -/
def Key.arity : Key → Nat
  | .score => 2
  | .wdl => 3
  | _ => 1

/-- What the branch of a key stores, `rest` being the tokens after the key. -/
def store_key : Key → List Str → InfoData → InfoData
  | .depth, rest, data => { data with depth := parse_unsigned u16 (at_index rest 0) }
  | .seldepth, rest, data => { data with seldepth := parse_unsigned u16 (at_index rest 0) }
  | .score, rest, data => { data with score := parse_score (at_index rest 0) (at_index rest 1) }
  | .nodes, rest, data => { data with nodes := parse_unsigned u64 (at_index rest 0) }
  | .nps, rest, data => { data with nps := parse_unsigned u32 (at_index rest 0) }
  | .hashfull, rest, data => { data with hashfull := parse_unsigned u16 (at_index rest 0) }
  | .tbhits, rest, data => { data with tbhits := parse_unsigned u32 (at_index rest 0) }
  | .time, rest, data => { data with time := parse_unsigned u64 (at_index rest 0) }
  | .multipv, rest, data => { data with multipv := parse_unsigned u16 (at_index rest 0) }
  | .currmove, rest, data => { data with currmove := at_index rest 0 }
  | .currmovenumber, rest, data =>
    { data with currmovenumber := parse_unsigned u16 (at_index rest 0) }
  | .wdl, rest, data =>
    (match parse_unsigned u32 (at_index rest 0), parse_unsigned u32 (at_index rest 1),
        parse_unsigned u32 (at_index rest 2) with
     | some w, some d, some l => { data with wdl := some { win := w, draw := d, loss := l } }
     | _, _, _ => data)
  | .pv, rest, data => { data with pv := data.pv ++ rest }

/-- Where one iteration of the loop of `parse_info_search` goes when it stands
on `token` and `rest` are the tokens after it: `some k` when the next iteration
is `k` tokens further, `none` when the loop is left (`break`). -/
def advance (token : Str) (rest : List Str) : Option Nat :=
  match key_of token with
  | some k =>
    if k.arity ≤ rest.length then (if k = Key.pv then none else some (k.arity + 1))
    else some 1
  | none => some 1

/-- What one iteration of the loop of `parse_info_search` stores when it stands
on `token` and `rest` are the tokens after it. -/
def store (token : Str) (rest : List Str) (data : InfoData) : InfoData :=
  match key_of token with
  | some k => if k.arity ≤ rest.length then store_key k rest data else data
  | none => data

/-- The loop of `parse_info_search` seen from the tokens that are still ahead. -/
def scan : Nat → List Str → InfoData → InfoData
  | 0, _, data => data
  | _ + 1, [], data => data
  | fuel + 1, token :: rest, data =>
    match advance token rest with
    | none => store token rest data
    | some k => scan fuel (rest.drop (k - 1)) (store token rest data)

/-- The loop of `parse_info_search` run to its end on the tokens ahead. -/
def scan_all (tokens : List Str) (data : InfoData) : InfoData :=
  scan tokens.length tokens data

/-! ## Notions used to state the properties -/

/-- Tokens written one after the other with a single space between them. -/
def unwords : List Str → Str
  | [] => []
  | [t] => t
  | t :: t2 :: ts => t ++ ' ' :: unwords (t2 :: ts)

/-- The text `txt` is a decimal numeral, one or more digits, of value `n`. -/
def IsDecimal (txt : Str) (n : Nat) : Prop :=
  txt ≠ [] ∧ (∀ c ∈ txt, c.isDigit = true) ∧
    Nat.ofDigits 10 (txt.reverse.map (fun c => c.toNat - 48)) = n

/-- The text `txt` is a decimal numeral with an optional leading minus sign, of
value `z`. -/
def IsSignedDecimal (txt : Str) (z : Int) : Prop :=
  (∃ n : Nat, IsDecimal txt n ∧ z = (n : Int)) ∨
    (∃ (ds : Str) (n : Nat), txt = '-' :: ds ∧ IsDecimal ds n ∧ z = -(n : Int))

/-- The keys whose value is read by `parse_unsigned`. -/
def Key.numeric : Key → Bool
  | .depth | .seldepth | .nodes | .nps | .hashfull | .tbhits | .time | .multipv
  | .currmovenumber => true
  | _ => false

/-- The field of the snapshot that a numeric key fills. -/
def field : Key → InfoData → Option Nat
  | .depth, d => d.depth
  | .seldepth, d => d.seldepth
  | .nodes, d => d.nodes
  | .nps, d => d.nps
  | .hashfull, d => d.hashfull
  | .tbhits, d => d.tbhits
  | .time, d => d.time
  | .multipv, d => d.multipv
  | .currmovenumber, d => d.currmovenumber
  | _, _ => none

/-- The snapshot with the field of a numeric key made absent. -/
def erase_field : Key → InfoData → InfoData
  | .depth, d => { d with depth := none }
  | .seldepth, d => { d with seldepth := none }
  | .nodes, d => { d with nodes := none }
  | .nps, d => { d with nps := none }
  | .hashfull, d => { d with hashfull := none }
  | .tbhits, d => { d with tbhits := none }
  | .time, d => { d with time := none }
  | .multipv, d => { d with multipv := none }
  | .currmovenumber, d => { d with currmovenumber := none }
  | _, d => d

/-- Whether the loop of `parse_info_search`, begun on the tokens `tokens` ahead,
begins an iteration exactly `n` tokens further on (within `fuel` iterations). -/
def reaches : Nat → List Str → Nat → Bool
  | _, _, 0 => true
  | 0, _, _ + 1 => false
  | _ + 1, [], _ + 1 => false
  | fuel + 1, token :: rest, n + 1 =>
    match advance token rest with
    | none => false
    | some k => decide (k ≤ n + 1) && reaches fuel (rest.drop (k - 1)) (n + 1 - k)

/-- Whether index `i` of the token vector is a key position: the loop of
`parse_info_search`, which starts at index 1, begins an iteration at `i`, so the
token there is looked at as a key and not taken as the value of an earlier key
or left unread behind `pv`. -/
def key_position (tokens : List Str) (i : Nat) : Bool :=
  decide (1 ≤ i) && reaches i (tokens.drop 1) (i - 1)

/-- The snapshot with its raw text replaced. -/
def set_raw (r : Str) (d : InfoData) : InfoData := { d with raw_string := r }

end uci

end vgce

/-! ## `search_tree.hpp`, `search_tree.cpp` -/

namespace vgce.model

open vgce.uci

/-- The struct `SearchTree::Node`. The map `children` is kept as the list of its
entries in the order of iteration (ascending keys). The non-owning pointer
`parent` is not kept: it is determined by the place of the node in the tree. -/
structure Node where
  move : Str
  data : InfoData
  visit_count : Nat
  multipv_index : Nat
  is_pv_node : Bool
  children : List (Str × Node)

/-- A node as `std::make_unique<Node>()` makes it. -/
def Node.make : Node :=
  { move := [], data := {}, visit_count := 0, multipv_index := 0, is_pv_node := false,
    children := [] }

instance : Inhabited Node := ⟨Node.make⟩

/-- The call `children.find(key)`: the node of the entry with that key. -/
def find : List (Str × Node) → Str → Option Node
  | [], _ => none
  | (k, n) :: rest, key => if k = key then some n else find rest key

/-- The call `children.emplace(key, node)` for a key that has no entry: the new
entry takes its place in the order of the keys (`std::less<std::string>`, the
lexicographic order of the characters). -/
def emplace : List (Str × Node) → Str → Node → List (Str × Node)
  | [], key, node => [(key, node)]
  | (k, n) :: rest, key, node =>
    if key < k then (key, node) :: (k, n) :: rest else (k, n) :: emplace rest key node

/-- The effect on the map of writing through `it->second` for the entry `key`:
the entry then holds `node`. -/
def assign : List (Str × Node) → Str → Node → List (Str × Node)
  | [], _, _ => []
  | (k, n) :: rest, key, node =>
    if k = key then (k, node) :: rest else (k, n) :: assign rest key node

mutual
/-- The function `SearchTree::clear_pv_flags`. -/
def clear_pv_flags : Node → Node
  | ⟨move, data, visit_count, multipv_index, _, children⟩ =>
    ⟨move, data, visit_count, multipv_index, false, clear_pv_flags_children children⟩
/-- The `for` loop of `clear_pv_flags` over the children. -/
def clear_pv_flags_children : List (Str × Node) → List (Str × Node)
  | [] => []
  | (key, val) :: rest => (key, clear_pv_flags val) :: clear_pv_flags_children rest
end

/-- The condition `!data.multipv || *data.multipv == 1`. -/
def is_main (data : InfoData) : Bool :=
  match data.multipv with
  | none => true
  | some m => m == 1

/-- The statements of the loop body of `update` that change the node stepped
into: the flag, the multipv stamp and the visit counter, which is a `u64`. -/
def touch (data : InfoData) (current_node : Node) : Node :=
  let current_node :=
    if is_main data then { current_node with is_pv_node := true } else current_node
  let current_node :=
    match data.multipv with
    | some m => { current_node with multipv_index := m }
    | none => current_node
  { current_node with visit_count := (current_node.visit_count + 1) % 2 ^ u64 }

/-- The walk of `SearchTree::update` from `current_node` along the moves that are
left, ended by `current_node->data = data`; the result is `current_node` as it
is after the walk. -/
def update_walk (data : InfoData) : List Str → Node → Node
  | [], current_node => { current_node with data := data }
  | move_str :: rest, current_node =>
    match find current_node.children move_str with
    | none =>
      let new_node := { Node.make with move := move_str }
      { current_node with
        children := emplace current_node.children move_str
          (update_walk data rest (touch data new_node)) }
    | some child =>
      { current_node with
        children := assign current_node.children move_str
          (update_walk data rest (touch data child)) }

/-- The class `SearchTree`; the lock is not part of the sequential model. -/
structure SearchTree where
  m_root : Node

/-- The constructor `SearchTree::SearchTree`. -/
def SearchTree.new : SearchTree :=
  { m_root := { Node.make with move := "root".toList } }

/-- The function `SearchTree::clear`. -/
def SearchTree.clear (_ : SearchTree) : SearchTree :=
  { m_root := { Node.make with move := "root".toList } }

/-- The function `SearchTree::update`. -/
def SearchTree.update (t : SearchTree) (data : InfoData) : SearchTree :=
  if data.pv.isEmpty then t
  else
    let root := if is_main data then clear_pv_flags t.m_root else t.m_root
    { m_root := update_walk data data.pv root }

/-- The function `SearchTree::get_root`. -/
def SearchTree.get_root (t : SearchTree) : Node := t.m_root

/-- The function `SearchTree::get_best_move`. -/
def SearchTree.get_best_move (t : SearchTree) : Str :=
  if t.m_root.children.isEmpty then []
  else
    match t.m_root.children.find? (fun entry => entry.2.is_pv_node) with
    | some (move, _) => move
    | none =>
      match t.m_root.children with
      | (move, _) :: _ => move
      | [] => []

mutual
/-- The lambda `count_nodes` of `get_total_nodes`; the counter `count` is a `u64`
that the lambda increments. -/
def count_nodes : Node → Nat → Nat
  | ⟨_, _, _, _, _, children⟩, count => count_nodes_children children ((count + 1) % 2 ^ u64)
/-- The `for` loop of `count_nodes` over the children. -/
def count_nodes_children : List (Str × Node) → Nat → Nat
  | [], count => count
  | (_, child) :: rest, count => count_nodes_children rest (count_nodes child count)
end

/-- The function `SearchTree::get_total_nodes`. -/
def SearchTree.get_total_nodes (t : SearchTree) : Nat :=
  let count := count_nodes t.m_root 0
  if count > 0 then count - 1 else 0

/-! ## Notions used to state the properties of the tree -/

/-- The node reached from `n` by following the move tokens `path`, if there is
one. -/
def node_at : Node → List Str → Option Node
  | n, [] => some n
  | n, move :: path =>
    match find n.children move with
    | none => none
    | some child => node_at child path

/-- The keys of the children of a node, in the order of iteration. -/
def child_keys (n : Node) : List Str := n.children.map Prod.fst

/-- An operation on the tree. -/
inductive Op where
  | update (data : InfoData)
  | clear

/-- The tree after an operation. -/
def SearchTree.apply (t : SearchTree) : Op → SearchTree
  | Op.update data => t.update data
  | Op.clear => t.clear

/-- The tree after a sequence of operations, the first of the list first. -/
def SearchTree.run (t : SearchTree) (ops : List Op) : SearchTree :=
  ops.foldl SearchTree.apply t

/-- The fields of a node other than its children. -/
def Node.scalars (n : Node) : Node := { n with children := [] }

/-- The node that the walk of `update` steps into at the end of `path`: the node
that is there already, or else a newly made one that carries the last move of
`path`. -/
def origin (n : Node) (path : List Str) : Node :=
  (node_at n path).getD { Node.make with move := path.getLastD [] }

/-- Every node that can be reached from `n` has its children in strictly
ascending order of their keys, as the entries of a `std::map` are. -/
def Sorted (n : Node) : Prop :=
  ∀ path c, node_at n path = some c → (child_keys c).Pairwise (· < ·)

/-- Whether `path` leads from `n` to a node whose flag `is_pv_node` is set. -/
def flag_at (n : Node) (path : List Str) : Bool :=
  match node_at n path with
  | some c => c.is_pv_node
  | none => false

/-- The visit counter of the node that `path` leads to from `n`, if there is
one. -/
def visit_count_at (n : Node) (path : List Str) : Option Nat :=
  (node_at n path).map Node.visit_count

/-- The snapshot attached to the node that `path` leads to from `n`, if there is
one. -/
def data_at (n : Node) (path : List Str) : Option InfoData :=
  (node_at n path).map Node.data

/-- A tree as the constructor or `clear` leaves it. -/
def IsFresh (t : SearchTree) : Prop :=
  t = SearchTree.new ∨ ∃ t0 : SearchTree, t = t0.clear

/-- One step of `last_main`. -/
def last_main_step (acc : Option (List Str)) : Op → Option (List Str)
  | Op.clear => none
  | Op.update data => if data.pv ≠ [] ∧ is_main data = true then some data.pv else acc

/-- The pv of the snapshot applied last, since the last `clear`, among those with
a non-empty pv and a multipv that is absent or 1; `none` if there is none. -/
def last_main (ops : List Op) : Option (List Str) :=
  ops.foldl last_main_step none

end vgce.model

namespace vgce.uci

/-- Whether index `i` of the tokens of `line` is a key position of the line:
`parse_line` hands the line to the field parser (the line starts with `info`
and not with `info string`), and the loop of the field parser begins an
iteration at `i`. -/
def line_key_position (line : Str) (i : Nat) : Bool :=
  "info".toList.isPrefixOf line && !("info string".toList.isPrefixOf line) &&
    key_position (split line ' ') i

/-- The width in bits of the integer type of the field that a numeric key
fills. -/
def Key.bits : Key → Nat
  | .depth => u16
  | .seldepth => u16
  | .nodes => u64
  | .nps => u32
  | .hashfull => u16
  | .tbhits => u32
  | .time => u64
  | .multipv => u16
  | .currmovenumber => u16
  | _ => 0

end vgce.uci

/-! ## Numbers as text -/

namespace vgce

/-- The text of an unsigned value as `std::to_string` and the stream operator
`<<` make it: its decimal digits. -/
def to_string (n : Nat) : Str := Nat.toDigits 10 n

/-- The text of a signed value as the stream operator `<<` makes it: a minus sign
for a negative value, then the decimal digits of its magnitude. -/
def to_string_signed (z : Int) : Str :=
  if z < 0 then '-' :: Nat.toDigits 10 z.natAbs else Nat.toDigits 10 z.natAbs

/-- The hundredth part of `value` written with two decimals: a minus sign for a
negative value, the whole part, a point and two digits. -/
def two_decimals (value : Int) : Str :=
  (if value < 0 then ['-'] else []) ++ Nat.toDigits 10 (value.natAbs / 100) ++
    ('.' :: Nat.toDigits 10 (value.natAbs % 100 / 10)) ++ Nat.toDigits 10 (value.natAbs % 10)

end vgce

/-! ## `concurrent_queue.hpp` -/

namespace vgce

/-- The class template `ConcurrentQueue<T>`: the content of `m_queue`, the front
item first. Every member function holds the mutex from its first to its last
statement, so in the sequential model each one is a function of the content; the
mutex and the condition variable are not kept. -/
structure ConcurrentQueue (α : Type) where
  m_queue : List α
deriving DecidableEq, Repr

/-- A default-constructed queue. -/
def ConcurrentQueue.new {α : Type} : ConcurrentQueue α := { m_queue := [] }

/-- The function `ConcurrentQueue::push` (both overloads). -/
def ConcurrentQueue.push {α : Type} (q : ConcurrentQueue α) (value : α) : ConcurrentQueue α :=
  { m_queue := q.m_queue ++ [value] }

/-- The function `ConcurrentQueue::pop`: the value returned and the queue as it
is afterwards. -/
def ConcurrentQueue.pop {α : Type} (q : ConcurrentQueue α) : Option α × ConcurrentQueue α :=
  match q.m_queue with
  | [] => (none, q)
  | value :: rest => (some value, { m_queue := rest })

/-- The function `ConcurrentQueue::empty`. -/
def ConcurrentQueue.empty {α : Type} (q : ConcurrentQueue α) : Bool := q.m_queue.isEmpty

/-- The function `ConcurrentQueue::size`, whose result is a `u64`. -/
def ConcurrentQueue.size {α : Type} (q : ConcurrentQueue α) : Nat := q.m_queue.length % 2 ^ u64

/-- The function `ConcurrentQueue::clear`. -/
def ConcurrentQueue.clear {α : Type} (_ : ConcurrentQueue α) : ConcurrentQueue α :=
  { m_queue := [] }

/-- The queue after the items of a list have been pushed, the first of the list
first. -/
def ConcurrentQueue.push_all {α : Type} (q : ConcurrentQueue α) (items : List α) :
    ConcurrentQueue α :=
  items.foldl ConcurrentQueue.push q

/-- The results of `n` calls of `pop` one after the other, the first call first,
and the queue after the last of them. -/
def ConcurrentQueue.pop_n {α : Type} : Nat → ConcurrentQueue α →
    List (Option α) × ConcurrentQueue α
  | 0, q => ([], q)
  | n + 1, q =>
    let first := q.pop
    let others := ConcurrentQueue.pop_n n first.2
    (first.1 :: others.1, others.2)

end vgce

/-! ## `process.hpp`, `process_linux.cpp` -/

namespace vgce.process

/-- The class `Process` as far as the parent writes to it: the buffers handed to
the system call `write` on the standard input of the engine, in the order of the
calls. What the parent reads from the engine is not kept here. -/
structure Process where
  m_engine_stdin : List Str
deriving DecidableEq, Repr

/-- The function `Process::write_line` (`ProcessImpl::write_line`): the value
returned and the process as it is afterwards. The system call is outside the
model: `sys_write p buf` stands for what `write` returns for the buffer `buf`
when the process is in the state `p`, the number of bytes written or `-1`. -/
def Process.write_line (sys_write : Process → Str → Int) (p : Process) (line : Str) :
    Bool × Process :=
  let full_line := line ++ "\n".toList
  let bytes_written := sys_write p full_line
  (decide (bytes_written = (full_line.length : Int)),
    { p with m_engine_stdin := p.m_engine_stdin ++ [full_line] })

end vgce.process

/-! ## `uci_client.hpp`, `uci_client.cpp`, `GlobalStats` of `uci_data.hpp` -/

namespace vgce.uci

open vgce.process

/-- The class `UciClient`; the reader thread is not part of the sequential
model. -/
structure UciClient where
  m_process : Process
  m_output_queue : ConcurrentQueue Str
  m_is_running : Bool
deriving DecidableEq, Repr

/-- The function `UciClient::send_command`, declared `void`: the client as it is
afterwards is all that the caller has of the call. -/
def UciClient.send_command (sys_write : Process → Str → Int) (c : UciClient) (command : Str) :
    UciClient :=
  { c with m_process := (c.m_process.write_line sys_write command).2 }

/-- The function `UciClient::get_output_queue`. -/
def UciClient.get_output_queue (c : UciClient) : ConcurrentQueue Str := c.m_output_queue

/-- The struct `GlobalStats` with the initial values of its members. -/
structure GlobalStats where
  nodes : Nat := 0
  nps : Nat := 0
  hashfull : Nat := 0
  tbhits : Nat := 0
  time_ms : Nat := 0
  static_eval : Option Score := none
  wdl_stats : Option WDL := none
  engine_name : Str := []
  current_multipv : Nat := 1
  current_move : Str := []
  current_move_number : Nat := 0
deriving DecidableEq, Repr

end vgce.uci

/-! ## `application.hpp`, `application.cpp` -/

namespace vgce.core

open vgce.uci vgce.model vgce.process

/-- The struct `AppConfig`, the members that the functions below read. -/
structure AppConfig where
  max_depth : Nat := 0
  pause_on_start : Bool := false

/-- The class `Application`, the members that the functions below read or write.
The screen is kept as the number of events posted to it, the log file as the
lines written to it (`none` while it is not open), the start time as a reading
of the clock. -/
structure Application where
  m_uci_client : UciClient
  m_search_tree : SearchTree
  m_global_stats : GlobalStats
  m_screen : Nat
  m_log_file : Option (List Str)
  m_is_shutting_down : Bool
  m_is_paused : Bool
  m_search_start_time : Nat
  m_config : AppConfig

/-- The function `Application::start_search`; `now` is the reading of the clock. -/
def Application.start_search (sys_write : Process → Str → Int) (now : Nat) (app : Application) :
    Application :=
  let app := { app with m_search_start_time := now }
  let go_cmd := "go".toList
  let go_cmd :=
    if app.m_config.max_depth > 0 then
      go_cmd ++ (" depth ".toList ++ to_string app.m_config.max_depth)
    else go_cmd ++ " infinite".toList
  { app with m_uci_client := app.m_uci_client.send_command sys_write go_cmd }

/-- The function `Application::stop_search`. -/
def Application.stop_search (sys_write : Process → Str → Int) (app : Application) : Application :=
  { app with m_uci_client := app.m_uci_client.send_command sys_write "stop".toList }

/-- The function `Application::toggle_pause`; `now` is the reading of the clock
in case the search is started. -/
def Application.toggle_pause (sys_write : Process → Str → Int) (now : Nat) (app : Application) :
    Application :=
  let was_paused := app.m_is_paused
  let app := { app with m_is_paused := !was_paused }
  let app := if was_paused then app.start_search sys_write now else app.stop_search sys_write
  { app with m_screen := app.m_screen + 1 }

/-- The function `Application::is_paused`. -/
def Application.is_paused (app : Application) : Bool := app.m_is_paused

/-- The statements of the second `while` loop of
`Application::uci_processing_loop` that store the fields of the snapshot `info`
in `m_global_stats`, in the order of the source. -/
def store_stats (info : InfoData) (stats : GlobalStats) : GlobalStats :=
  let stats := match info.nodes with
    | some v => { stats with nodes := v }
    | none => stats
  let stats := match info.nps with
    | some v => { stats with nps := v }
    | none => stats
  let stats := match info.hashfull with
    | some v => { stats with hashfull := v }
    | none => stats
  let stats := match info.tbhits with
    | some v => { stats with tbhits := v }
    | none => stats
  let stats := match info.time with
    | some v => { stats with time_ms := v }
    | none => stats
  let stats := match info.wdl with
    | some v => { stats with wdl_stats := some v }
    | none => stats
  let stats := match info.static_eval with
    | some v => { stats with static_eval := some v }
    | none => stats
  let stats := match info.multipv with
    | some v => { stats with current_multipv := v }
    | none => stats
  let stats :=
    if !info.currmove.isEmpty then { stats with current_move := info.currmove } else stats
  match info.currmovenumber with
  | some v => { stats with current_move_number := v }
  | none => stats

/-- The body of the second `while` loop of `Application::uci_processing_loop`
from the logging of the line on, for a line popped from the queue. An exception
that leaves `parse_line` is not caught. -/
def Application.process_line (read_eval : Str → Option Int) (line : Str) (app : Application) :
    Outcome Application :=
  let app :=
    match app.m_log_file with
    | some lines => { app with m_log_file := some (lines ++ [line]) }
    | none => app
  match parse_line read_eval line with
  | Outcome.thrown e => Outcome.thrown e
  | Outcome.returned none => Outcome.returned app
  | Outcome.returned (some info) =>
    let app := { app with m_global_stats := store_stats info app.m_global_stats }
    let app :=
      if !info.pv.isEmpty then { app with m_search_tree := app.m_search_tree.update info }
      else app
    Outcome.returned { app with m_screen := app.m_screen + 1 }

/-- One pass through the second `while` loop of
`Application::uci_processing_loop`, entered with the loop condition true: a line
is popped from the queue of the client and processed; with no line in the queue
the pass only sleeps. -/
def Application.uci_processing_step (read_eval : Str → Option Int) (app : Application) :
    Outcome Application :=
  let popped := app.m_uci_client.get_output_queue.pop
  match popped.1 with
  | none => Outcome.returned app
  | some line =>
    Application.process_line read_eval line
      { app with m_uci_client := { app.m_uci_client with m_output_queue := popped.2 } }

/-- The application as `Application::run` has set it up when the processing loop
starts to stream, with the lines `lines` waiting in the output queue of the
client: an empty tree, the initial statistics, the log open, nothing written to
the engine yet. -/
def Application.streaming (config : AppConfig) (lines : List Str) : Application :=
  { m_uci_client :=
      { m_process := { m_engine_stdin := [] }
        m_output_queue := { m_queue := lines }
        m_is_running := true }
    m_search_tree := SearchTree.new
    m_global_stats := {}
    m_screen := 0
    m_log_file := some []
    m_is_shutting_down := false
    m_is_paused := config.pause_on_start
    m_search_start_time := 0
    m_config := config }

end vgce.core

/-! ## `SearchTree::export_to_string`, `Node::get_score_cp` -/

namespace vgce.model

open vgce.uci

/-- The function `SearchTree::Node::get_score_cp`. -/
def Node.get_score_cp (n : Node) : Int :=
  match n.data.score with
  | none => 0
  | some score =>
    if score.type = ScoreType.Centipawns then score.value
    else if score.value > 0 then 10000 else -10000

/-- The function `SearchTree::Node::has_score`. -/
def Node.has_score (n : Node) : Bool := n.data.score.isSome

/-- The text that `export_node` writes for a node after the branch mark and up to
the end of the line: the move, the depth group, the visit counter. The printing
of a floating-point number is outside the model: `print_pawns value` stands for
the text that the stream writes for `static_cast<f64>(value) / 100.0` in fixed
notation with precision 2. -/
def export_label (print_pawns : Int → Str) (move : Str) (data : InfoData) (visit_count : Nat) :
    Str :=
  let ss := move
  let ss :=
    match data.depth with
    | some depth =>
      let ss := ss ++ " (d".toList ++ to_string depth
      let ss :=
        match data.seldepth with
        | some seldepth => ss ++ "/".toList ++ to_string seldepth
        | none => ss
      let ss :=
        match data.score with
        | some score =>
          let ss := ss ++ ", ".toList
          if score.type = ScoreType.Centipawns then ss ++ print_pawns score.value
          else ss ++ "M".toList ++ to_string_signed score.value
        | none => ss
      ss ++ ")".toList
    | none => ss
  let ss :=
    if visit_count > 1 then ss ++ " [TT×".toList ++ to_string visit_count ++ "]".toList else ss
  ss ++ "\n".toList

mutual
/-- The function `SearchTree::export_node` for a node that is not null: the text
that the call appends to the stream. The parameter `depth` is a `u16`. -/
def export_node (print_pawns : Int → Str) : Node → Str → Bool → Nat → Str
  | ⟨move, data, visit_count, _, _, children⟩, indent, is_last, depth =>
    if depth > 100 then []
    else
      indent ++ (if is_last then "└── ".toList else "├── ".toList) ++
        export_label print_pawns move data visit_count ++
        export_children print_pawns children
          (indent ++ (if is_last then "    ".toList else "│   ".toList)) ((depth + 1) % 2 ^ u16)
/-- The `while` loop over the children in `export_node` and in
`export_to_string`: the text that it appends to the stream. -/
def export_children (print_pawns : Int → Str) : List (Str × Node) → Str → Nat → Str
  | [], _, _ => []
  | (_, child) :: rest, indent, depth =>
    export_node print_pawns child indent rest.isEmpty depth ++
      export_children print_pawns rest indent depth
end

/-- The function `SearchTree::export_to_string`. -/
def SearchTree.export_to_string (print_pawns : Int → Str) (t : SearchTree) : Str :=
  "Search Tree:\n".toList ++ export_children print_pawns t.m_root.children [] 1

/-! ## Notions used to state the properties of the outline -/

/-- The text that shows a visit counter: `[TT×n]` after a blank when the counter
is more than one, nothing otherwise. -/
def visit_text (visit_count : Nat) : Str :=
  if visit_count > 1 then " [TT×".toList ++ to_string visit_count ++ "]".toList else []

/-- The text that shows a score: pawn units for a centipawn score, `M` and the
number of moves for a mate score. -/
def score_text (print_pawns : Int → Str) (score : Score) : Str :=
  match score.type with
  | ScoreType.Centipawns => print_pawns score.value
  | ScoreType.Mate => "M".toList ++ to_string_signed score.value

/-- The text that shows a selective depth after a depth: a slash and the number
when it is known, nothing otherwise. -/
def seldepth_text (seldepth : Option Nat) : Str :=
  match seldepth with
  | some s => "/".toList ++ to_string s
  | none => []

/-- A line of the outline: the path of move tokens that leads from the root to
the node of the line, the indentation, whether the node is the last child of its
parent, and the node. -/
structure Row where
  path : List Str
  indent : Str
  is_last : Bool
  node : Node

/-- The text of a line of the outline, with the newline that ends it. -/
def Row.text (print_pawns : Int → Str) (r : Row) : Str :=
  r.indent ++ (if r.is_last then "└── ".toList else "├── ".toList) ++
    export_label print_pawns r.node.move r.node.data r.node.visit_count

mutual
/-- The node reached by `path`, and after it the nodes below it down to `levels`
levels counted from the node itself, each node before its children and the
children of a node in the order of the map. -/
def rows_node : Node → List Str → Str → Bool → Nat → List Row
  | ⟨move, data, visit_count, multipv_index, is_pv_node, children⟩, path, indent, is_last,
      levels =>
    match levels with
    | 0 => []
    | levels + 1 =>
      { path := path, indent := indent, is_last := is_last,
        node := ⟨move, data, visit_count, multipv_index, is_pv_node, children⟩ } ::
        rows_children children path
          (indent ++ (if is_last then "    ".toList else "│   ".toList)) levels
/-- The rows of the children of the node reached by `path`. -/
def rows_children : List (Str × Node) → List Str → Str → Nat → List Row
  | [], _, _, _ => []
  | (key, child) :: rest, path, indent, levels =>
    rows_node child (path ++ [key]) indent rest.isEmpty levels ++
      rows_children rest path indent levels
end

/-- The rows of the tree: its nodes other than the root down to depth 100. -/
def outline (t : SearchTree) : List Row := rows_children t.m_root.children [] [] 100

mutual
/-- The number of nodes of the subtree of a node, the node itself included. -/
def Node.size : Node → Nat
  | ⟨_, _, _, _, _, children⟩ => 1 + size_children children
/-- The number of nodes of the subtrees of the children. -/
def size_children : List (Str × Node) → Nat
  | [] => 0
  | (_, child) :: rest => Node.size child + size_children rest
end

mutual
/-- The number of levels below a node: 0 for a node without children. -/
def Node.height : Node → Nat
  | ⟨_, _, _, _, _, children⟩ => height_children children
/-- The number of levels of the subtrees of the children, 0 if there is none. -/
def height_children : List (Str × Node) → Nat
  | [] => 0
  | (_, child) :: rest => max (Node.height child + 1) (height_children rest)
end

end vgce.model

/-! ## `renderer.cpp` -/

namespace vgce.tui

open vgce.uci vgce.model

/-- The constant `BLUNDER_THRESHOLD_CP`. -/
def BLUNDER_THRESHOLD_CP : Int := 200

/-- The constant `MISTAKE_THRESHOLD_CP`. -/
def MISTAKE_THRESHOLD_CP : Int := 100

/-- The constant `INACCURACY_THRESHOLD_CP`. -/
def INACCURACY_THRESHOLD_CP : Int := 50

/-- The constant `GOOD_THRESHOLD_CP`. -/
def GOOD_THRESHOLD_CP : Int := 30

/-- The constant `BRILLIANT_THRESHOLD_CP`. -/
def BRILLIANT_THRESHOLD_CP : Int := 150

/-- The function `Renderer::get_move_annotation`; a null pointer is `none`. The
scores are `i32` values: when their difference or its magnitude does not fit
into an `i32` the subtraction or `std::abs` has no defined result, which is the
result `none`. -/
def get_move_annotation (node parent : Option Node) : Option Str :=
  match node, parent with
  | none, _ => some []
  | some _, none => some []
  | some node, some parent =>
    if !node.has_score || !parent.has_score then some []
    else
      let node_score := node.get_score_cp
      let parent_score := parent.get_score_cp
      let delta := parent_score - node_score
      if delta ≤ -(2 : Int) ^ (i32 - 1) ∨ (2 : Int) ^ (i32 - 1) ≤ delta then none
      else if (if delta < 0 then -delta else delta) < INACCURACY_THRESHOLD_CP then
        if delta < -BRILLIANT_THRESHOLD_CP then some "!!".toList
        else if delta < -GOOD_THRESHOLD_CP then some "!".toList
        else some []
      else if delta ≥ BLUNDER_THRESHOLD_CP then some "??".toList
      else if delta ≥ MISTAKE_THRESHOLD_CP then some "?".toList
      else if delta ≥ INACCURACY_THRESHOLD_CP then some "?!".toList
      else if delta ≤ -BRILLIANT_THRESHOLD_CP then some "!!".toList
      else if delta ≤ -GOOD_THRESHOLD_CP then some "!".toList
      else some []

end vgce.tui

/-! ## The lock of the tree

`SearchTree` guards its nodes with `m_mutex`, a `std::shared_mutex`. To state
what the lock does, each member function is described once more by the
accesses it makes, in their order: the lock operations of its
`std::shared_lock` or `std::unique_lock` and the nodes it reads or writes, a
node being named by the path of move tokens that leads to it from the root. -/

namespace vgce.model

open vgce.uci

/-- One step of a thread on the tree or on its lock. -/
inductive Access where
  | lock_shared
  | unlock_shared
  | lock_unique
  | unlock_unique
  | read (path : List Str)
  | write (path : List Str)
deriving DecidableEq, Repr

/-- The reads of the `for` loop of `get_best_move`: the flag of one child after
the other until a flag is found set. -/
def flag_reads : List (Str × Node) → List Access
  | [] => []
  | (move, node) :: rest =>
    Access.read [move] :: (if node.is_pv_node then [] else flag_reads rest)

/-- The accesses of `SearchTree::get_best_move`: the shared lock is taken by the
first statement and released when the function returns. -/
def SearchTree.get_best_move_accesses (t : SearchTree) : List Access :=
  [Access.lock_shared, Access.read []] ++ flag_reads t.m_root.children ++
    [Access.unlock_shared]

/-- The accesses of `SearchTree::get_total_nodes`: under the shared lock the
lambda `count_nodes` visits the root and every node below it. -/
def SearchTree.get_total_nodes_accesses (t : SearchTree) : List Access :=
  [Access.lock_shared, Access.read []] ++
    (rows_children t.m_root.children [] [] t.m_root.height).map (fun r => Access.read r.path) ++
    [Access.unlock_shared]

/-- The accesses of `SearchTree::export_to_string`: under the shared lock the
children of the root are walked and every node down to depth 100 is written
out. -/
def SearchTree.export_to_string_accesses (t : SearchTree) : List Access :=
  [Access.lock_shared, Access.read []] ++ (outline t).map (fun r => Access.read r.path) ++
    [Access.unlock_shared]

/-- The accesses of `SearchTree::get_root`: the shared lock is taken, the pointer
held by `m_root` is copied, and the lock is released when the function returns
the pointer. No node is read. -/
def SearchTree.get_root_accesses (_ : SearchTree) : List Access :=
  [Access.lock_shared, Access.unlock_shared]

/-- The writes of `clear_pv_flags`: the node and every node below it. -/
def clear_pv_flags_writes (t : SearchTree) : List Access :=
  Access.write [] ::
    (rows_children t.m_root.children [] [] t.m_root.height).map (fun r => Access.write r.path)

/-- The accesses of the loop of `update`, begun at the node reached by `path`
with the moves `moves` left; `current_node` is that node as it is in the tree
before the call, `none` for a node that the loop has made. The map of the
current node is searched and, when the move has no entry, written; then the node
stepped into is written. After the last move the snapshot is written to the node
reached. -/
def walk_accesses : Option Node → List Str → List Str → List Access
  | _, path, [] => [Access.write path]
  | current_node, path, move_str :: rest =>
    let it := current_node.bind (fun node => find node.children move_str)
    [Access.read path] ++ (if it.isNone then [Access.write path] else []) ++
      [Access.write (path ++ [move_str])] ++ walk_accesses it (path ++ [move_str]) rest

/-- The accesses of `SearchTree::update`: nothing for an empty pv; otherwise the
exclusive lock is taken, held for the clearing of the flags and the walk, and
released when the function returns. -/
def SearchTree.update_accesses (t : SearchTree) (data : InfoData) : List Access :=
  if data.pv.isEmpty then []
  else
    [Access.lock_unique] ++ (if is_main data then clear_pv_flags_writes t else []) ++
      walk_accesses (some t.m_root) [] data.pv ++ [Access.unlock_unique]

/-- The accesses of `SearchTree::clear`: under the exclusive lock the root is
replaced. -/
def SearchTree.clear_accesses (_ : SearchTree) : List Access :=
  [Access.lock_unique, Access.write [], Access.unlock_unique]

end vgce.model

namespace vgce.tui

open vgce.uci vgce.model

/-- The accesses of `Renderer::render_tree_view`: the call of `get_root`, then
the children of the root are walked and `render_tree_node` reads every node down
to depth `pv_depth_limit`. -/
def render_tree_view_accesses (pv_depth_limit : Nat) (t : SearchTree) : List Access :=
  t.get_root_accesses ++ [Access.read []] ++
    (rows_children t.m_root.children [] [] pv_depth_limit).map (fun r => Access.read r.path)

end vgce.tui

/-! ## Threads under a reader-writer lock -/

namespace vgce.model

/-- What a thread holds of the lock. -/
inductive Hold where
  | free
  | shared
  | unique
deriving DecidableEq, Repr

/-- What each of two threads holds of the lock: `first` for the thread `false`,
`second` for the thread `true`. -/
structure Locks where
  first : Hold
  second : Hold
deriving DecidableEq, Repr

/-- What the thread other than `who` holds. -/
def Locks.other (l : Locks) (who : Bool) : Hold := if who then l.first else l.second

/-- The locks after the thread `who` has come to hold `h`. -/
def Locks.set (l : Locks) (who : Bool) (h : Hold) : Locks :=
  if who then { l with second := h } else { l with first := h }

/-- One step of the thread `who` under a `std::shared_mutex`: the shared lock is
granted unless the other thread holds the exclusive lock, the exclusive lock is
granted only when the other thread holds nothing; `none` when the step has to
wait. Reads and writes of nodes do not look at the lock. -/
def Locks.exec (l : Locks) (who : Bool) : Access → Option Locks
  | Access.lock_shared => if l.other who = Hold.unique then none else some (l.set who Hold.shared)
  | Access.lock_unique => if l.other who = Hold.free then some (l.set who Hold.unique) else none
  | Access.unlock_shared => some (l.set who Hold.free)
  | Access.unlock_unique => some (l.set who Hold.free)
  | Access.read _ => some l
  | Access.write _ => some l

/-- Whether a step touches a node. -/
def Access.touches : Access → Bool
  | Access.read _ => true
  | Access.write _ => true
  | _ => false

/-- A schedule: the steps of two threads in the order in which they happen, each
with the thread that makes it. -/
abbrev Schedule := List (Bool × Access)

/-- The steps of the thread `who` in a schedule, in their order. -/
def project (who : Bool) (s : Schedule) : List Access :=
  (s.filter (fun step => step.1 == who)).map Prod.snd

/-- Whether every step of the schedule can happen when its turn comes, begun
with the locks `l`. -/
def permitted : Locks → Schedule → Bool
  | _, [] => true
  | l, (who, acc) :: rest =>
    match l.exec who acc with
    | none => false
    | some l2 => permitted l2 rest

/-- Whether, in a schedule begun with the locks `l`, some thread touches a node
while the other thread holds the exclusive lock. -/
def overlaps : Locks → Schedule → Bool
  | _, [] => false
  | l, (who, acc) :: rest =>
    (acc.touches && decide (l.other who = Hold.unique)) ||
      match l.exec who acc with
      | none => false
      | some l2 => overlaps l2 rest

/-- Whether a thread that holds `h` and makes the steps of the list touches
nodes only under the lock: it reads while it holds the lock, shared or
exclusive, and writes while it holds the exclusive lock. -/
def guarded : Hold → List Access → Bool
  | _, [] => true
  | _, Access.lock_shared :: rest => guarded Hold.shared rest
  | _, Access.lock_unique :: rest => guarded Hold.unique rest
  | _, Access.unlock_shared :: rest => guarded Hold.free rest
  | _, Access.unlock_unique :: rest => guarded Hold.free rest
  | h, Access.read _ :: rest => decide (h ≠ Hold.free) && guarded h rest
  | h, Access.write _ :: rest => decide (h = Hold.unique) && guarded h rest

end vgce.model

/-! ## The type `f64` and `detail::parse_float` -/

namespace vgce

/-- Modelled from the spec: `types.hpp` is not among the sources; `f64` is the
type `double`, an IEEE 754 binary64 number. A finite value is
`mantissa * 2 ^ exponent`, negated when `negative` is set, with `mantissa` below
`2 ^ 53` and `exponent` from `-1074` to `971`. -/
inductive F64 where
  | finite (negative : Bool) (mantissa : Nat) (exponent : Int)
  | infinite (negative : Bool)
  | nan
deriving DecidableEq, Repr

/-- The number of binary digits of `n`, found in at most `fuel` halvings. -/
def bit_length : Nat → Nat → Nat
  | 0, _ => 0
  | fuel + 1, n => if n = 0 then 0 else bit_length fuel (n / 2) + 1

/-- The largest `k` with `2 ^ k ≤ p / q`, for positive `p` and `q`. -/
def floor_log2 (p q : Nat) : Int :=
  let k : Int := (bit_length p p : Int) - (bit_length q q : Int)
  if (if k < 0 then q ≤ p * 2 ^ (-k).toNat else q * 2 ^ k.toNat ≤ p) then k else k - 1

/-- The binary64 value nearest to the fraction `p / q` (with `q` positive),
negated when `negative` is set: rounding to nearest, a tie going to the even
mantissa, as the default rounding mode does; a magnitude that rounds to `2 ^
1024` or more gives infinity. -/
def round_f64 (negative : Bool) (p q : Nat) : F64 :=
  if p = 0 then F64.finite negative 0 (-1074)
  else
    let e : Int := if floor_log2 p q - 52 < -1074 then -1074 else floor_log2 p q - 52
    let num := if e < 0 then p * 2 ^ (-e).toNat else p
    let den := if e < 0 then q else q * 2 ^ e.toNat
    let m0 := num / den
    let r := num % den
    let m := if 2 * r < den then m0 else if den < 2 * r then m0 + 1 else m0 + m0 % 2
    if m = 2 ^ 53 then
      (if e + 1 > 971 then F64.infinite negative else F64.finite negative (2 ^ 52) (e + 1))
    else if e > 971 then F64.infinite negative
    else F64.finite negative m e

/-- The product `a * b` of two `f64` values. -/
def F64.mul : F64 → F64 → F64
  | F64.nan, _ => F64.nan
  | _, F64.nan => F64.nan
  | F64.infinite s, F64.infinite t => F64.infinite (s != t)
  | F64.infinite s, F64.finite t m _ => if m = 0 then F64.nan else F64.infinite (s != t)
  | F64.finite s m _, F64.infinite t => if m = 0 then F64.nan else F64.infinite (s != t)
  | F64.finite s m1 e1, F64.finite t m2 e2 =>
    if e1 + e2 < 0 then round_f64 (s != t) (m1 * m2) (2 ^ (-(e1 + e2)).toNat)
    else round_f64 (s != t) (m1 * m2 * 2 ^ (e1 + e2).toNat) 1

/-- The conversion `static_cast<i32>(x)` of an `f64`: the value with its
fractional part dropped; `none` where the language leaves the conversion
undefined, which is when that value does not fit the type or `x` is not
finite. -/
def F64.to_i32 : F64 → Option Int
  | F64.finite negative m e =>
    let magnitude : Nat := if e < 0 then m / 2 ^ (-e).toNat else m * 2 ^ e.toNat
    let z : Int := if negative then -(magnitude : Int) else (magnitude : Int)
    if -(2 : Int) ^ (i32 - 1) ≤ z ∧ z < (2 : Int) ^ (i32 - 1) then some z else none
  | _ => none

/-- The constant `100.0`. -/
def F64.hundred : F64 := F64.finite false (25 * 2 ^ 48) (-46)

end vgce

namespace vgce.uci

/-- A decimal number as written: `digits * 10 ^ scale`, negated when `negative`
is set. -/
structure Decimal where
  negative : Bool
  digits : Nat
  scale : Int
deriving DecidableEq, Repr

/-- The decimal number that `std::from_chars` reads at the start of a text for a
floating-point type in the general format: an optional minus sign, digits with
an optional point among them (at least one digit), and an exponent `e` or `E`
with an optional sign when digits follow it; no plus sign and no white space is
accepted in front. `none` when the text does not start with such a number. -/
def read_decimal (sv : Str) : Option Decimal :=
  let negative := sv.head? = some '-'
  let body := if negative then sv.tail else sv
  let int_digits := body.takeWhile Char.isDigit
  let after_int := body.dropWhile Char.isDigit
  let has_point := after_int.head? = some '.'
  let frac_digits := if has_point then after_int.tail.takeWhile Char.isDigit else []
  let after_frac := if has_point then after_int.tail.dropWhile Char.isDigit else after_int
  if int_digits.isEmpty ∧ frac_digits.isEmpty then none
  else
    let exponent : Int :=
      if after_frac.head? = some 'e' ∨ after_frac.head? = some 'E' then
        let signed := after_frac.tail.head? = some '-' ∨ after_frac.tail.head? = some '+'
        let exp_digits :=
          (if signed then after_frac.tail.tail else after_frac.tail).takeWhile Char.isDigit
        if exp_digits.isEmpty then 0
        else if after_frac.tail.head? = some '-' then -(digitsValue exp_digits : Int)
        else (digitsValue exp_digits : Int)
      else 0
    some { negative := negative, digits := digitsValue (int_digits ++ frac_digits),
           scale := exponent - (frac_digits.length : Int) }

/-- The binary64 value nearest to a decimal number. -/
def Decimal.to_f64 (d : Decimal) : F64 :=
  if d.scale < 0 then round_f64 d.negative d.digits (10 ^ (-d.scale).toNat)
  else round_f64 d.negative (d.digits * 10 ^ d.scale.toNat) 1

/-- Whether a text starts with a word, letters of either case being alike. -/
def starts_with_word (word sv : Str) : Bool := word.isPrefixOf (sv.map Char.toLower)

/-- The call `std::from_chars(first, last, value)` of the standard library for
the type `f64`: the words `inf`, `infinity` and `nan` after an optional minus
sign are read as the special values; otherwise the decimal number at the start
of the text is read and rounded to the nearest value of the type. A text that
starts with neither is `invalid_argument`; a number whose magnitude is too large
for the type, or is not zero and so small that it rounds to zero, is
`result_out_of_range`; in both cases `value` keeps its initial `0.0`. -/
def from_chars_float (sv : Str) : Errc × F64 :=
  let negative := sv.head? = some '-'
  let body := if negative then sv.tail else sv
  if starts_with_word "inf".toList body then (Errc.ok, F64.infinite negative)
  else if starts_with_word "nan".toList body then (Errc.ok, F64.nan)
  else
    match read_decimal sv with
    | none => (Errc.invalid_argument, F64.finite false 0 (-1074))
    | some d =>
      match d.to_f64 with
      | F64.finite s m e =>
        if m = 0 ∧ d.digits ≠ 0 then (Errc.result_out_of_range, F64.finite false 0 (-1074))
        else (Errc.ok, F64.finite s m e)
      | _ => (Errc.result_out_of_range, F64.finite false 0 (-1074))

/-- The function `detail::parse_float`. -/
def parse_float (sv : Str) : Option F64 :=
  let result := from_chars_float sv
  if result.1 = Errc.ok then some result.2 else none

/-- The expression `static_cast<i32>(*val * 100.0)` of `parse_info_string` for
`val = parse_float(tok)`: `none` when `parse_float` returns no value. Where the
conversion to `i32` is undefined the program has no defined result; the reading
is `none` there too, and nothing is stated about such a token. -/
def read_static_eval (tok : Str) : Option Int :=
  match parse_float tok with
  | some val => (val.mul F64.hundred).to_i32
  | none => none

/-- The hundredfold of a decimal number with its fractional part dropped: the
number times 100, truncated toward zero. -/
def Decimal.hundredfold (d : Decimal) : Int :=
  let magnitude : Nat :=
    if d.scale + 2 < 0 then d.digits / 10 ^ (-(d.scale + 2)).toNat
    else d.digits * 10 ^ (d.scale + 2).toNat
  if d.negative then -(magnitude : Int) else (magnitude : Int)

/-- Whether a text, after an optional minus sign, starts with one of the words
`inf` and `nan` that `std::from_chars` reads as special values. -/
def names_special (sv : Str) : Bool :=
  starts_with_word "inf".toList (if sv.head? = some '-' then sv.tail else sv) ||
    starts_with_word "nan".toList (if sv.head? = some '-' then sv.tail else sv)

end vgce.uci

/-! # Theorems -/

namespace vgce.uci

/-! ## The two descriptions of the loop agree -/

theorem drop_eq_cons_at_index (tokens : List Str) (i : Nat) (h : i < tokens.length) :
    tokens.drop i = at_index tokens i :: tokens.drop (i + 1) := by
  induction tokens generalizing i with
  | nil => simp at h
  | cons t ts ih =>
    cases i with
    | zero => simp [at_index]
    | succ i =>
      have := ih i (by simpa using h)
      simpa [at_index] using this

theorem at_index_drop (tokens : List Str) (i j : Nat) :
    at_index (tokens.drop i) j = at_index tokens (i + j) := by
  simp [at_index, List.getD_eq_getElem?_getD, List.getElem?_drop]

theorem advance_pos (token : Str) (rest : List Str) (k : Nat)
    (h : advance token rest = some k) : 1 ≤ k := by
  unfold advance at h
  split at h
  · split_ifs at h <;> (injection h with h; omega)
  · injection h with h; omega

theorem key_of_text (k : Key) : key_of k.text = some k := by
  cases k <;> decide

theorem key_of_eq_some (token : Str) (k : Key) (h : key_of token = some k) : token = k.text := by
  have := List.find?_some h
  simp only [decide_eq_true_eq] at this
  exact this.symm

theorem loop_step (tokens : List Str) (fuel i : Nat) (data : InfoData)
    (h : i < tokens.length) :
    parse_info_search_loop tokens (fuel + 1) i data =
      match advance (at_index tokens i) (tokens.drop (i + 1)) with
      | none => store (at_index tokens i) (tokens.drop (i + 1)) data
      | some k => parse_info_search_loop tokens fuel (i + k)
          (store (at_index tokens i) (tokens.drop (i + 1)) data) := by
  have h1 : ∀ k, i + k < tokens.length ↔ k ≤ (tokens.drop (i + 1)).length := by
    intro k; simp only [List.length_drop]; omega
  have h2 : ∀ j, at_index tokens (i + (j + 1)) = at_index (tokens.drop (i + 1)) j := by
    intro j; rw [at_index_drop]; congr 1; omega
  have e1 := h2 0
  have e2 := h2 1
  have e3 := h2 2
  simp only [Nat.zero_add, Nat.reduceAdd] at e1 e2 e3
  rw [parse_info_search_loop]
  simp only [h, not_true_eq_false, if_false, h1, e1, e2, e3]
  generalize at_index tokens i = token
  generalize tokens.drop (i + 1) = rest
  have t1 : "depth".toList = Key.text .depth := rfl
  have t2 : "seldepth".toList = Key.text .seldepth := rfl
  have t3 : "score".toList = Key.text .score := rfl
  have t4 : "nodes".toList = Key.text .nodes := rfl
  have t5 : "nps".toList = Key.text .nps := rfl
  have t6 : "hashfull".toList = Key.text .hashfull := rfl
  have t7 : "tbhits".toList = Key.text .tbhits := rfl
  have t8 : "time".toList = Key.text .time := rfl
  have t9 : "multipv".toList = Key.text .multipv := rfl
  have t10 : "currmove".toList = Key.text .currmove := rfl
  have t11 : "currmovenumber".toList = Key.text .currmovenumber := rfl
  have t12 : "wdl".toList = Key.text .wdl := rfl
  have t13 : "pv".toList = Key.text .pv := rfl
  simp only [t1, t2, t3, t4, t5, t6, t7, t8, t9, t10, t11, t12, t13]
  cases hk : key_of token with
  | none =>
    have hne : ∀ k : Key, token ≠ k.text := by
      intro k hc; rw [hc, key_of_text] at hk; cases hk
    simp only [advance, store, hk, hne, false_and, if_false]
  | some k =>
    have ht := key_of_eq_some token k hk
    subst ht
    have hinj : ∀ k2 : Key, (k.text = k2.text) = (k = k2) := by
      intro k2; apply propext; constructor
      · intro hc; have := key_of_text k; rw [hc, key_of_text] at this; injection this with this; exact this.symm
      · intro hc; rw [hc]
    simp only [advance, store, hk, hinj]
    by_cases hg : k.arity ≤ rest.length
    · cases k <;> simp only [Key.arity] at hg <;> simp [Key.arity, store_key, hg]
    · cases k <;> simp only [Key.arity] at hg <;> simp [Key.arity, store_key, hg]

theorem loop_eq_scan (tokens : List Str) (fuel i : Nat) (data : InfoData) :
    parse_info_search_loop tokens fuel i data = scan fuel (tokens.drop i) data := by
  induction fuel generalizing i data with
  | zero => simp [parse_info_search_loop, scan]
  | succ fuel ih =>
    by_cases h : i < tokens.length
    · rw [loop_step tokens fuel i data h, drop_eq_cons_at_index tokens i h, scan]
      cases hk : advance (at_index tokens i) (tokens.drop (i + 1)) with
      | none => rfl
      | some k =>
        have := advance_pos _ _ _ hk
        simp only [ih, List.drop_drop]
        congr 2; omega
    · have : tokens.drop i = [] := List.drop_eq_nil_of_le (by omega)
      simp [parse_info_search_loop, scan, this, h]

/-! ## `split` -/

theorem split_token (tok : Str) (d : Char) (h : ∀ c ∈ tok, c ≠ d) : split tok d = [tok] := by
  induction tok with
  | nil => rfl
  | cons c cs ih =>
    have hc : c ≠ d := h c (List.mem_cons_self _ _)
    have := ih (fun x hx => h x (List.mem_cons_of_mem _ hx))
    simp [split, hc, this, consToken]

theorem split_token_delim (tok rest : Str) (d : Char) (h : ∀ c ∈ tok, c ≠ d) :
    split (tok ++ d :: rest) d = tok :: split rest d := by
  induction tok with
  | nil => simp [split]
  | cons c cs ih =>
    have hc : c ≠ d := h c (List.mem_cons_self _ _)
    have := ih (fun x hx => h x (List.mem_cons_of_mem _ hx))
    simp [split, hc, this, consToken]

theorem split_unwords (t : Str) (ts : List Str) (h : ∀ tok ∈ t :: ts, ∀ c ∈ tok, c ≠ ' ') :
    split (unwords (t :: ts)) ' ' = t :: ts := by
  induction ts generalizing t with
  | nil => exact split_token t ' ' (h t (List.mem_cons_self _ _))
  | cons t2 ts ih =>
    rw [unwords, split_token_delim _ _ _ (h t (List.mem_cons_self _ _)),
      ih t2 (fun tok htok => h tok (List.mem_cons_of_mem _ htok))]

/-! ## Reading numbers -/

theorem digitsValue_append (ds : List Char) (c : Char) :
    digitsValue (ds ++ [c]) = 10 * digitsValue ds + (c.toNat - 48) := by
  simp [digitsValue, List.foldl_append]

theorem digitsValue_eq_ofDigits (ds : List Char) :
    digitsValue ds = Nat.ofDigits 10 (ds.reverse.map (fun c => c.toNat - 48)) := by
  induction ds using List.reverseRecOn with
  | nil => simp [digitsValue]
  | append_singleton ds c ih =>
    rw [digitsValue_append, ih]
    simp [Nat.ofDigits_cons]
    omega

theorem takeWhile_digits (ds : List Char) (h : ∀ c ∈ ds, c.isDigit = true) :
    ds.takeWhile Char.isDigit = ds := by
  rw [List.takeWhile_eq_self_iff]; exact h

theorem parse_unsigned_decimal (bits : Nat) (txt : Str) (n : Nat) (h : IsDecimal txt n)
    (hn : n < 2 ^ bits) : parse_unsigned bits txt = some n := by
  obtain ⟨hne, hd, hv⟩ := h
  rw [← digitsValue_eq_ofDigits] at hv
  simp [parse_unsigned, from_chars_unsigned, takeWhile_digits txt hd, hne, hv, hn]

theorem parse_signed_decimal (bits : Nat) (txt : Str) (z : Int) (h : IsSignedDecimal txt z)
    (hz : -(2 ^ (bits - 1) : Int) ≤ z ∧ z < (2 ^ (bits - 1) : Int)) :
    parse_signed bits txt = some z := by
  rcases h with ⟨n, ⟨hne, hd, hv⟩, rfl⟩ | ⟨ds, n, rfl, ⟨hne, hd, hv⟩, rfl⟩
  · rw [← digitsValue_eq_ofDigits] at hv
    have hhead : ¬ (txt.head? = some '-') := by
      cases txt with
      | nil => exact absurd rfl hne
      | cons c cs =>
        intro hc
        have : c = '-' := by simpa using hc
        have := hd c (List.mem_cons_self _ _)
        subst c
        exact absurd this (by decide)
    simp [parse_signed, from_chars_signed, hhead, takeWhile_digits txt hd, hne, hv, hz]
  · rw [← digitsValue_eq_ofDigits] at hv
    simp [parse_signed, from_chars_signed, takeWhile_digits ds hd, hne, hv, hz]

theorem decimal_no_space (txt : Str) (n : Nat) (h : IsDecimal txt n) : ∀ c ∈ txt, c ≠ ' ' := by
  intro c hc hs
  have := h.2.1 c hc
  subst hs
  exact absurd this (by decide)

theorem signed_decimal_no_space (txt : Str) (z : Int) (h : IsSignedDecimal txt z) :
    ∀ c ∈ txt, c ≠ ' ' := by
  rcases h with ⟨n, h, _⟩ | ⟨ds, n, rfl, h, _⟩
  · exact decimal_no_space txt n h
  · intro c hc
    rcases List.mem_cons.1 hc with rfl | hc
    · decide
    · exact decimal_no_space ds n h c hc

/-! ## Running the loop to its end -/

theorem scan_fuel (f1 f2 : Nat) (toks : List Str) (d : InfoData)
    (h1 : toks.length ≤ f1) (h2 : toks.length ≤ f2) : scan f1 toks d = scan f2 toks d := by
  induction f1 generalizing f2 toks d with
  | zero =>
    have : toks = [] := List.length_eq_zero.1 (by omega)
    subst this
    cases f2 <;> rfl
  | succ f1 ih =>
    cases toks with
    | nil => cases f2 <;> rfl
    | cons tok rest =>
      cases f2 with
      | zero => simp at h2
      | succ f2 =>
        simp only [scan]
        cases advance tok rest with
        | none => rfl
        | some k =>
          have hl : (rest.drop (k - 1)).length ≤ rest.length := by
            simp only [List.length_drop]; omega
          simp only [List.length_cons] at h1 h2
          exact ih f2 _ _ (by omega) (by omega)

theorem scan_all_nil (d : InfoData) : scan_all [] d = d := rfl

theorem scan_all_cons (tok : Str) (rest : List Str) (d : InfoData) :
    scan_all (tok :: rest) d =
      match advance tok rest with
      | none => store tok rest d
      | some k => scan_all (rest.drop (k - 1)) (store tok rest d) := by
  unfold scan_all
  simp only [List.length_cons, scan]
  cases advance tok rest with
  | none => rfl
  | some k =>
    have hl : (rest.drop (k - 1)).length ≤ rest.length := by
      simp only [List.length_drop]; omega
    exact scan_fuel _ _ _ _ hl (le_refl _)

theorem parse_info_search_eq (line : Str) :
    parse_info_search line =
      some (scan_all ((split line ' ').drop 1) { raw_string := line }) := by
  unfold parse_info_search scan_all
  simp only [loop_eq_scan]
  congr 1
  apply scan_fuel
  · simp only [List.length_drop]; omega
  · exact le_refl _

/-- A key other than `pv` that is followed by enough tokens stores its field and
the loop goes on behind its values. -/
theorem scan_all_key (k : Key) (rest : List Str) (d : InfoData) (hk : k ≠ Key.pv)
    (hr : k.arity ≤ rest.length) :
    scan_all (k.text :: rest) d = scan_all (rest.drop k.arity) (store_key k rest d) := by
  rw [scan_all_cons]
  simp [advance, store, key_of_text, hr, hk]

/-- The key `pv` followed by at least one token takes all of them and ends the
loop. -/
theorem scan_all_pv (rest : List Str) (d : InfoData) (hr : 1 ≤ rest.length) :
    scan_all (Key.pv.text :: rest) d = { d with pv := d.pv ++ rest } := by
  rw [scan_all_cons]
  have : Key.pv.arity ≤ rest.length := hr
  simp [advance, store, key_of_text, this, store_key]

/-- A token that is no key is passed over. -/
theorem scan_all_other (tok : Str) (rest : List Str) (d : InfoData) (h : key_of tok = none) :
    scan_all (tok :: rest) d = scan_all rest d := by
  rw [scan_all_cons]
  simp [advance, store, h]

/-- A key that is not followed by enough tokens is passed over. -/
theorem scan_all_short (k : Key) (rest : List Str) (d : InfoData)
    (hr : rest.length < k.arity) : scan_all (k.text :: rest) d = scan_all rest d := by
  rw [scan_all_cons]
  have : ¬ k.arity ≤ rest.length := by omega
  simp [advance, store, key_of_text, this]

/-! ## C1 -/

/-- C1. For every line `info depth D score cp C nodes N pv m1 ... mk`, where `D`
is a decimal numeral of value at most 65535, `C` a decimal numeral with optional
minus sign of a value in signed 32-bit range, `N` a decimal numeral of a value in
unsigned 64-bit range and `m1 ... mk` are one or more tokens without a space,
`parse_line` returns a snapshot with depth `D`, score `Centipawns C`, nodes `N`
and pv `[m1, ..., mk]`, the line as raw text, and every other field absent. -/
theorem parse_line_depth_score_nodes_pv (read_eval : Str → Option Int)
    (txtD txtC txtN : Str) (D N : Nat) (C : Int) (m : Str) (ms : List Str)
    (hD : IsDecimal txtD D) (hDr : D ≤ 65535)
    (hC : IsSignedDecimal txtC C) (hCr : -2147483648 ≤ C ∧ C ≤ 2147483647)
    (hN : IsDecimal txtN N) (hNr : N < 2 ^ 64)
    (hms : ∀ tok ∈ m :: ms, tok ≠ [] ∧ ∀ c ∈ tok, c ≠ ' ') :
    parse_line read_eval
        ("info depth ".toList ++ txtD ++ " score cp ".toList ++ txtC ++ " nodes ".toList
          ++ txtN ++ " pv ".toList ++ unwords (m :: ms)) =
      Outcome.returned (some
        { depth := some D
          score := some { type := ScoreType.Centipawns, value := C }
          nodes := some N
          pv := m :: ms
          raw_string := "info depth ".toList ++ txtD ++ " score cp ".toList ++ txtC
            ++ " nodes ".toList ++ txtN ++ " pv ".toList ++ unwords (m :: ms) }) := by
  have hline : "info depth ".toList ++ txtD ++ " score cp ".toList ++ txtC ++ " nodes ".toList
        ++ txtN ++ " pv ".toList ++ unwords (m :: ms) =
      unwords ("info".toList :: Key.depth.text :: txtD :: Key.score.text :: "cp".toList :: txtC
        :: Key.nodes.text :: txtN :: Key.pv.text :: m :: ms) := by
    simp [unwords, Key.text]
  have hsplit : split ("info depth ".toList ++ txtD ++ " score cp ".toList ++ txtC
        ++ " nodes ".toList ++ txtN ++ " pv ".toList ++ unwords (m :: ms)) ' ' =
      "info".toList :: Key.depth.text :: txtD :: Key.score.text :: "cp".toList :: txtC
        :: Key.nodes.text :: txtN :: Key.pv.text :: m :: ms := by
    rw [hline]
    apply split_unwords
    intro tok htok
    simp only [List.mem_cons] at htok
    rcases htok with rfl | rfl | rfl | rfl | rfl | rfl | rfl | rfl | rfl | h
    · decide
    · decide
    · exact decimal_no_space _ _ hD
    · decide
    · decide
    · exact signed_decimal_no_space _ _ hC
    · decide
    · exact decimal_no_space _ _ hN
    · decide
    · exact (hms tok (List.mem_cons.2 h)).2
  have h1 : ("info string".toList).isPrefixOf ("info depth ".toList ++ txtD ++ " score cp ".toList
      ++ txtC ++ " nodes ".toList ++ txtN ++ " pv ".toList ++ unwords (m :: ms)) = false := by
    simp [List.isPrefixOf]
  have h2 : ("info".toList).isPrefixOf ("info depth ".toList ++ txtD ++ " score cp ".toList
      ++ txtC ++ " nodes ".toList ++ txtN ++ " pv ".toList ++ unwords (m :: ms)) = true := by
    simp [List.isPrefixOf]
  have hd := parse_unsigned_decimal u16 txtD D hD (by simp only [u16]; omega)
  have hn := parse_unsigned_decimal u64 txtN N hN (by simpa [u64] using hNr)
  have hc := parse_signed_decimal i32 txtC C hC (by simp only [i32]; constructor <;> omega)
  unfold parse_line
  rw [h1, h2, parse_info_search_eq, hsplit]
  simp only [List.drop_succ_cons, List.drop_zero, Bool.false_eq_true, if_false, if_true]
  rw [scan_all_key Key.depth _ _ (by decide) (by simp [Key.arity])]
  simp only [Key.arity, List.drop_succ_cons, List.drop_zero]
  rw [scan_all_key Key.score _ _ (by decide) (by simp [Key.arity])]
  simp only [Key.arity, List.drop_succ_cons, List.drop_zero]
  rw [scan_all_key Key.nodes _ _ (by decide) (by simp [Key.arity])]
  simp only [Key.arity, List.drop_succ_cons, List.drop_zero]
  rw [scan_all_pv _ _ (by simp)]
  simp [store_key, at_index, parse_score, hd, hn, hc]

/-- C1, on the line of the specification. -/
theorem parse_line_depth_score_nodes_pv_witness :
    parse_line (fun _ => none) "info depth 12 score cp 34 nodes 5000 pv e2e4 e7e5".toList =
      Outcome.returned (some
        { depth := some 12
          score := some { type := ScoreType.Centipawns, value := 34 }
          nodes := some 5000
          pv := ["e2e4".toList, "e7e5".toList]
          raw_string := "info depth 12 score cp 34 nodes 5000 pv e2e4 e7e5".toList }) :=
  parse_line_depth_score_nodes_pv (fun _ => none) "12".toList "34".toList "5000".toList
    12 5000 34 "e2e4".toList ["e7e5".toList]
    ⟨by decide, by decide, by decide⟩ (by decide)
    (Or.inl ⟨34, ⟨by decide, by decide, by decide⟩, rfl⟩) (by decide)
    ⟨by decide, by decide, by decide⟩ (by decide) (by decide)

/-! ## C2: a malformed value of a numeric key -/

theorem parse_unsigned_no_digit (bits : Nat) (val : Str)
    (h : ∀ c, val.head? = some c → c.isDigit = false) : parse_unsigned bits val = none := by
  cases val with
  | nil => simp [parse_unsigned, from_chars_unsigned]
  | cons c cs =>
    have := h c rfl
    simp [parse_unsigned, from_chars_unsigned, List.takeWhile, this]

theorem store_key_numeric_malformed (k : Key) (val : Str) (bs : List Str) (d : InfoData)
    (hk : k.numeric = true) (h : ∀ c, val.head? = some c → c.isDigit = false) :
    store_key k (val :: bs) d = erase_field k d := by
  cases k <;> simp [Key.numeric] at hk <;>
    simp [store_key, erase_field, at_index, parse_unsigned_no_digit _ val h]

/-- What an iteration stores does not depend on the raw text, which it keeps. -/
theorem store_raw (tok : Str) (rest : List Str) (d : InfoData) (r : Str) :
    store tok rest (set_raw r d) = set_raw r (store tok rest d) := by
  unfold store set_raw
  cases key_of tok with
  | none => rfl
  | some k =>
    by_cases hg : k.arity ≤ rest.length
    · simp only [hg, if_true]
      cases k <;> simp only [store_key]
      split <;> rfl
    · simp only [hg, if_false]

theorem erase_field_raw (k : Key) (d : InfoData) (r : Str) :
    erase_field k (set_raw r d) = set_raw r (erase_field k d) := by
  cases k <;> rfl

/-- An iteration on a token other than the key `k` stores the same whether the
field of `k` was made absent before or is made absent afterwards. -/
theorem store_erase (k : Key) (tok : Str) (rest : List Str) (d : InfoData)
    (h : tok ≠ k.text) :
    store tok rest (erase_field k d) = erase_field k (store tok rest d) := by
  unfold store
  cases hk2 : key_of tok with
  | none => rfl
  | some k2 =>
    have hne : k2 ≠ k := by
      intro hc; subst hc; exact h (key_of_eq_some tok k2 hk2)
    by_cases hg : k2.arity ≤ rest.length
    · simp only [hg, if_true]
      cases k <;> cases k2 <;> first
        | exact absurd rfl hne
        | rfl
        | (simp only [store_key, erase_field]; split <;> rfl)
    · simp only [hg, if_false]

/-- An iteration whose values all lie before a later part of the token vector
goes the same way and stores the same when that later part is replaced. -/
theorem step_prefix (tok : Str) (pre tail1 tail2 : List Str) (j : Nat)
    (ha : advance tok (pre ++ tail1) = some j) (hj : j ≤ pre.length + 1)
    (hlen : tail2.length ≤ tail1.length) :
    advance tok (pre ++ tail2) = some j ∧
      ∀ d, store tok (pre ++ tail1) d = store tok (pre ++ tail2) d := by
  unfold advance store at *
  cases hk : key_of tok with
  | none => simp only [hk] at ha ⊢; exact ⟨ha, fun _ => trivial⟩
  | some k =>
    simp only [hk] at ha ⊢
    by_cases hg : k.arity ≤ (pre ++ tail1).length
    · simp only [hg, if_true] at ha ⊢
      by_cases hpv : k = Key.pv
      · simp [hpv] at ha
      · simp only [hpv, if_false, Option.some.injEq] at ha ⊢
        have hp : k.arity ≤ pre.length := by omega
        have hg2 : k.arity ≤ (pre ++ tail2).length := by
          simp only [List.length_append]; omega
        simp only [hg2, if_true]
        refine ⟨by rw [ha], fun d => ?_⟩
        cases k <;> simp only [Key.arity] at hp <;>
          first
          | exact absurd rfl hpv
          | (simp only [store_key, at_index, List.getD_eq_getElem?_getD]
             repeat rw [List.getElem?_append_left (by omega)])
    · simp only [hg, if_false] at ha ⊢
      have hg2 : ¬ k.arity ≤ (pre ++ tail2).length := by
        simp only [List.length_append] at hg ⊢; omega
      simp only [hg2, if_false]
      exact ⟨ha, fun _ => trivial⟩

theorem scan_raw (fuel : Nat) (toks : List Str) (d : InfoData) (r : Str) :
    scan fuel toks (set_raw r d) = set_raw r (scan fuel toks d) := by
  induction fuel generalizing toks d with
  | zero => rfl
  | succ fuel ih =>
    cases toks with
    | nil => rfl
    | cons tok rest =>
      simp only [scan]
      cases advance tok rest with
      | none => exact store_raw tok rest d r
      | some j => simp only [store_raw, ih]

theorem scan_erase (k : Key) (fuel : Nat) (toks : List Str) (d : InfoData)
    (h : k.text ∉ toks) :
    scan fuel toks (erase_field k d) = erase_field k (scan fuel toks d) := by
  induction fuel generalizing toks d with
  | zero => rfl
  | succ fuel ih =>
    cases toks with
    | nil => rfl
    | cons tok rest =>
      have htok : tok ≠ k.text := fun hc => h (hc ▸ List.mem_cons_self _ _)
      have hrest : ∀ j, k.text ∉ rest.drop j := fun j hc =>
        h (List.mem_cons_of_mem _ (List.mem_of_mem_drop hc))
      simp only [scan]
      cases advance tok rest with
      | none => exact store_erase k tok rest d htok
      | some j => simp only [store_erase k tok rest d htok, ih _ _ (hrest _)]

/-- When the loop reaches the end of `pre`, the iterations over `pre` do the same
whatever follows `pre`, provided what follows does not get longer. -/
theorem scan_all_reaches (fuel : Nat) (pre tail1 tail2 : List Str)
    (hr : reaches fuel (pre ++ tail1) pre.length = true)
    (hlen : tail2.length ≤ tail1.length) :
    ∃ g : InfoData → InfoData,
      (∀ d r, g (set_raw r d) = set_raw r (g d)) ∧
      (∀ d, scan_all (pre ++ tail1) d = scan_all tail1 (g d)) ∧
      (∀ d, scan_all (pre ++ tail2) d = scan_all tail2 (g d)) := by
  induction fuel generalizing pre with
  | zero =>
    cases pre with
    | nil => exact ⟨id, fun _ _ => rfl, fun _ => rfl, fun _ => rfl⟩
    | cons tok pre => simp [reaches] at hr
  | succ fuel ih =>
    cases pre with
    | nil => exact ⟨id, fun _ _ => rfl, fun _ => rfl, fun _ => rfl⟩
    | cons tok pre =>
      simp only [List.cons_append, List.length_cons, reaches, List.append_eq] at hr
      cases ha : advance tok (pre ++ tail1) with
      | none => simp [ha] at hr
      | some j =>
        simp only [ha, Bool.and_eq_true, decide_eq_true_eq] at hr
        obtain ⟨hj, hr⟩ := hr
        have hj1 := advance_pos _ _ _ ha
        obtain ⟨ha2, hst⟩ := step_prefix tok pre tail1 tail2 j ha hj hlen
        have hd1 : (pre ++ tail1).drop (j - 1) = pre.drop (j - 1) ++ tail1 := by
          rw [List.drop_append_of_le_length (by omega)]
        have hd2 : (pre ++ tail2).drop (j - 1) = pre.drop (j - 1) ++ tail2 := by
          rw [List.drop_append_of_le_length (by omega)]
        have hl : pre.length + 1 - j = (pre.drop (j - 1)).length := by
          simp only [List.length_drop]; omega
        rw [hd1, hl] at hr
        obtain ⟨g, hg0, hg1, hg2⟩ := ih (pre.drop (j - 1)) hr
        refine ⟨fun d => g (store tok (pre ++ tail1) d), ?_, ?_, ?_⟩
        · intro d r; simp only [store_raw, hg0]
        · intro d
          simp only [List.cons_append]
          rw [scan_all_cons, ha]
          simp only [hd1, hg1]
        · intro d
          simp only [List.cons_append]
          rw [scan_all_cons, ha2]
          simp only [hd2, hg2, hst]

theorem isPrefixOf_unwords (p t : Str) (ts : List Str) (h : p.isPrefixOf t = true) :
    p.isPrefixOf (unwords (t :: ts)) = true := by
  rw [List.isPrefixOf_iff_prefix] at h ⊢
  cases ts with
  | nil => simpa [unwords] using h
  | cons t2 ts => rw [unwords]; exact h.trans (List.prefix_append _ _)

theorem field_erase_field (k : Key) (d : InfoData) (r : Str) :
    field k (set_raw r (erase_field k d)) = none := by
  cases k <;> rfl

/-- C2 as stated fails. In `info currmove depth x` the key `depth` occurs once,
before any `pv`, and is followed by the value `x`, which does not begin with a
digit; but `depth` is taken as the value of `currmove`, so the current-move text
is `depth`, while for the line without the pair, `info currmove`, it is empty.
In `info depth x string nodes 5` the key stands in key position, but the line
without the pair is `info string nodes 5`, which the field parser never sees:
the node count is 5 for the first line and absent for the second. And the raw
text, a field of the snapshot, is the line itself, so it differs whenever a pair
is removed, as for `info depth x nodes 10 pv a2a3`. -/
theorem parse_line_malformed_numeric_counterexample :
    (∃ d d2, parse_line (fun _ => none) "info currmove depth x".toList
          = Outcome.returned (some d)
        ∧ parse_line (fun _ => none) "info currmove".toList = Outcome.returned (some d2)
        ∧ d.currmove = "depth".toList ∧ d2.currmove = []) ∧
    (∃ d d2, parse_line (fun _ => none) "info depth x string nodes 5".toList
          = Outcome.returned (some d)
        ∧ parse_line (fun _ => none) "info string nodes 5".toList = Outcome.returned (some d2)
        ∧ d.nodes = some 5 ∧ d2.nodes = none) ∧
    (∃ d d2, parse_line (fun _ => none) "info depth x nodes 10 pv a2a3".toList
          = Outcome.returned (some d)
        ∧ parse_line (fun _ => none) "info nodes 10 pv a2a3".toList
          = Outcome.returned (some d2)
        ∧ d.raw_string ≠ d2.raw_string) :=
  ⟨⟨_, _, rfl, rfl, rfl, rfl⟩, ⟨_, _, rfl, rfl, rfl, rfl⟩, ⟨_, _, rfl, rfl, by decide⟩⟩

/-- C2, amended. Take a line whose tokens (separated by single spaces, none
containing a space) are `t0`, then `pre`, then a numeric key `k`, a value `val`
that does not begin with a digit, then `bs`, where `t0` starts with `info`,
neither this line nor the line without the pair `k val` starts with
`info string`, the key stands in key position, and the key does not occur again
among `bs`. Then `parse_line` returns a snapshot for both lines, the field of
`k` is absent in the first, and the first snapshot is the second one with the
field of `k` absent and the raw text of the first line. -/
theorem parse_line_malformed_numeric (read_eval : Str → Option Int) (t0 : Str)
    (pre bs : List Str) (k : Key) (val : Str)
    (hk : k.numeric = true)
    (hinfo : "info".toList.isPrefixOf t0 = true)
    (hsp : ∀ tok ∈ t0 :: (pre ++ k.text :: val :: bs), ∀ c ∈ tok, c ≠ ' ')
    (hstr : "info string".toList.isPrefixOf (unwords (t0 :: (pre ++ k.text :: val :: bs))) = false)
    (hstr2 : "info string".toList.isPrefixOf (unwords (t0 :: (pre ++ bs))) = false)
    (hpos : key_position (t0 :: (pre ++ k.text :: val :: bs)) (pre.length + 1) = true)
    (hval : ∀ c, val.head? = some c → c.isDigit = false)
    (honce : k.text ∉ bs) :
    ∃ d d', parse_line read_eval (unwords (t0 :: (pre ++ k.text :: val :: bs)))
          = Outcome.returned (some d)
      ∧ parse_line read_eval (unwords (t0 :: (pre ++ bs))) = Outcome.returned (some d')
      ∧ field k d = none
      ∧ d = set_raw (unwords (t0 :: (pre ++ k.text :: val :: bs))) (erase_field k d') := by
  have hsp2 : ∀ tok ∈ t0 :: (pre ++ bs), ∀ c ∈ tok, c ≠ ' ' := by
    intro tok htok
    apply hsp tok
    simp only [List.mem_cons, List.mem_append] at htok ⊢
    tauto
  have hpv : k ≠ Key.pv := by intro hc; subst hc; simp [Key.numeric] at hk
  have har : k.arity = 1 := by cases k <;> simp [Key.numeric] at hk <;> rfl
  have hr : reaches (pre.length + 1) (pre ++ k.text :: val :: bs) pre.length = true := by
    simpa [key_position] using hpos
  obtain ⟨g, hg0, hg1, hg2⟩ :=
    scan_all_reaches (pre.length + 1) pre (k.text :: val :: bs) bs hr (by simp; omega)
  have e1 : scan_all (k.text :: val :: bs) = fun d => erase_field k (scan_all bs d) := by
    funext d
    rw [scan_all_key k _ _ hpv (by simp [har]), har, store_key_numeric_malformed k val bs d hk hval]
    exact scan_erase k _ _ _ honce
  have hraw : ∀ toks d r, scan_all toks (set_raw r d) = set_raw r (scan_all toks d) :=
    fun toks d r => scan_raw _ toks d r
  refine ⟨set_raw (unwords (t0 :: (pre ++ k.text :: val :: bs)))
      (erase_field k (scan_all bs (g { raw_string := unwords (t0 :: (pre ++ bs)) }))),
    scan_all bs (g { raw_string := unwords (t0 :: (pre ++ bs)) }), ?_, ?_, ?_, rfl⟩
  · unfold parse_line
    rw [hstr, isPrefixOf_unwords _ _ _ hinfo, parse_info_search_eq, split_unwords _ _ hsp]
    simp only [Bool.false_eq_true, if_false, if_true, List.drop_succ_cons, List.drop_zero]
    rw [hg1, e1]
    rw [← erase_field_raw, ← hraw, ← hg0]
    rfl
  · unfold parse_line
    rw [hstr2, isPrefixOf_unwords _ _ _ hinfo, parse_info_search_eq, split_unwords _ _ hsp2]
    simp only [Bool.false_eq_true, if_false, if_true, List.drop_succ_cons, List.drop_zero]
    rw [hg2]
  · exact field_erase_field k _ _

/-- C2, amended, on the line of the specification: `info depth x nodes 10 pv a2a3`
is parsed to the snapshot of `info nodes 10 pv a2a3` with its own raw text, the
depth being absent. -/
theorem parse_line_malformed_numeric_witness :
    ∃ d d', parse_line (fun _ => none) "info depth x nodes 10 pv a2a3".toList
          = Outcome.returned (some d)
      ∧ parse_line (fun _ => none) "info nodes 10 pv a2a3".toList = Outcome.returned (some d')
      ∧ field Key.depth d = none
      ∧ d = set_raw "info depth x nodes 10 pv a2a3".toList (erase_field Key.depth d') :=
  parse_line_malformed_numeric (fun _ => none) "info".toList []
    ["nodes".toList, "10".toList, "pv".toList, "a2a3".toList] Key.depth "x".toList
    (by decide) (by decide) (by decide) (by decide) (by decide) (by decide) (by decide)
    (by decide)

end vgce.uci

namespace vgce.model

open vgce.uci

/-! ## The map of the children -/

theorem find_eq_none_iff (cs : List (Str × Node)) (key : Str) :
    find cs key = none ↔ key ∉ cs.map Prod.fst := by
  induction cs with
  | nil => simp [find]
  | cons e rest ih =>
    obtain ⟨k, n⟩ := e
    by_cases h : k = key
    · simp [find, h]
    · simp [find, h, ih, Ne.symm h]

theorem find_assign (cs : List (Str × Node)) (key : Str) (node : Node) (k2 : Str) :
    find (assign cs key node) k2 =
      if k2 = key then (find cs key).map (fun _ => node) else find cs k2 := by
  induction cs with
  | nil => simp [find, assign]
  | cons e rest ih =>
    obtain ⟨k, n⟩ := e
    by_cases h : k = key
    · subst h
      by_cases h2 : k2 = k
      · simp [find, assign, h2]
      · simp [find, assign, h2, Ne.symm h2]
    · by_cases h2 : k2 = key
      · subst h2; simp [find, assign, h, ih]
      · simp only [assign, h, if_false, find, ih, h2]

theorem find_emplace (cs : List (Str × Node)) (key : Str) (node : Node) (k2 : Str)
    (hnone : find cs key = none) :
    find (emplace cs key node) k2 = if k2 = key then some node else find cs k2 := by
  induction cs with
  | nil =>
    by_cases h2 : k2 = key
    · simp [find, emplace, h2]
    · simp [find, emplace, h2, Ne.symm h2]
  | cons e rest ih =>
    obtain ⟨k, n⟩ := e
    have hk : k ≠ key := by
      intro hc; simp [find, hc] at hnone
    have hrest : find rest key = none := by simpa [find, hk] using hnone
    by_cases hlt : key < k
    · by_cases h2 : k2 = key
      · simp [find, emplace, hlt, h2]
      · simp [find, emplace, hlt, h2, Ne.symm h2]
    · simp only [emplace, hlt, if_false, find, ih hrest]
      by_cases h2 : k2 = key
      · subst h2; simp [hk]
      · simp [h2]

theorem keys_assign (cs : List (Str × Node)) (key : Str) (node : Node) :
    (assign cs key node).map Prod.fst = cs.map Prod.fst := by
  induction cs with
  | nil => rfl
  | cons e rest ih =>
    obtain ⟨k, n⟩ := e
    by_cases h : k = key
    · simp [assign, h]
    · simp [assign, h, ih]

theorem mem_keys_emplace (cs : List (Str × Node)) (key : Str) (node : Node) (k2 : Str) :
    k2 ∈ (emplace cs key node).map Prod.fst ↔ k2 = key ∨ k2 ∈ cs.map Prod.fst := by
  induction cs with
  | nil => simp [emplace]
  | cons e rest ih =>
    obtain ⟨k, n⟩ := e
    by_cases hlt : key < k
    · simp [emplace, hlt]
    · simp only [emplace, hlt, if_false, List.map_cons, List.mem_cons, ih]
      tauto

theorem sorted_emplace (cs : List (Str × Node)) (key : Str) (node : Node)
    (hs : (cs.map Prod.fst).Pairwise (· < ·)) (hnone : find cs key = none) :
    ((emplace cs key node).map Prod.fst).Pairwise (· < ·) := by
  induction cs with
  | nil => simp [emplace]
  | cons e rest ih =>
    obtain ⟨k, n⟩ := e
    have hk : k ≠ key := by
      intro hc; simp [find, hc] at hnone
    have hrest : find rest key = none := by simpa [find, hk] using hnone
    simp only [List.map_cons, List.pairwise_cons] at hs
    by_cases hlt : key < k
    · simp only [emplace, hlt, if_true, List.map_cons, List.pairwise_cons]
      refine ⟨?_, hs⟩
      intro k2 hk2
      rcases List.mem_cons.1 hk2 with rfl | hk2
      · exact hlt
      · exact lt_trans hlt (hs.1 k2 hk2)
    · simp only [emplace, hlt, if_false, List.map_cons, List.pairwise_cons]
      refine ⟨?_, ih hs.2 hrest⟩
      intro k2 hk2
      rcases (mem_keys_emplace rest key node k2).1 hk2 with rfl | hk2
      · exact lt_of_le_of_ne (not_lt.1 hlt) hk
      · exact hs.1 k2 hk2

/-! ## Following a path -/

theorem node_at_nil (n : Node) : node_at n [] = some n := rfl

theorem node_at_cons (n : Node) (k : Str) (p : List Str) :
    node_at n (k :: p) = (find n.children k).bind (fun c => node_at c p) := by
  simp only [node_at]
  cases find n.children k <;> rfl

theorem node_at_congr_children (n1 n2 : Node) (p : List Str) (h : n1.children = n2.children)
    (hp : p ≠ []) : node_at n1 p = node_at n2 p := by
  cases p with
  | nil => exact absurd rfl hp
  | cons k p => rw [node_at_cons, node_at_cons, h]

theorem node_at_no_children (n : Node) (p : List Str) (h : n.children = []) (hp : p ≠ []) :
    node_at n p = none := by
  cases p with
  | nil => exact absurd rfl hp
  | cons k p => rw [node_at_cons, h]; rfl

/-! ## `clear_pv_flags` -/

theorem clear_pv_flags_children_eq (cs : List (Str × Node)) :
    clear_pv_flags_children cs = cs.map (fun e => (e.1, clear_pv_flags e.2)) := by
  induction cs with
  | nil => simp [clear_pv_flags_children]
  | cons e rest ih => obtain ⟨k, n⟩ := e; simp [clear_pv_flags_children, ih]

theorem clear_pv_flags_eq (n : Node) :
    clear_pv_flags n =
      { n with is_pv_node := false
               children := n.children.map (fun e => (e.1, clear_pv_flags e.2)) } := by
  cases n; simp [clear_pv_flags, clear_pv_flags_children_eq]

theorem find_map_clear (cs : List (Str × Node)) (k : Str) :
    find (cs.map (fun e => (e.1, clear_pv_flags e.2))) k = (find cs k).map clear_pv_flags := by
  induction cs with
  | nil => rfl
  | cons e rest ih =>
    obtain ⟨k0, n⟩ := e
    by_cases h : k0 = k
    · simp [find, h]
    · simp [find, h, ih]

theorem node_at_clear (n : Node) (p : List Str) :
    node_at (clear_pv_flags n) p = (node_at n p).map clear_pv_flags := by
  induction p generalizing n with
  | nil => rfl
  | cons k p ih =>
    rw [node_at_cons, node_at_cons, clear_pv_flags_eq]
    simp only [find_map_clear]
    cases find n.children k with
    | none => rfl
    | some c => exact ih c

theorem child_keys_clear (n : Node) : child_keys (clear_pv_flags n) = child_keys n := by
  rw [clear_pv_flags_eq]; simp [child_keys, Function.comp_def]

theorem scalars_clear (n : Node) :
    (clear_pv_flags n).scalars = { n.scalars with is_pv_node := false } := by
  rw [clear_pv_flags_eq]; rfl

/-! ## The walk of `update` -/

theorem touch_children (data : InfoData) (c : Node) : (touch data c).children = c.children := by
  unfold touch; split <;> split <;> rfl

theorem touch_move (data : InfoData) (c : Node) : (touch data c).move = c.move := by
  unfold touch; split <;> split <;> rfl

theorem touch_data (data : InfoData) (c : Node) : (touch data c).data = c.data := by
  unfold touch; split <;> split <;> rfl

theorem touch_visit_count (data : InfoData) (c : Node) :
    (touch data c).visit_count = (c.visit_count + 1) % 2 ^ u64 := by
  unfold touch; split <;> split <;> rfl

theorem touch_is_pv_node (data : InfoData) (c : Node) :
    (touch data c).is_pv_node = (is_main data || c.is_pv_node) := by
  unfold touch; cases is_main data <;> simp <;> split <;> rfl

theorem touch_multipv_index (data : InfoData) (c : Node) :
    (touch data c).multipv_index = data.multipv.getD c.multipv_index := by
  unfold touch; split <;> split <;> simp_all

theorem find_walk (data : InfoData) (m : Str) (ms : List Str) (n : Node) (k : Str) :
    find (update_walk data (m :: ms) n).children k =
      if k = m then some (update_walk data ms (touch data (origin n [m])))
      else find n.children k := by
  have ho : origin n [m] = (find n.children m).getD { Node.make with move := m } := by
    simp only [origin, node_at_cons, List.getLastD]
    cases find n.children m <;> rfl
  rw [ho]
  simp only [update_walk]
  cases hf : find n.children m with
  | none => simp only [find_emplace _ _ _ _ hf]; rfl
  | some c => simp only [find_assign, hf]; rfl

theorem child_keys_walk (data : InfoData) (m : Str) (ms : List Str) (n : Node)
    (hs : (child_keys n).Pairwise (· < ·)) :
    (child_keys (update_walk data (m :: ms) n)).Pairwise (· < ·) ∧
      ∀ k, k ∈ child_keys (update_walk data (m :: ms) n) ↔ k = m ∨ k ∈ child_keys n := by
  simp only [update_walk, child_keys]
  cases hf : find n.children m with
  | none =>
    exact ⟨sorted_emplace _ _ _ hs hf, fun k => mem_keys_emplace _ _ _ k⟩
  | some c =>
    simp only [keys_assign]
    refine ⟨hs, fun k => ⟨Or.inr, fun h => ?_⟩⟩
    rcases h with rfl | h
    · by_contra hc; rw [← find_eq_none_iff, hf] at hc; cases hc
    · exact h

theorem walk_scalars (data : InfoData) (pv : List Str) (n : Node) :
    (update_walk data pv n).scalars =
      (if pv = [] then { n with data := data } else n).scalars := by
  cases pv with
  | nil => rfl
  | cons m ms =>
    simp only [update_walk]
    cases find n.children m <;> rfl

theorem node_at_touch (data : InfoData) (c : Node) (p : List Str) (hp : p ≠ []) :
    node_at (touch data c) p = node_at c p :=
  node_at_congr_children _ _ p (touch_children data c) hp

theorem node_at_origin (n : Node) (m : Str) (p : List Str) (hp : p ≠ []) :
    node_at (origin n [m]) p = node_at n (m :: p) := by
  simp only [origin, node_at_cons]
  cases find n.children m with
  | none => exact node_at_no_children _ p rfl hp
  | some c => rfl

/-- A path that is not a prefix of the moves walked leads where it led before. -/
theorem node_at_walk_off (data : InfoData) (pv : List Str) (n : Node) (p : List Str)
    (h : ¬ p <+: pv) : node_at (update_walk data pv n) p = node_at n p := by
  induction pv generalizing n p with
  | nil =>
    cases p with
    | nil => exact absurd (List.prefix_refl _) h
    | cons k p => exact node_at_congr_children _ _ _ rfl (by simp)
  | cons m ms ih =>
    cases p with
    | nil => exact absurd (List.nil_prefix) h
    | cons k p =>
      rw [node_at_cons, find_walk]
      by_cases hk : k = m
      · subst hk
        have hp : ¬ p <+: ms := fun hc => h ((List.prefix_cons_inj k).2 hc)
        have hne : p ≠ [] := by rintro rfl; exact hp List.nil_prefix
        simp only [if_true, Option.bind]
        rw [ih _ _ hp, node_at_touch _ _ _ hne, node_at_origin _ _ _ hne]
      · simp only [hk, if_false]
        rw [node_at_cons]

theorem origin_walk_step (data : InfoData) (n : Node) (m : Str) (p : List Str) (hp : p ≠ []) :
    origin (touch data (origin n [m])) p = origin n (m :: p) := by
  have h1 : node_at (touch data (origin n [m])) p = node_at n (m :: p) := by
    rw [node_at_touch _ _ _ hp, node_at_origin _ _ _ hp]
  have h2 : ∀ (x : Node) (q : List Str),
      origin x q = (node_at x q).getD { Node.make with move := q.getLastD [] } := fun _ _ => rfl
  rw [h2 _ p, h2 n (m :: p), h1]
  cases p with
  | nil => exact absurd rfl hp
  | cons k p => rfl

/-- A non-empty prefix of the moves walked leads to a node after the walk: the
node that was there, or a new one, stepped into once, and holding the snapshot
when the prefix is the whole of the moves. -/
theorem node_at_walk_on (data : InfoData) (pv : List Str) (n : Node) (p : List Str)
    (h : p <+: pv) (hp : p ≠ []) :
    ∃ c, node_at (update_walk data pv n) p = some c ∧
      c.scalars = (if p = pv then { touch data (origin n p) with data := data }
        else touch data (origin n p)).scalars := by
  induction pv generalizing n p with
  | nil => exact absurd (List.prefix_nil.1 h) hp
  | cons m ms ih =>
    cases p with
    | nil => exact absurd rfl hp
    | cons k p =>
      obtain ⟨rfl, h2⟩ := List.cons_prefix_cons.1 h
      rw [node_at_cons, find_walk]
      simp only [if_true, Option.bind]
      by_cases hne : p = []
      · subst hne
        refine ⟨_, rfl, ?_⟩
        rw [walk_scalars]
        by_cases hms : ms = []
        · simp [hms]
        · have : ¬ ([k] = k :: ms) := by simpa using fun hc => hms hc
          simp [hms]
      · obtain ⟨c, hc, hs⟩ := ih (touch data (origin n [k])) p h2 hne
        refine ⟨c, hc, ?_⟩
        rw [hs, origin_walk_step _ _ _ _ hne]
        simp only [List.cons.injEq, true_and]

theorem node_at_walk_isSome (data : InfoData) (pv : List Str) (n : Node) (p : List Str) :
    (node_at (update_walk data pv n) p).isSome = true ↔
      ((node_at n p).isSome = true ∨ p <+: pv) := by
  by_cases h : p <+: pv
  · by_cases hp : p = []
    · subst hp; simp [node_at_nil]
    · obtain ⟨c, hc, _⟩ := node_at_walk_on data pv n p h hp
      simp [hc, h]
  · rw [node_at_walk_off data pv n p h]; simp [h]

/-! ## The order of the children -/

theorem sorted_make (m : Str) : Sorted { Node.make with move := m } := by
  intro p c h
  cases p with
  | nil => cases h; simp [child_keys, Node.make]
  | cons k p => simp [node_at_cons, Node.make, find] at h

theorem sorted_of_find (n : Node) (k : Str) (c : Node) (hs : Sorted n)
    (hf : find n.children k = some c) : Sorted c := by
  intro p c2 h
  apply hs (k :: p) c2
  rw [node_at_cons, hf]; exact h

theorem sorted_of_children (n1 n2 : Node) (h : n1.children = n2.children) (hs : Sorted n1) :
    Sorted n2 := by
  intro p c hc
  cases p with
  | nil =>
    cases hc
    have := hs [] n1 rfl
    simpa [child_keys, h] using this
  | cons k p =>
    rw [node_at_congr_children n2 n1 _ h.symm (by simp)] at hc
    exact hs _ _ hc

theorem sorted_origin (n : Node) (m : Str) (hs : Sorted n) : Sorted (origin n [m]) := by
  simp only [origin, node_at_cons, List.getLastD]
  cases hf : find n.children m with
  | none => exact sorted_make m
  | some c => exact sorted_of_find n m c hs hf

theorem sorted_walk (data : InfoData) (pv : List Str) (n : Node) (hs : Sorted n) :
    Sorted (update_walk data pv n) := by
  induction pv generalizing n with
  | nil => exact sorted_of_children n _ rfl hs
  | cons m ms ih =>
    intro p c hc
    cases p with
    | nil =>
      cases hc
      exact (child_keys_walk data m ms n (hs [] n rfl)).1
    | cons k p =>
      rw [node_at_cons, find_walk] at hc
      by_cases hk : k = m
      · subst hk
        simp only [if_true, Option.bind] at hc
        exact ih _ (sorted_of_children _ _ (touch_children data _).symm (sorted_origin n k hs))
          p c hc
      · simp only [hk, if_false] at hc
        rw [← node_at_cons] at hc
        exact hs _ _ hc

theorem sorted_clear (n : Node) (hs : Sorted n) : Sorted (clear_pv_flags n) := by
  intro p c hc
  rw [node_at_clear] at hc
  cases h : node_at n p with
  | none => simp [h] at hc
  | some c0 =>
    simp only [h, Option.map, Option.some.injEq] at hc
    subst hc
    rw [child_keys_clear]
    exact hs p c0 h

theorem sorted_update (t : SearchTree) (data : InfoData) (hs : Sorted t.m_root) :
    Sorted (t.update data).m_root := by
  unfold SearchTree.update
  by_cases hpv : data.pv.isEmpty = true
  · simpa [hpv] using hs
  · simp only [hpv, Bool.false_eq_true, if_false]
    apply sorted_walk
    split
    · exact sorted_clear _ hs
    · exact hs

theorem sorted_new : Sorted SearchTree.new.m_root := sorted_make _

theorem sorted_run (ops : List Op) (t : SearchTree) (hs : Sorted t.m_root) :
    Sorted (t.run ops).m_root := by
  induction ops generalizing t with
  | nil => exact hs
  | cons op ops ih =>
    apply ih
    cases op with
    | update data => exact sorted_update t data hs
    | clear => exact sorted_new

/-! ## One `update` -/

theorem update_empty (t : SearchTree) (data : InfoData) (h : data.pv = []) :
    t.update data = t := by
  simp [SearchTree.update, h]

theorem update_root (t : SearchTree) (data : InfoData) (h : data.pv ≠ []) :
    (t.update data).m_root =
      update_walk data data.pv (if is_main data then clear_pv_flags t.m_root else t.m_root) := by
  have : data.pv.isEmpty = false := by
    cases hp : data.pv with
    | nil => exact absurd hp h
    | cons _ _ => rfl
  simp [SearchTree.update, this]

theorem origin_clear (n : Node) (p : List Str) :
    (origin (clear_pv_flags n) p).scalars = { (origin n p).scalars with is_pv_node := false } := by
  unfold origin
  rw [node_at_clear]
  cases node_at n p with
  | none => rfl
  | some c => exact scalars_clear c

theorem scalars_fields (c1 c2 : Node) (h : c1.scalars = c2.scalars) :
    c1.move = c2.move ∧ c1.data = c2.data ∧ c1.visit_count = c2.visit_count ∧
      c1.multipv_index = c2.multipv_index ∧ c1.is_pv_node = c2.is_pv_node := by
  have hm : c1.scalars.move = c2.scalars.move := by rw [h]
  have hd : c1.scalars.data = c2.scalars.data := by rw [h]
  have hv : c1.scalars.visit_count = c2.scalars.visit_count := by rw [h]
  have hi : c1.scalars.multipv_index = c2.scalars.multipv_index := by rw [h]
  have hf : c1.scalars.is_pv_node = c2.scalars.is_pv_node := by rw [h]
  exact ⟨hm, hd, hv, hi, hf⟩

theorem scalars_touch (data : InfoData) (c1 c2 : Node) (h : c1.scalars = c2.scalars) :
    (touch data c1).scalars = (touch data c2).scalars := by
  obtain ⟨hm, hd, hv, hi, hf⟩ := scalars_fields c1 c2 h
  cases c1; cases c2
  simp only at hm hd hv hi hf
  subst hm hd hv hi hf
  unfold touch
  split <;> split <;> rfl

/-- The fields of the node that a non-empty prefix `p` of the pv leads to after
`update`, in terms of the node that was there before (or a new one). -/
theorem update_on_path (t : SearchTree) (data : InfoData) (p : List Str)
    (h : p <+: data.pv) (hp : p ≠ []) :
    ∃ c, node_at (t.update data).m_root p = some c ∧
      c.move = (origin t.m_root p).move ∧
      c.visit_count = ((origin t.m_root p).visit_count + 1) % 2 ^ u64 ∧
      c.is_pv_node = (is_main data || (origin t.m_root p).is_pv_node) ∧
      c.multipv_index = data.multipv.getD (origin t.m_root p).multipv_index ∧
      c.data = if p = data.pv then data else (origin t.m_root p).data := by
  have hpv : data.pv ≠ [] := by rintro hc; rw [hc] at h; exact hp (List.prefix_nil.1 h)
  rw [update_root t data hpv]
  obtain ⟨c, hc, hs⟩ := node_at_walk_on data data.pv _ p h hp
  refine ⟨c, hc, ?_⟩
  have key : ∀ x : Node, c.scalars = (if p = data.pv then { touch data x with data := data }
      else touch data x).scalars →
      c.move = x.move ∧ c.visit_count = (x.visit_count + 1) % 2 ^ u64 ∧
      c.is_pv_node = (is_main data || x.is_pv_node) ∧
      c.multipv_index = data.multipv.getD x.multipv_index ∧
      c.data = if p = data.pv then data else x.data := by
    intro x hx
    obtain ⟨hm, hd, hv, hi, hf⟩ := scalars_fields _ _ hx
    by_cases hq : p = data.pv
    · simp only [hq, if_true] at hm hd hv hi hf ⊢
      exact ⟨by rw [hm, touch_move], by rw [hv, touch_visit_count],
        by rw [hf, touch_is_pv_node], by rw [hi, touch_multipv_index], hd⟩
    · simp only [hq, if_false] at hm hd hv hi hf ⊢
      exact ⟨by rw [hm, touch_move], by rw [hv, touch_visit_count],
        by rw [hf, touch_is_pv_node], by rw [hi, touch_multipv_index], by rw [hd, touch_data]⟩
  by_cases hmain : is_main data = true
  · simp only [hmain, if_true] at hs ⊢
    have hs2 : c.scalars = (if p = data.pv then
        { touch data { (origin t.m_root p) with is_pv_node := false } with data := data }
        else touch data { (origin t.m_root p) with is_pv_node := false }).scalars := by
      rw [hs]
      have := scalars_touch data _ { (origin t.m_root p) with is_pv_node := false }
        (origin_clear t.m_root p)
      by_cases hq : p = data.pv
      · simp only [hq, if_true] at this ⊢
        simp only [Node.scalars] at this ⊢
        rw [Node.mk.injEq] at this ⊢
        simp only [this, and_self]
      · simp only [hq, if_false] at this ⊢
        exact this
    have := key _ hs2
    simpa [hmain] using this
  · simp only [hmain, Bool.false_eq_true, if_false] at hs ⊢
    have := key _ hs
    simpa [hmain] using this

/-- Away from the pv, `update` leaves a node as it was, but for the flag when
the flags are cleared. -/
theorem update_off_path (t : SearchTree) (data : InfoData) (p : List Str)
    (hpv : data.pv ≠ []) (h : ¬ p <+: data.pv) :
    node_at (t.update data).m_root p =
      if is_main data then (node_at t.m_root p).map clear_pv_flags else node_at t.m_root p := by
  rw [update_root t data hpv, node_at_walk_off _ _ _ _ h]
  split
  · exact node_at_clear _ _
  · rfl

theorem update_isSome (t : SearchTree) (data : InfoData) (p : List Str) (hp : p ≠ []) :
    (node_at (t.update data).m_root p).isSome = true ↔
      ((node_at t.m_root p).isSome = true ∨ p <+: data.pv) := by
  by_cases hpv : data.pv = []
  · rw [update_empty t data hpv, hpv]
    simp [hp]
  · rw [update_root t data hpv, node_at_walk_isSome]
    split
    · rw [node_at_clear]; simp
    · rfl

/-! ## Sequences of operations -/

theorem fresh_root (t : SearchTree) (h : IsFresh t) :
    t.m_root = { Node.make with move := "root".toList } := by
  rcases h with rfl | ⟨t0, rfl⟩ <;> rfl

theorem node_at_fresh (t : SearchTree) (h : IsFresh t) (p : List Str) (hp : p ≠ []) :
    node_at t.m_root p = none := by
  rw [fresh_root t h]
  exact node_at_no_children _ p rfl hp

theorem run_cons (t : SearchTree) (op : Op) (ops : List Op) :
    t.run (op :: ops) = (t.apply op).run ops := rfl

theorem run_append (t : SearchTree) (ops1 ops2 : List Op) :
    t.run (ops1 ++ ops2) = (t.run ops1).run ops2 := by
  simp [SearchTree.run, List.foldl_append]

theorem run_updates_isSome (t : SearchTree) (snaps : List InfoData) (p : List Str)
    (hp : p ≠ []) :
    (node_at (t.run (snaps.map Op.update)).m_root p).isSome = true ↔
      ((node_at t.m_root p).isSome = true ∨ ∃ s ∈ snaps, p <+: s.pv) := by
  induction snaps generalizing t with
  | nil => simp [SearchTree.run]
  | cons s snaps ih =>
    rw [List.map_cons, run_cons, ih, SearchTree.apply, update_isSome t s p hp]
    simp only [List.mem_cons, exists_eq_or_imp]
    tauto

/-! ## C3 -/

/-- C3. After any sequence of updates applied to a freshly constructed or freshly
cleared tree, a non-empty sequence of move tokens leads from the root to a node
if and only if it is a prefix of the pv of some applied snapshot; no update, on
any tree, removes a node; and the children of every node have distinct keys. -/
theorem tree_is_set_of_reported_prefixes (start : SearchTree) (snaps : List InfoData)
    (hfresh : IsFresh start) :
    (∀ p : List Str, p ≠ [] →
      ((node_at (start.run (snaps.map Op.update)).m_root p).isSome = true ↔
        ∃ s ∈ snaps, p <+: s.pv)) ∧
    (∀ (t : SearchTree) (s : InfoData) (p : List Str),
      (node_at t.m_root p).isSome = true → (node_at (t.update s).m_root p).isSome = true) ∧
    (∀ (p : List Str) (c : Node),
      node_at (start.run (snaps.map Op.update)).m_root p = some c → (child_keys c).Nodup) := by
  refine ⟨?_, ?_, ?_⟩
  · intro p hp
    rw [run_updates_isSome start snaps p hp, node_at_fresh start hfresh p hp]
    simp
  · intro t s p h
    by_cases hp : p = []
    · subst hp; rfl
    · exact (update_isSome t s p hp).2 (Or.inl h)
  · intro p c hc
    have hs : Sorted (start.run (snaps.map Op.update)).m_root := by
      apply sorted_run
      rw [fresh_root start hfresh]
      exact sorted_make _
    exact (hs p c hc).imp (fun h => ne_of_lt h)

/-- C3 on the two lines of the specification, applied to a cleared tree: after
`info multipv 1 pv e2e4 e7e5` and `info multipv 2 pv d2d4 d7d5` the path
`e2e4 e7e5` leads to a node and the path `e2e4 d7d5` does not. -/
theorem tree_is_set_of_reported_prefixes_witness :
    IsFresh (SearchTree.new.clear) ∧
    (node_at ((SearchTree.new.clear).run
      ([{ multipv := some 1, pv := ["e2e4".toList, "e7e5".toList] },
        { multipv := some 2, pv := ["d2d4".toList, "d7d5".toList] }].map Op.update)).m_root
      ["e2e4".toList, "e7e5".toList]).isSome = true ∧
    (node_at ((SearchTree.new.clear).run
      ([{ multipv := some 1, pv := ["e2e4".toList, "e7e5".toList] },
        { multipv := some 2, pv := ["d2d4".toList, "d7d5".toList] }].map Op.update)).m_root
      ["e2e4".toList, "d7d5".toList]).isSome ≠ true :=
  have h := tree_is_set_of_reported_prefixes (SearchTree.new.clear)
    [{ multipv := some 1, pv := ["e2e4".toList, "e7e5".toList] },
     { multipv := some 2, pv := ["d2d4".toList, "d7d5".toList] }] (Or.inr ⟨_, rfl⟩)
  ⟨Or.inr ⟨_, rfl⟩,
    (h.1 ["e2e4".toList, "e7e5".toList] (by decide)).2 ⟨_, List.mem_cons_self _ _, by decide⟩,
    fun hc => by
      obtain ⟨s, hs, hp⟩ := (h.1 ["e2e4".toList, "d7d5".toList] (by decide)).1 hc
      simp only [List.mem_cons, List.mem_singleton, List.not_mem_nil, or_false] at hs
      rcases hs with rfl | rfl <;> revert hp <;> decide⟩

/-! ## C4: the flags `is_pv_node` -/

theorem clear_is_pv_node (n : Node) : (clear_pv_flags n).is_pv_node = false := by
  rw [clear_pv_flags_eq]

theorem clear_fields (n : Node) :
    (clear_pv_flags n).move = n.move ∧ (clear_pv_flags n).data = n.data ∧
      (clear_pv_flags n).visit_count = n.visit_count ∧
      (clear_pv_flags n).multipv_index = n.multipv_index := by
  rw [clear_pv_flags_eq]; exact ⟨rfl, rfl, rfl, rfl⟩

theorem walk_root_fields (data : InfoData) (pv : List Str) (n : Node) (hpv : pv ≠ []) :
    (update_walk data pv n).move = n.move ∧ (update_walk data pv n).data = n.data ∧
      (update_walk data pv n).visit_count = n.visit_count ∧
      (update_walk data pv n).multipv_index = n.multipv_index ∧
      (update_walk data pv n).is_pv_node = n.is_pv_node := by
  have := walk_scalars data pv n
  simp only [hpv, if_false] at this
  exact scalars_fields _ _ this

theorem update_root_flag (t : SearchTree) (data : InfoData) (hpv : data.pv ≠ []) :
    (t.update data).m_root.is_pv_node = (!is_main data && t.m_root.is_pv_node) := by
  rw [update_root t data hpv, (walk_root_fields data data.pv _ hpv).2.2.2.2]
  cases is_main data
  · rfl
  · exact clear_is_pv_node _

theorem origin_data (n : Node) (p : List Str) :
    (origin n p).data = ((node_at n p).map Node.data).getD {} := by
  unfold origin
  cases node_at n p <;> rfl

theorem origin_visit_count (n : Node) (p : List Str) :
    (origin n p).visit_count = (visit_count_at n p).getD 0 := by
  unfold origin visit_count_at
  cases node_at n p <;> rfl

theorem update_root_data (t : SearchTree) (data : InfoData) (hpv : data.pv ≠ []) :
    (t.update data).m_root.data = t.m_root.data := by
  rw [update_root t data hpv, (walk_root_fields data data.pv _ hpv).2.1]
  split
  · exact (clear_fields _).2.1
  · rfl

theorem flag_at_origin (n : Node) (p : List Str) : (origin n p).is_pv_node = flag_at n p := by
  unfold origin flag_at
  cases node_at n p <;> rfl

theorem flag_at_root (n : Node) : flag_at n [] = n.is_pv_node := rfl

theorem flag_at_fresh (t : SearchTree) (h : IsFresh t) (p : List Str) :
    flag_at t.m_root p = false := by
  by_cases hp : p = []
  · subst hp; rw [fresh_root t h]; rfl
  · unfold flag_at; rw [node_at_fresh t h p hp]

/-- An update that is not one with a non-empty pv and a multipv absent or 1
changes no flag: the nodes it makes are not flagged. -/
theorem flag_at_update_other (t : SearchTree) (data : InfoData) (p : List Str)
    (h : ¬ (data.pv ≠ [] ∧ is_main data = true)) :
    flag_at (t.update data).m_root p = flag_at t.m_root p := by
  by_cases hpv : data.pv = []
  · rw [update_empty t data hpv]
  · have hmain : is_main data = false := by
      cases hm : is_main data with
      | false => rfl
      | true => exact absurd ⟨hpv, hm⟩ h
    by_cases hp : p = []
    · subst hp
      simp [flag_at_root, update_root_flag t data hpv, hmain]
    · by_cases hon : p <+: data.pv
      · obtain ⟨c, hc, _, _, hf, _⟩ := update_on_path t data p hon hp
        rw [← flag_at_origin t.m_root p]
        simp only [flag_at, hc, hf, hmain, Bool.false_or]
      · have := update_off_path t data p hpv hon
        simp only [hmain, Bool.false_eq_true, if_false] at this
        simp only [flag_at, this]

/-- After an update with a non-empty pv and a multipv absent or 1 the flagged
nodes are those on the path of the pv. -/
theorem flag_at_update_main (t : SearchTree) (data : InfoData) (p : List Str)
    (hpv : data.pv ≠ []) (hmain : is_main data = true) :
    flag_at (t.update data).m_root p = true ↔ (p ≠ [] ∧ p <+: data.pv) := by
  by_cases hp : p = []
  · subst hp
    simp [flag_at_root, update_root_flag t data hpv, hmain]
  · by_cases hon : p <+: data.pv
    · obtain ⟨c, hc, _, _, hf, _⟩ := update_on_path t data p hon hp
      simp [flag_at, hc, hf, hmain, hp, hon]
    · have := update_off_path t data p hpv hon
      simp only [hmain, if_true] at this
      simp only [flag_at, this, hp, hon, and_false, iff_false]
      cases node_at t.m_root p with
      | none => simp
      | some c => simp [clear_is_pv_node]

theorem flags_invariant (t : SearchTree) (acc : Option (List Str)) (op : Op)
    (h : ∀ p, flag_at t.m_root p = true ↔ (p ≠ [] ∧ ∃ pv, acc = some pv ∧ p <+: pv)) :
    ∀ p, flag_at (t.apply op).m_root p = true ↔
      (p ≠ [] ∧ ∃ pv, last_main_step acc op = some pv ∧ p <+: pv) := by
  intro p
  cases op with
  | clear =>
    simp [SearchTree.apply, last_main_step, flag_at_fresh _ (Or.inr ⟨t, rfl⟩)]
  | update data =>
    by_cases hc : data.pv ≠ [] ∧ is_main data = true
    · simp only [SearchTree.apply, last_main_step]
      rw [if_pos hc, flag_at_update_main t data p hc.1 hc.2]
      simp
    · simp only [SearchTree.apply, last_main_step]
      rw [if_neg hc, flag_at_update_other t data p hc]
      exact h p

theorem flags_run (t : SearchTree) (acc : Option (List Str)) (ops : List Op)
    (h : ∀ p, flag_at t.m_root p = true ↔ (p ≠ [] ∧ ∃ pv, acc = some pv ∧ p <+: pv)) :
    ∀ p, flag_at (t.run ops).m_root p = true ↔
      (p ≠ [] ∧ ∃ pv, ops.foldl last_main_step acc = some pv ∧ p <+: pv) := by
  induction ops generalizing t acc with
  | nil => exact h
  | cons op ops ih =>
    rw [run_cons, List.foldl_cons]
    exact ih _ _ (flags_invariant t acc op h)

/-- C4. After any sequence of update and clear operations on a freshly
constructed (or cleared) tree, a path leads to a flagged node if and only if it
is a non-empty prefix of the pv of the snapshot applied last, since the last
clear, among those with a non-empty pv and a multipv absent or 1. So if there
is no such snapshot no node is flagged, and the root (the empty path) never is. -/
theorem flags_mark_last_main_line (start : SearchTree) (ops : List Op)
    (hfresh : IsFresh start) (p : List Str) :
    flag_at (start.run ops).m_root p = true ↔
      (p ≠ [] ∧ ∃ pv, last_main ops = some pv ∧ p <+: pv) := by
  apply flags_run start none ops
  intro q
  simp [flag_at_fresh start hfresh]

/-- C4 on a run: after `info pv e2e4 e7e5`, a clear, `info pv d2d4 d7d5` and
`info multipv 2 pv c2c4`, the node of `d2d4` is flagged, of `c2c4` is not. -/
theorem flags_mark_last_main_line_witness :
    IsFresh SearchTree.new ∧
    flag_at (SearchTree.new.run
      [Op.update { pv := ["e2e4".toList, "e7e5".toList] }, Op.clear,
       Op.update { pv := ["d2d4".toList, "d7d5".toList] },
       Op.update { multipv := some 2, pv := ["c2c4".toList] }]).m_root ["d2d4".toList] = true ∧
    flag_at (SearchTree.new.run
      [Op.update { pv := ["e2e4".toList, "e7e5".toList] }, Op.clear,
       Op.update { pv := ["d2d4".toList, "d7d5".toList] },
       Op.update { multipv := some 2, pv := ["c2c4".toList] }]).m_root ["c2c4".toList] ≠ true :=
  ⟨Or.inl rfl,
    (flags_mark_last_main_line SearchTree.new _ (Or.inl rfl) ["d2d4".toList]).2
      ⟨by decide, ["d2d4".toList, "d7d5".toList], by decide, by decide⟩,
    fun hc => by
      obtain ⟨_, pv, h1, h2⟩ :=
        (flags_mark_last_main_line SearchTree.new _ (Or.inl rfl) ["c2c4".toList]).1 hc
      have : pv = ["d2d4".toList, "d7d5".toList] := by
        have h3 : last_main
          [Op.update { pv := ["e2e4".toList, "e7e5".toList] }, Op.clear,
           Op.update { pv := ["d2d4".toList, "d7d5".toList] },
           Op.update { multipv := some 2, pv := ["c2c4".toList] }] =
          some ["d2d4".toList, "d7d5".toList] := by decide
        rw [h3] at h1
        exact (Option.some.inj h1).symm
      subst this
      revert h2
      decide⟩

/-! ## `get_best_move` -/

theorem mem_of_find (cs : List (Str × Node)) (k : Str) (n : Node) (h : find cs k = some n) :
    (k, n) ∈ cs := by
  induction cs with
  | nil => simp [find] at h
  | cons e rest ih =>
    obtain ⟨k0, n0⟩ := e
    by_cases hk : k0 = k
    · simp only [find, hk, if_true, Option.some.injEq] at h
      simp [hk, h]
    · simp only [find, hk, if_false] at h
      exact List.mem_cons_of_mem _ (ih h)

theorem find_of_mem (cs : List (Str × Node)) (k : Str) (n : Node)
    (hs : (cs.map Prod.fst).Pairwise (· < ·)) (h : (k, n) ∈ cs) : find cs k = some n := by
  induction cs with
  | nil => simp at h
  | cons e rest ih =>
    obtain ⟨k0, n0⟩ := e
    simp only [List.map_cons, List.pairwise_cons] at hs
    rcases List.mem_cons.1 h with heq | hmem
    · cases heq; simp [find]
    · have hlt : k0 < k := hs.1 k (List.mem_map.2 ⟨(k, n), hmem, rfl⟩)
      simp only [find, ne_of_lt hlt, if_false]
      exact ih hs.2 hmem

theorem flag_at_child (n : Node) (k : Str) :
    flag_at n [k] = match find n.children k with
      | some c => c.is_pv_node
      | none => false := by
  simp only [flag_at, node_at_cons]
  cases find n.children k <;> rfl

/-- With the first flagged child: `get_best_move` is its key, and no flagged
child has a smaller key. -/
theorem best_move_flagged (t : SearchTree) (hs : (child_keys t.m_root).Pairwise (· < ·))
    (h : ∃ e ∈ t.m_root.children, e.2.is_pv_node = true) :
    (∃ c, (t.get_best_move, c) ∈ t.m_root.children ∧ c.is_pv_node = true) ∧
      ∀ e ∈ t.m_root.children, e.2.is_pv_node = true → ¬ e.1 < t.get_best_move := by
  unfold SearchTree.get_best_move child_keys at *
  generalize t.m_root.children = cs at *
  induction cs with
  | nil => simp at h
  | cons e rest ih =>
    obtain ⟨k0, n0⟩ := e
    simp only [List.map_cons, List.pairwise_cons] at hs
    by_cases hf : n0.is_pv_node = true
    · simp only [List.isEmpty_cons, Bool.false_eq_true, if_false, List.find?_cons, hf]
      refine ⟨⟨n0, List.mem_cons_self _ _, hf⟩, ?_⟩
      intro e he _
      rcases List.mem_cons.1 he with rfl | he
      · exact lt_irrefl _
      · exact not_lt_of_gt (hs.1 e.1 (List.mem_map.2 ⟨e, he, rfl⟩))
    · have hrest : ∃ e ∈ rest, e.2.is_pv_node = true := by
        obtain ⟨e, he, hfe⟩ := h
        rcases List.mem_cons.1 he with rfl | he
        · exact absurd hfe hf
        · exact ⟨e, he, hfe⟩
      have hne : rest.isEmpty = false := by
        obtain ⟨e, he, _⟩ := hrest
        cases rest with
        | nil => simp at he
        | cons _ _ => rfl
      have := ih hs.2 hrest
      simp only [hne, Bool.false_eq_true, if_false] at this
      simp only [List.isEmpty_cons, Bool.false_eq_true, if_false, List.find?_cons, hf]
      obtain ⟨⟨c, hc, hcf⟩, hmin⟩ := this
      cases hfind : rest.find? (fun entry => entry.2.is_pv_node) with
      | none =>
        obtain ⟨e, he, hfe⟩ := hrest
        have := List.find?_eq_none.1 hfind e he
        exact absurd hfe (by simpa using this)
      | some r =>
        obtain ⟨m, nm⟩ := r
        simp only [hfind] at hc hmin ⊢
        refine ⟨⟨c, List.mem_cons_of_mem _ hc, hcf⟩, ?_⟩
        intro e he hfe
        rcases List.mem_cons.1 he with rfl | he
        · exact absurd hfe hf
        · exact hmin e he hfe

/-- With children none of which is flagged: `get_best_move` is the smallest
key. -/
theorem best_move_unflagged (t : SearchTree) (hs : (child_keys t.m_root).Pairwise (· < ·))
    (hne : t.m_root.children ≠ [])
    (h : ∀ e ∈ t.m_root.children, e.2.is_pv_node = false) :
    t.get_best_move ∈ child_keys t.m_root ∧
      ∀ k ∈ child_keys t.m_root, ¬ k < t.get_best_move := by
  unfold SearchTree.get_best_move child_keys at *
  generalize t.m_root.children = cs at *
  cases cs with
  | nil => exact absurd rfl hne
  | cons e rest =>
    obtain ⟨k0, n0⟩ := e
    have hfind : List.find? (fun entry => entry.2.is_pv_node) ((k0, n0) :: rest) = none := by
      rw [List.find?_eq_none]
      intro e he
      simp [h e he]
    simp only [hfind, List.isEmpty_cons, Bool.false_eq_true, if_false, List.map_cons,
      List.mem_cons, true_or, true_and]
    simp only [List.map_cons, List.pairwise_cons] at hs
    intro k hk
    rcases hk with rfl | hk
    · exact lt_irrefl _
    · exact not_lt_of_gt (hs.1 k hk)

/-- When exactly the child `a` is flagged, `get_best_move` is `a`. -/
theorem best_move_only (t : SearchTree) (a : Str)
    (hs : (child_keys t.m_root).Pairwise (· < ·))
    (h : ∀ k, flag_at t.m_root [k] = true ↔ k = a) : t.get_best_move = a := by
  have ha := (h a).2 rfl
  rw [flag_at_child] at ha
  cases hfa : find t.m_root.children a with
  | none => simp [hfa] at ha
  | some ca =>
    simp only [hfa] at ha
    obtain ⟨⟨c, hc, hcf⟩, _⟩ :=
      best_move_flagged t hs ⟨(a, ca), mem_of_find _ _ _ hfa, ha⟩
    apply (h _).1
    rw [flag_at_child, find_of_mem _ _ _ hs hc]
    exact hcf

theorem child_keys_update (t : SearchTree) (data : InfoData)
    (hs : (child_keys t.m_root).Pairwise (· < ·)) :
    (child_keys (t.update data).m_root).Pairwise (· < ·) := by
  by_cases hpv : data.pv = []
  · rw [update_empty t data hpv]; exact hs
  · rw [update_root t data hpv]
    cases hd : data.pv with
    | nil => exact absurd hd hpv
    | cons m ms =>
      apply (child_keys_walk data m ms _ _).1
      split
      · rw [child_keys_clear]; exact hs
      · exact hs

/-! ## C5 -/

theorem not_main_of_multipv (data : InfoData) (m : Nat) (h : data.multipv = some m)
    (hm : m ≠ 1) : is_main data = false := by
  simp [is_main, h, hm]

theorem main_of_multipv_one (data : InfoData) (h : data.multipv = some 1) :
    is_main data = true := by
  simp [is_main, h]

/-- C5. An update whose snapshot has a non-empty pv and a multipv that is present
and different from 1 leaves the flag `is_pv_node` of every node that exists
already as it is and makes its new nodes with the flag unset. And on a tree
whose root has its children in the order of a `std::map`: after a snapshot with
multipv 1 and pv `a ...` and then one with multipv 2 and pv `b ...`, `a ≠ b`,
the root has the children `a` and `b`, `a` is flagged and `get_best_move` is
`a`. -/
theorem other_multipv_keeps_flags (t : SearchTree) :
    (∀ (data : InfoData) (m : Nat), data.pv ≠ [] → data.multipv = some m → m ≠ 1 →
      (∀ p c, node_at t.m_root p = some c →
        ∃ c2, node_at (t.update data).m_root p = some c2 ∧ c2.is_pv_node = c.is_pv_node) ∧
      (∀ p c2, node_at t.m_root p = none → node_at (t.update data).m_root p = some c2 →
        c2.is_pv_node = false)) ∧
    ((child_keys t.m_root).Pairwise (· < ·) →
      ∀ (s1 s2 : InfoData) (a b : Str) (as bs : List Str),
        s1.multipv = some 1 → s1.pv = a :: as → s2.multipv = some 2 → s2.pv = b :: bs → a ≠ b →
        (node_at ((t.update s1).update s2).m_root [a]).isSome = true ∧
        (node_at ((t.update s1).update s2).m_root [b]).isSome = true ∧
        flag_at ((t.update s1).update s2).m_root [a] = true ∧
        ((t.update s1).update s2).get_best_move = a) := by
  constructor
  · intro data m _ hm hm1
    have hother : ¬ (data.pv ≠ [] ∧ is_main data = true) := by
      rw [not_main_of_multipv data m hm hm1]; simp
    constructor
    · intro p c hc
      have hex : (node_at (t.update data).m_root p).isSome = true := by
        by_cases hp : p = []
        · subst hp; rfl
        · exact (update_isSome t data p hp).2 (Or.inl (by simp [hc]))
      obtain ⟨c2, hc2⟩ := Option.isSome_iff_exists.1 hex
      refine ⟨c2, hc2, ?_⟩
      have := flag_at_update_other t data p hother
      simpa [flag_at, hc, hc2] using this
    · intro p c2 hnone hc2
      have := flag_at_update_other t data p hother
      simpa [flag_at, hnone, hc2] using this
  · intro hs s1 s2 a b as bs h1 hp1 h2 hp2 hab
    have hpv1 : s1.pv ≠ [] := by simp [hp1]
    have hmain1 := main_of_multipv_one s1 h1
    have hother2 : ¬ (s2.pv ≠ [] ∧ is_main s2 = true) := by
      rw [not_main_of_multipv s2 2 h2 (by decide)]; simp
    have hflag : ∀ k, flag_at ((t.update s1).update s2).m_root [k] = true ↔ k = a := by
      intro k
      rw [flag_at_update_other _ s2 _ hother2, flag_at_update_main t s1 _ hpv1 hmain1, hp1]
      simp
    have hs2 := child_keys_update _ s2 (child_keys_update t s1 hs)
    refine ⟨?_, ?_, (hflag a).2 rfl, best_move_only _ a hs2 hflag⟩
    · apply (update_isSome _ s2 [a] (by simp)).2
      left
      apply (update_isSome t s1 [a] (by simp)).2
      right
      rw [hp1]; simp
    · apply (update_isSome _ s2 [b] (by simp)).2
      right
      rw [hp2]; simp

/-- C5 on the lines of the specification, fed to a new tree: the parser yields
the two snapshots, and after both updates the root has the children `e2e4` and
`d2d4`, `e2e4` is flagged and is the best move. -/
theorem other_multipv_keeps_flags_witness :
    parse_line (fun _ => none) "info multipv 1 pv e2e4 e7e5".toList =
      Outcome.returned (some
        { multipv := some 1
          pv := ["e2e4".toList, "e7e5".toList]
          raw_string := "info multipv 1 pv e2e4 e7e5".toList }) ∧
    parse_line (fun _ => none) "info multipv 2 pv d2d4 d7d5".toList =
      Outcome.returned (some
        { multipv := some 2
          pv := ["d2d4".toList, "d7d5".toList]
          raw_string := "info multipv 2 pv d2d4 d7d5".toList }) ∧
    (child_keys SearchTree.new.m_root).Pairwise (· < ·) ∧
    (node_at ((SearchTree.new.update
        { multipv := some 1
          pv := ["e2e4".toList, "e7e5".toList]
          raw_string := "info multipv 1 pv e2e4 e7e5".toList }).update
        { multipv := some 2
          pv := ["d2d4".toList, "d7d5".toList]
          raw_string := "info multipv 2 pv d2d4 d7d5".toList }).m_root
      ["e2e4".toList]).isSome = true ∧
    (node_at ((SearchTree.new.update
        { multipv := some 1
          pv := ["e2e4".toList, "e7e5".toList]
          raw_string := "info multipv 1 pv e2e4 e7e5".toList }).update
        { multipv := some 2
          pv := ["d2d4".toList, "d7d5".toList]
          raw_string := "info multipv 2 pv d2d4 d7d5".toList }).m_root
      ["d2d4".toList]).isSome = true ∧
    flag_at ((SearchTree.new.update
        { multipv := some 1
          pv := ["e2e4".toList, "e7e5".toList]
          raw_string := "info multipv 1 pv e2e4 e7e5".toList }).update
        { multipv := some 2
          pv := ["d2d4".toList, "d7d5".toList]
          raw_string := "info multipv 2 pv d2d4 d7d5".toList }).m_root
      ["e2e4".toList] = true ∧
    ((SearchTree.new.update
        { multipv := some 1
          pv := ["e2e4".toList, "e7e5".toList]
          raw_string := "info multipv 1 pv e2e4 e7e5".toList }).update
        { multipv := some 2
          pv := ["d2d4".toList, "d7d5".toList]
          raw_string := "info multipv 2 pv d2d4 d7d5".toList }).get_best_move = "e2e4".toList :=
  ⟨by decide, by decide, List.Pairwise.nil,
    (other_multipv_keeps_flags SearchTree.new).2 List.Pairwise.nil _ _ "e2e4".toList
      "d2d4".toList ["e7e5".toList] ["d7d5".toList] rfl rfl rfl rfl (by decide)⟩

/-! ## The visit counter -/

/-- One update steps once into each node on the path of its pv: the counter goes
up by one, as a `u64` does. -/
theorem visit_count_update_on (t : SearchTree) (data : InfoData) (p : List Str)
    (hp : p ≠ []) (hon : p <+: data.pv) :
    visit_count_at (t.update data).m_root p =
      some (((visit_count_at t.m_root p).getD 0 + 1) % 2 ^ 64) := by
  obtain ⟨c, hc, _, hv, _⟩ := update_on_path t data p hon hp
  rw [origin_visit_count] at hv
  simp only [visit_count_at, hc, Option.map, hv, u64]

/-- One update leaves the counter of every node that is not on the path of its
pv as it is. -/
theorem visit_count_update_off (t : SearchTree) (data : InfoData) (p : List Str)
    (h : p = [] ∨ ¬ p <+: data.pv) :
    visit_count_at (t.update data).m_root p = visit_count_at t.m_root p := by
  by_cases hpv : data.pv = []
  · rw [update_empty t data hpv]
  · rcases h with rfl | hoff
    · simp only [visit_count_at, node_at_nil, Option.map, update_root t data hpv,
        (walk_root_fields data data.pv _ hpv).2.2.1]
      split
      · rw [(clear_fields _).2.2.1]
      · rfl
    · rw [visit_count_at, update_off_path t data p hpv hoff]
      split
      · unfold visit_count_at
        cases node_at t.m_root p with
        | none => rfl
        | some c => simp [(clear_fields c).2.2.1]
      · rfl

theorem run_snoc (t : SearchTree) (ops : List Op) (op : Op) :
    t.run (ops ++ [op]) = (t.run ops).apply op := by
  rw [run_append]; rfl

/-- After a sequence of updates of a fresh tree the counter of a node is the
number of the snapshots whose pv passes through it, as a `u64` counts it. -/
theorem visit_count_run (start : SearchTree) (snaps : List InfoData) (hfresh : IsFresh start)
    (p : List Str) (hp : p ≠ []) :
    visit_count_at (start.run (snaps.map Op.update)).m_root p =
      if snaps.countP (fun s => p.isPrefixOf s.pv) = 0 then none
      else some (snaps.countP (fun s => p.isPrefixOf s.pv) % 2 ^ 64) := by
  induction snaps using List.reverseRecOn with
  | nil => simp [SearchTree.run, visit_count_at, node_at_fresh start hfresh p hp]
  | append_singleton snaps s ih =>
    rw [List.map_append, List.map_singleton, run_snoc, SearchTree.apply, List.countP_append]
    by_cases hon : p <+: s.pv
    · have hb : p.isPrefixOf s.pv = true := List.isPrefixOf_iff_prefix.2 hon
      rw [visit_count_update_on _ s p hp hon, ih]
      simp only [List.countP_cons, List.countP_nil, hb, if_true, Nat.zero_add,
        Nat.add_one_ne_zero, if_false]
      by_cases h0 : List.countP (fun s => p.isPrefixOf s.pv) snaps = 0
      · simp [h0]
      · simp [h0, Nat.add_mod]
    · have hb : p.isPrefixOf s.pv = false := by
        rw [← Bool.not_eq_true, List.isPrefixOf_iff_prefix]; exact hon
      rw [visit_count_update_off _ s p (Or.inr hon), ih]
      simp [hb]

theorem run_replicate_succ (t : SearchTree) (op : Op) (n : Nat) :
    t.run (List.replicate (n + 1) op) = (t.run (List.replicate n op)).apply op := by
  rw [List.replicate_succ', run_snoc]

/-- The tree fed `n` times with the same snapshot of pv `m`: the counter of the
child `m`. -/
theorem visit_count_replicate (data : InfoData) (m : Str) (hpv : data.pv = [m]) (n : Nat) :
    visit_count_at (SearchTree.new.run (List.replicate n (Op.update data))).m_root [m] =
      if n = 0 then none else some (n % 2 ^ 64) := by
  have h := visit_count_run SearchTree.new (List.replicate n data) (Or.inl rfl) [m] (by simp)
  have hb : ([m] : List Str).isPrefixOf data.pv = true := by
    rw [List.isPrefixOf_iff_prefix, hpv]
  have hc : List.countP (fun s : InfoData => ([m] : List Str).isPrefixOf s.pv)
      (List.replicate n data) = n := by
    rw [List.countP_eq_length.2, List.length_replicate]
    intro s hs
    rw [List.eq_of_mem_replicate hs]; exact hb
  rw [List.map_replicate, hc] at h
  exact h

/-! ## C6 -/

theorem child_keys_update_first (t : SearchTree) (data : InfoData) (m : Str) (ms : List Str)
    (hpv : data.pv = m :: ms) (hk : child_keys t.m_root = []) :
    child_keys (t.update data).m_root = [m] := by
  rw [update_root t data (by simp [hpv]), hpv]
  have h0 : ∀ r : Node, child_keys r = [] →
      child_keys (update_walk data (m :: ms) r) = [m] := by
    intro r hr
    have hc : r.children = [] := List.map_eq_nil_iff.1 hr
    simp [update_walk, hc, find, emplace, child_keys]
  split
  · exact h0 _ (by rw [child_keys_clear]; exact hk)
  · exact h0 _ hk

theorem child_keys_update_again (t : SearchTree) (data : InfoData) (m : Str) (ms : List Str)
    (hpv : data.pv = m :: ms) (hk : m ∈ child_keys t.m_root) :
    child_keys (t.update data).m_root = child_keys t.m_root := by
  rw [update_root t data (by simp [hpv]), hpv]
  have h0 : ∀ r : Node, m ∈ child_keys r →
      child_keys (update_walk data (m :: ms) r) = child_keys r := by
    intro r hr
    cases hf : find r.children m with
    | none => exact absurd hr ((find_eq_none_iff _ _).1 hf)
    | some c => simp [update_walk, hf, child_keys, keys_assign]
  split
  · rw [h0 _ (by rw [child_keys_clear]; exact hk), child_keys_clear]
  · exact h0 _ hk

/-- C6 as stated fails for the visit counter, which is a `u64`. After
`2 ^ 64 - 2` updates of a new tree with the snapshot of pv `e2e4`, one more
update brings the counter of the node `e2e4` to `2 ^ 64 - 1`, and the update
applied a second time brings it to 0, not to a value one greater. -/
theorem update_twice_counterexample :
    visit_count_at ((SearchTree.new.run (List.replicate 18446744073709551614
        (Op.update { pv := ["e2e4".toList] }))).update
        { pv := ["e2e4".toList] }).m_root ["e2e4".toList] = some 18446744073709551615 ∧
    visit_count_at (((SearchTree.new.run (List.replicate 18446744073709551614
        (Op.update { pv := ["e2e4".toList] }))).update
        { pv := ["e2e4".toList] }).update
        { pv := ["e2e4".toList] }).m_root ["e2e4".toList] = some 0 := by
  have h1 := visit_count_replicate { pv := ["e2e4".toList] } "e2e4".toList rfl
    (18446744073709551614 + 1)
  have h2 := visit_count_replicate { pv := ["e2e4".toList] } "e2e4".toList rfl
    (18446744073709551614 + 1 + 1)
  rw [run_replicate_succ] at h1
  rw [run_replicate_succ, run_replicate_succ] at h2
  exact ⟨h1, h2⟩

/-- C6, amended. For every tree and every snapshot (with a non-empty pv), applying
`update` a second time leaves the set of paths that lead to a node as it is
after the first time, and each node on the path of the pv has a visit counter
one greater than after the first time as a `u64` counts, that is reduced modulo
`2 ^ 64`: exactly one greater unless it was `2 ^ 64 - 1`. And a new tree fed
twice with a snapshot of pv `m` has the single root child `m`, of visit counter
2. -/
theorem update_twice (t : SearchTree) (data : InfoData) :
    (∀ p : List Str, (node_at ((t.update data).update data).m_root p).isSome =
      (node_at (t.update data).m_root p).isSome) ∧
    (∀ p : List Str, p ≠ [] → p <+: data.pv →
      ∃ v, visit_count_at (t.update data).m_root p = some v ∧
        visit_count_at ((t.update data).update data).m_root p = some ((v + 1) % 2 ^ 64) ∧
        (v < 2 ^ 64 - 1 →
          visit_count_at ((t.update data).update data).m_root p = some (v + 1))) ∧
    (∀ m : Str, data.pv = [m] →
      child_keys ((SearchTree.new.update data).update data).m_root = [m] ∧
      visit_count_at ((SearchTree.new.update data).update data).m_root [m] = some 2) := by
  refine ⟨?_, ?_, ?_⟩
  · intro p
    by_cases hp : p = []
    · subst hp; rfl
    · rw [Bool.eq_iff_iff, update_isSome _ data p hp, update_isSome t data p hp]
      tauto
  · intro p hp hon
    have h1 := visit_count_update_on t data p hp hon
    refine ⟨_, h1, ?_, ?_⟩
    · rw [visit_count_update_on _ data p hp hon, h1]; rfl
    · intro hv
      rw [visit_count_update_on _ data p hp hon, h1]
      simp only [Option.getD_some, Option.some.injEq]
      exact Nat.mod_eq_of_lt (by omega)
  · intro m hm
    have hk1 := child_keys_update_first SearchTree.new data m [] hm rfl
    refine ⟨?_, ?_⟩
    · rw [child_keys_update_again _ data m [] hm (by rw [hk1]; simp), hk1]
    · have hon : [m] <+: data.pv := by rw [hm]
      rw [visit_count_update_on _ data [m] (by simp) hon,
        visit_count_update_on _ data [m] (by simp) hon]
      have : visit_count_at SearchTree.new.m_root [m] = none := by
        simp [visit_count_at, node_at_fresh _ (Or.inl rfl) [m] (by simp)]
      rw [this]
      rfl

/-- C6, amended, on the line of the specification: `info pv e2e4` is parsed to a
snapshot of pv `e2e4`, and a new tree fed twice with it has the single root
child `e2e4`, of visit counter 2. -/
theorem update_twice_witness :
    parse_line (fun _ => none) "info pv e2e4".toList =
      Outcome.returned (some
        { pv := ["e2e4".toList]
          raw_string := "info pv e2e4".toList }) ∧
    child_keys ((SearchTree.new.update
        { pv := ["e2e4".toList]
          raw_string := "info pv e2e4".toList }).update
        { pv := ["e2e4".toList]
          raw_string := "info pv e2e4".toList }).m_root = ["e2e4".toList] ∧
    visit_count_at ((SearchTree.new.update
        { pv := ["e2e4".toList]
          raw_string := "info pv e2e4".toList }).update
        { pv := ["e2e4".toList]
          raw_string := "info pv e2e4".toList }).m_root ["e2e4".toList] = some 2 :=
  ⟨by decide,
    (update_twice SearchTree.new
      { pv := ["e2e4".toList]
        raw_string := "info pv e2e4".toList }).2.2 "e2e4".toList rfl⟩

/-! ## C7 -/

/-- C7 as stated fails for the visit counter, which is a `u64`. After `2 ^ 64 - 1`
updates of a new tree with the snapshot of pv `e2e4` the counter of the node
`e2e4` is `2 ^ 64 - 1`; one more update brings it to 0: the counter has
decreased, it is smaller than 1, and it is not the number `2 ^ 64` of the
snapshots applied, all of which pass through the node. -/
theorem visit_count_counterexample :
    visit_count_at (SearchTree.new.run (List.replicate 18446744073709551615
        (Op.update { pv := ["e2e4".toList] }))).m_root ["e2e4".toList]
      = some 18446744073709551615 ∧
    visit_count_at ((SearchTree.new.run (List.replicate 18446744073709551615
        (Op.update { pv := ["e2e4".toList] }))).update
        { pv := ["e2e4".toList] }).m_root ["e2e4".toList] = some 0 ∧
    (List.replicate 18446744073709551616 ({ pv := ["e2e4".toList] } : InfoData)).countP
      (fun s => (["e2e4".toList] : List Str).isPrefixOf s.pv) = 18446744073709551616 := by
  have h1 := visit_count_replicate { pv := ["e2e4".toList] } "e2e4".toList rfl
    18446744073709551615
  have h2 := visit_count_replicate { pv := ["e2e4".toList] } "e2e4".toList rfl
    (18446744073709551615 + 1)
  rw [run_replicate_succ] at h2
  refine ⟨h1, h2, ?_⟩
  rw [List.countP_eq_length.2, List.length_replicate]
  intro s hs
  rw [List.eq_of_mem_replicate hs]
  decide

/-- C7, amended. After any sequence of updates of a freshly constructed or
freshly cleared tree, the visit counter of every non-root node is the number of
the applied snapshots whose pv has the path of the node as a prefix, as a `u64`
counts it, that is reduced modulo `2 ^ 64` (and there is no node where that
number is 0). When fewer than `2 ^ 64` snapshots were applied the counter is
that number itself and at least 1. One update raises the counter of each node on
the path of its pv by one modulo `2 ^ 64`, leaves the counter of every other
node as it is, and lowers no counter that is below `2 ^ 64 - 1`. -/
theorem visit_count_counts_reports (start : SearchTree) (snaps : List InfoData)
    (hfresh : IsFresh start) :
    (∀ p : List Str, p ≠ [] →
      visit_count_at (start.run (snaps.map Op.update)).m_root p =
        if snaps.countP (fun s => p.isPrefixOf s.pv) = 0 then none
        else some (snaps.countP (fun s => p.isPrefixOf s.pv) % 2 ^ 64)) ∧
    (snaps.length < 2 ^ 64 → ∀ (p : List Str) (c : Node), p ≠ [] →
      node_at (start.run (snaps.map Op.update)).m_root p = some c →
        c.visit_count = snaps.countP (fun s => p.isPrefixOf s.pv) ∧ 1 ≤ c.visit_count) ∧
    (∀ (t : SearchTree) (s : InfoData) (p : List Str), p ≠ [] → p <+: s.pv →
      visit_count_at (t.update s).m_root p =
        some (((visit_count_at t.m_root p).getD 0 + 1) % 2 ^ 64)) ∧
    (∀ (t : SearchTree) (s : InfoData) (p : List Str), (p = [] ∨ ¬ p <+: s.pv) →
      visit_count_at (t.update s).m_root p = visit_count_at t.m_root p) ∧
    (∀ (t : SearchTree) (s : InfoData) (p : List Str) (v : Nat),
      visit_count_at t.m_root p = some v → v < 2 ^ 64 - 1 →
        ∃ v2, visit_count_at (t.update s).m_root p = some v2 ∧ v ≤ v2) := by
  refine ⟨fun p hp => visit_count_run start snaps hfresh p hp, ?_,
    fun t s p hp hon => visit_count_update_on t s p hp hon,
    fun t s p h => visit_count_update_off t s p h, ?_⟩
  · intro hlen p c hp hc
    have h := visit_count_run start snaps hfresh p hp
    simp only [visit_count_at, hc, Option.map] at h
    have hle : snaps.countP (fun s => p.isPrefixOf s.pv) ≤ snaps.length := List.countP_le_length _
    by_cases h0 : snaps.countP (fun s => p.isPrefixOf s.pv) = 0
    · simp [h0] at h
    · simp only [h0, if_false, Option.some.injEq] at h
      rw [Nat.mod_eq_of_lt (by omega)] at h
      omega
  · intro t s p v hv hlt
    by_cases h : p = [] ∨ ¬ p <+: s.pv
    · exact ⟨v, by rw [visit_count_update_off t s p h, hv], le_refl _⟩
    · have hp : p ≠ [] := fun hc => h (Or.inl hc)
      have hon : p <+: s.pv := by
        by_contra hc; exact h (Or.inr hc)
      refine ⟨v + 1, ?_, Nat.le_succ _⟩
      rw [visit_count_update_on t s p hp hon, hv]
      simp only [Option.getD_some, Option.some.injEq]
      exact Nat.mod_eq_of_lt (by omega)

/-- C7, amended, on a cleared tree fed with `info pv e2e4 e7e5`, `info pv e2e4 c7c5`
and `info pv d2d4`: the counter of `e2e4` is 2 and that of `e2e4 e7e5` is 1. -/
theorem visit_count_counts_reports_witness :
    IsFresh (SearchTree.new.clear) ∧
    visit_count_at ((SearchTree.new.clear).run
      ([{ pv := ["e2e4".toList, "e7e5".toList] }, { pv := ["e2e4".toList, "c7c5".toList] },
        { pv := ["d2d4".toList] }].map Op.update)).m_root ["e2e4".toList] = some 2 ∧
    visit_count_at ((SearchTree.new.clear).run
      ([{ pv := ["e2e4".toList, "e7e5".toList] }, { pv := ["e2e4".toList, "c7c5".toList] },
        { pv := ["d2d4".toList] }].map Op.update)).m_root ["e2e4".toList, "e7e5".toList]
      = some 1 :=
  have h := (visit_count_counts_reports (SearchTree.new.clear)
    [{ pv := ["e2e4".toList, "e7e5".toList] }, { pv := ["e2e4".toList, "c7c5".toList] },
     { pv := ["d2d4".toList] }] (Or.inr ⟨_, rfl⟩)).1
  ⟨Or.inr ⟨_, rfl⟩, h ["e2e4".toList] (by decide), h ["e2e4".toList, "e7e5".toList] (by decide)⟩

/-! ## C8 -/

/-- C8. After `update` with a snapshot whose pv is not empty, the node at the end
of the path of the pv carries the snapshot; every other node that existed
before, the root and the nodes passed through on the path among them, carries
the snapshot it carried before; and the other nodes that the update made carry
no snapshot. -/
theorem update_attaches_snapshot (t : SearchTree) (data : InfoData) (hpv : data.pv ≠ []) :
    data_at (t.update data).m_root data.pv = some data ∧
    (∀ (p : List Str) (c : Node), p ≠ data.pv → node_at t.m_root p = some c →
      data_at (t.update data).m_root p = some c.data) ∧
    (∀ (p : List Str) (c2 : Node), p ≠ data.pv → node_at t.m_root p = none →
      node_at (t.update data).m_root p = some c2 → c2.data = {}) := by
  have hall : ∀ p : List Str, p ≠ data.pv → ∀ c2, node_at (t.update data).m_root p = some c2 →
      c2.data = ((node_at t.m_root p).map Node.data).getD {} := by
    intro p hne c2 hc2
    by_cases hp : p = []
    · subst hp
      cases hc2
      rw [update_root_data t data hpv]; rfl
    · by_cases hon : p <+: data.pv
      · obtain ⟨c, hc, _, _, _, _, hd⟩ := update_on_path t data p hon hp
        rw [hc] at hc2; cases hc2
        rw [hd, if_neg hne, origin_data]
      · rw [update_off_path t data p hpv hon] at hc2
        split at hc2
        · cases hn : node_at t.m_root p with
          | none => simp [hn] at hc2
          | some c =>
            simp only [hn, Option.map, Option.some.injEq] at hc2
            subst hc2
            simp [(clear_fields c).2.1]
        · simp [hc2]
  refine ⟨?_, ?_, ?_⟩
  · obtain ⟨c, hc, _, _, _, _, hd⟩ := update_on_path t data data.pv (List.prefix_refl _) hpv
    simp [data_at, hc, hd]
  · intro p c hne hc
    have hex : (node_at (t.update data).m_root p).isSome = true := by
      by_cases hp : p = []
      · subst hp; rfl
      · exact (update_isSome t data p hp).2 (Or.inl (by simp [hc]))
    obtain ⟨c2, hc2⟩ := Option.isSome_iff_exists.1 hex
    have := hall p hne c2 hc2
    simp [data_at, hc2, this, hc]
  · intro p c2 hne hnone hc2
    have := hall p hne c2 hc2
    simpa [hnone] using this

/-- C8 on a tree built by `info depth 1 pv e2e4`: after `info depth 2 pv e2e4 e7e5`
the node of `e2e4 e7e5` carries the second snapshot and the node of `e2e4`
still carries the first. -/
theorem update_attaches_snapshot_witness :
    data_at ((SearchTree.new.update
        { depth := some 1
          pv := ["e2e4".toList] }).update
        { depth := some 2
          pv := ["e2e4".toList, "e7e5".toList] }).m_root ["e2e4".toList, "e7e5".toList] =
      some
        { depth := some 2
          pv := ["e2e4".toList, "e7e5".toList] } ∧
    data_at ((SearchTree.new.update
        { depth := some 1
          pv := ["e2e4".toList] }).update
        { depth := some 2
          pv := ["e2e4".toList, "e7e5".toList] }).m_root ["e2e4".toList] =
      some
        { depth := some 1
          pv := ["e2e4".toList] } :=
  have h := update_attaches_snapshot
    (SearchTree.new.update
      { depth := some 1
        pv := ["e2e4".toList] })
    { depth := some 2
      pv := ["e2e4".toList, "e7e5".toList] } (by decide)
  ⟨h.1, h.2.1 ["e2e4".toList] _ (by decide)
    (show node_at (SearchTree.new.update
      { depth := some 1
        pv := ["e2e4".toList] }).m_root ["e2e4".toList] =
      some
        { move := "e2e4".toList
          data :=
            { depth := some 1
              pv := ["e2e4".toList] }
          visit_count := 1
          multipv_index := 0
          is_pv_node := true
          children := [] } from rfl)⟩

/-! ## C9 -/

/-- C9. For every tree whose root has its children in the order of a `std::map`:
`get_best_move` is the empty string if the root has no children; if a child of
the root is flagged it is the key of a flagged child, the first in the order of
the keys; if there are children and none is flagged it is the smallest key. And
after an update whose pv is non-empty and whose multipv is absent or 1 it is the
first token of that pv. -/
theorem best_move_spec (t : SearchTree) (hs : (child_keys t.m_root).Pairwise (· < ·)) :
    (t.m_root.children = [] → t.get_best_move = []) ∧
    ((∃ e ∈ t.m_root.children, e.2.is_pv_node = true) →
      (∃ c, (t.get_best_move, c) ∈ t.m_root.children ∧ c.is_pv_node = true) ∧
        ∀ e ∈ t.m_root.children, e.2.is_pv_node = true → ¬ e.1 < t.get_best_move) ∧
    (t.m_root.children ≠ [] → (∀ e ∈ t.m_root.children, e.2.is_pv_node = false) →
      t.get_best_move ∈ child_keys t.m_root ∧
        ∀ k ∈ child_keys t.m_root, ¬ k < t.get_best_move) ∧
    (∀ (data : InfoData) (m : Str) (ms : List Str), data.pv = m :: ms →
      (data.multipv = none ∨ data.multipv = some 1) → (t.update data).get_best_move = m) := by
  refine ⟨?_, best_move_flagged t hs, best_move_unflagged t hs, ?_⟩
  · intro h
    simp [SearchTree.get_best_move, h]
  · intro data m ms hpv hmulti
    have hmain : is_main data = true := by
      rcases hmulti with h | h <;> simp [is_main, h]
    apply best_move_only _ m (child_keys_update t data hs)
    intro k
    rw [flag_at_update_main t data _ (by simp [hpv]) hmain, hpv]
    simp

/-- C9 on a tree with the children `d2d4` and `e2e4`, of which `e2e4` is flagged
by `info multipv 1 pv e2e4 e7e5`: the best move is `e2e4`; after the update
`info pv d2d4` it is `d2d4`. -/
theorem best_move_spec_witness :
    (child_keys ((SearchTree.new.update
        { multipv := some 2
          pv := ["d2d4".toList, "d7d5".toList] }).update
        { multipv := some 1
          pv := ["e2e4".toList, "e7e5".toList] }).m_root).Pairwise (· < ·) ∧
    ((SearchTree.new.update
        { multipv := some 2
          pv := ["d2d4".toList, "d7d5".toList] }).update
        { multipv := some 1
          pv := ["e2e4".toList, "e7e5".toList] }).get_best_move = "e2e4".toList ∧
    (((SearchTree.new.update
        { multipv := some 2
          pv := ["d2d4".toList, "d7d5".toList] }).update
        { multipv := some 1
          pv := ["e2e4".toList, "e7e5".toList] }).update
        { pv := ["d2d4".toList] }).get_best_move = "d2d4".toList :=
  ⟨by decide, by decide,
    (best_move_spec _ (by decide)).2.2.2 { pv := ["d2d4".toList] } "d2d4".toList [] rfl
      (Or.inl rfl)⟩

/-! ## C10 -/

/-- C10. After `clear`, whatever the tree was, `get_total_nodes` is 0,
`get_best_move` is the empty string, and the root is the sentinel that the
constructor makes: it carries the move `root`, has no children, no snapshot, no
visits and no flag. -/
theorem clear_resets (t : SearchTree) :
    t.clear.get_total_nodes = 0 ∧ t.clear.get_best_move = [] ∧
      t.clear.get_root.children = [] ∧ t.clear.get_root.move = "root".toList ∧
      t.clear.get_root.data = {} ∧ t.clear.get_root.visit_count = 0 ∧
      t.clear.get_root.multipv_index = 0 ∧ t.clear.get_root.is_pv_node = false ∧
      t.clear = SearchTree.new :=
  ⟨show SearchTree.new.get_total_nodes = 0 by decide, rfl, rfl, rfl, rfl, rfl, rfl, rfl, rfl⟩

/-! ## C11 -/

/-- C11. For every tree and every snapshot whose pv is empty, whatever its multipv
and other fields, `update` returns the tree as it is: the same nodes with the
same visit counters, attached snapshots, multipv indices and flags. -/
theorem update_empty_pv_unchanged (t : SearchTree) (data : InfoData) (h : data.pv = []) :
    t.update data = t :=
  update_empty t data h

/-- C11 on the tree built by `info multipv 1 pv e2e4 e7e5`, updated with a snapshot
that has multipv 1, a depth and a score but no pv. -/
theorem update_empty_pv_unchanged_witness :
    (SearchTree.new.update
        { multipv := some 1
          pv := ["e2e4".toList, "e7e5".toList] }).update
        { depth := some 9
          score := some { type := ScoreType.Centipawns, value := 20 }
          multipv := some 1 } =
      SearchTree.new.update
        { multipv := some 1
          pv := ["e2e4".toList, "e7e5".toList] } :=
  update_empty_pv_unchanged _ _ rfl

end vgce.model

namespace vgce.uci

/-! ## Lines that start with `info string` -/

theorem find_from_eq_none (pattern s : Str) (pos : Nat) :
    find_from pattern s pos = none ↔ ¬ pattern <:+: s := by
  induction s generalizing pos with
  | nil =>
    cases pattern with
    | nil => simp [find_from]
    | cons c cs => simp [find_from]
  | cons c cs ih =>
    rw [find_from, List.infix_cons_iff]
    by_cases hp : pattern.isPrefixOf (c :: cs) = true
    · have := List.isPrefixOf_iff_prefix.1 hp
      simp [hp, this]
    · have hn : ¬ pattern <+: c :: cs := fun hc => hp (List.isPrefixOf_iff_prefix.2 hc)
      simp only [hp, Bool.false_eq_true, if_false, ih, hn, false_or]

theorem info_prefix_of_info_string (line : Str)
    (h : "info string".toList.isPrefixOf line = true) :
    "info".toList.isPrefixOf line = true := by
  rw [List.isPrefixOf_iff_prefix] at h ⊢
  exact (show "info".toList <+: "info string".toList by decide).trans h

/-- What `parse_info_string` does, by the place of the marker. -/
theorem parse_info_string_cases (read_eval : Str → Option Int) (line : Str) :
    (find_from "NNUE evaluation".toList line 0 = none ∧
      parse_info_string read_eval line = Outcome.returned (some { raw_string := line })) ∨
    (∃ pos, find_from "NNUE evaluation".toList line 0 = some pos ∧ line.length < pos + 18 ∧
      parse_info_string read_eval line = Outcome.thrown Exception.out_of_range) ∨
    (∃ pos, find_from "NNUE evaluation".toList line 0 = some pos ∧ pos + 18 ≤ line.length ∧
      parse_info_string read_eval line = Outcome.returned (some
        { raw_string := line
          static_eval := (read_eval (at_index (split (line.drop (pos + 18)) ' ') 0)).map
            (fun val => { type := ScoreType.Centipawns, value := val }) })) := by
  unfold parse_info_string
  cases hf : find_from "NNUE evaluation".toList line 0 with
  | none => exact Or.inl ⟨rfl, rfl⟩
  | some pos =>
    right
    by_cases hlen : line.length < pos + 18
    · left
      refine ⟨pos, rfl, hlen, ?_⟩
      simp [substr, hlen]
    · right
      refine ⟨pos, rfl, by omega, ?_⟩
      have hlen2 : ¬ pos + 18 > line.length := by omega
      have htok : (split (line.drop (pos + 18)) ' ').length ≥ 1 := by
        cases h : line.drop (pos + 18) with
        | nil => simp [split]
        | cons c cs =>
          simp only [split]
          split
          · simp
          · cases split cs ' ' <;> simp [consToken]
      simp only [substr, hlen2, if_false, htok, if_true]
      cases read_eval (at_index (split (line.drop (pos + 18)) ' ') 0) <;> rfl

theorem scan_all_raw_string (toks : List Str) (line : Str) :
    (scan_all toks { raw_string := line }).raw_string = line := by
  have h := scan_raw toks.length toks { raw_string := line } line
  have h0 : set_raw line ({ raw_string := line } : InfoData) = { raw_string := line } := rfl
  rw [h0] at h
  unfold scan_all
  rw [h]
  rfl

theorem parse_info_search_raw (line : Str) :
    ∃ d, parse_info_search line = some d ∧ d.raw_string = line := by
  rw [parse_info_search_eq]
  exact ⟨_, rfl, scan_all_raw_string _ _⟩

/-! ## C17 -/

/-- C17. `parse_line` returns none exactly for the lines that do not start with
`info`, every snapshot it returns has the line as its raw text, and every line
that starts with `info` and not with `info string` yields a snapshot, the bare
word `info` among them. A line that starts with `info string` yields a snapshot
too unless the marker `NNUE evaluation` begins fewer than 18 characters before
the end of the line: there `substr` throws, as for the line
`info string NNUE evaluation`, which starts with `info` and yields no
snapshot. -/
theorem parse_line_none_iff_not_info :
    (∀ (read_eval : Str → Option Int) (line : Str),
      parse_line read_eval line = Outcome.returned none ↔
        "info".toList.isPrefixOf line = false) ∧
    (∀ (read_eval : Str → Option Int) (line : Str) (d : InfoData),
      parse_line read_eval line = Outcome.returned (some d) → d.raw_string = line) ∧
    (∀ (read_eval : Str → Option Int) (line : Str),
      "info".toList.isPrefixOf line = true → "info string".toList.isPrefixOf line = false →
        ∃ d, parse_line read_eval line = Outcome.returned (some d) ∧ d.raw_string = line) ∧
    (∀ (read_eval : Str → Option Int) (line : Str),
      "info string".toList.isPrefixOf line = true →
        (∃ d, parse_line read_eval line = Outcome.returned (some d) ∧ d.raw_string = line) ∨
        (parse_line read_eval line = Outcome.thrown Exception.out_of_range ∧
          ∃ pos, find_from "NNUE evaluation".toList line 0 = some pos ∧
            line.length < pos + 18)) ∧
    (∀ read_eval : Str → Option Int,
      parse_line read_eval "info".toList = Outcome.returned (some { raw_string := "info".toList })) ∧
    (∀ read_eval : Str → Option Int,
      "info".toList.isPrefixOf "info string NNUE evaluation".toList = true ∧
      parse_line read_eval "info string NNUE evaluation".toList =
        Outcome.thrown Exception.out_of_range) := by
  refine ⟨?_, ?_, ?_, ?_, fun _ => rfl, fun _ => ⟨rfl, rfl⟩⟩
  · intro f line
    unfold parse_line
    by_cases hs : "info string".toList.isPrefixOf line = true
    · simp only [hs, if_true, info_prefix_of_info_string line hs, Bool.true_eq_false, iff_false]
      rcases parse_info_string_cases f line with ⟨_, h⟩ | ⟨_, _, _, h⟩ | ⟨_, _, _, h⟩ <;>
        simp [h]
    · rw [if_neg hs]
      by_cases hi : "info".toList.isPrefixOf line = true
      · obtain ⟨d, hd, _⟩ := parse_info_search_raw line
        rw [if_pos hi, hd, hi]
        simp
      · rw [if_neg hi]
        rw [Bool.not_eq_true] at hi
        exact ⟨fun _ => hi, fun _ => rfl⟩
  · intro f line d h
    unfold parse_line at h
    by_cases hs : "info string".toList.isPrefixOf line = true
    · simp only [hs, if_true] at h
      rcases parse_info_string_cases f line with ⟨_, h2⟩ | ⟨_, _, _, h2⟩ | ⟨_, _, _, h2⟩
      · rw [h2] at h; cases h; rfl
      · rw [h2] at h; cases h
      · rw [h2] at h; cases h; rfl
    · rw [if_neg hs] at h
      by_cases hi : "info".toList.isPrefixOf line = true
      · obtain ⟨d2, hd, hr⟩ := parse_info_search_raw line
        rw [if_pos hi, hd] at h
        cases h; exact hr
      · rw [if_neg hi] at h; cases h
  · intro f line hi hs
    obtain ⟨d, hd, hr⟩ := parse_info_search_raw line
    refine ⟨d, ?_, hr⟩
    unfold parse_line
    rw [if_neg (by rw [hs]; decide), if_pos hi, hd]
  · intro f line hs
    unfold parse_line
    simp only [hs, if_true]
    rcases parse_info_string_cases f line with ⟨_, h⟩ | ⟨pos, hp, hl, h⟩ | ⟨_, _, _, h⟩
    · exact Or.inl ⟨_, h, rfl⟩
    · exact Or.inr ⟨h, pos, hp, hl⟩
    · exact Or.inl ⟨_, h, rfl⟩

/-! ## C18 -/

/-- C18. `parse_line` does raise: on the line `info string NNUE evaluation`, and
on every line that starts with `info string` and in which the first marker
`NNUE evaluation` begins fewer than 18 characters before the end of the line,
`substr` throws `std::out_of_range`. On every other line `parse_line` returns. -/
theorem parse_line_throws :
    (∀ read_eval : Str → Option Int,
      parse_line read_eval "info string NNUE evaluation".toList =
        Outcome.thrown Exception.out_of_range) ∧
    (∀ (read_eval : Str → Option Int) (line : Str) (pos : Nat),
      "info string".toList.isPrefixOf line = true →
      find_from "NNUE evaluation".toList line 0 = some pos → line.length < pos + 18 →
        parse_line read_eval line = Outcome.thrown Exception.out_of_range) ∧
    (∀ (read_eval : Str → Option Int) (line : Str),
      (∃ r, parse_line read_eval line = Outcome.returned r) ∨
        ("info string".toList.isPrefixOf line = true ∧
          ∃ pos, find_from "NNUE evaluation".toList line 0 = some pos ∧
            line.length < pos + 18)) := by
  refine ⟨fun _ => rfl, ?_, ?_⟩
  · intro f line pos hs hp hl
    unfold parse_line
    simp only [hs, if_true]
    rcases parse_info_string_cases f line with ⟨h0, _⟩ | ⟨_, _, _, h⟩ | ⟨pos2, hp2, hl2, _⟩
    · rw [hp] at h0; cases h0
    · exact h
    · rw [hp] at hp2; cases hp2; omega
  · intro f line
    unfold parse_line
    by_cases hs : "info string".toList.isPrefixOf line = true
    · simp only [hs, if_true]
      rcases parse_info_string_cases f line with ⟨_, h⟩ | ⟨pos, hp, hl, _⟩ | ⟨_, _, _, h⟩
      · exact Or.inl ⟨_, h⟩
      · exact Or.inr ⟨trivial, pos, hp, hl⟩
      · exact Or.inl ⟨_, h⟩
    · simp only [hs, Bool.false_eq_true, if_false]
      left
      split <;> exact ⟨_, rfl⟩

/-! ## C19 -/

/-- C19. For every line that starts with `info string` and does not contain the
text `NNUE evaluation`, `parse_line` returns a snapshot that has the line as its
raw text and nothing else: the pv and the current-move text are empty and every
optional field is absent. -/
theorem parse_line_info_string_plain (read_eval : Str → Option Int) (line : Str)
    (hs : "info string".toList.isPrefixOf line = true)
    (hn : ¬ "NNUE evaluation".toList <:+: line) :
    parse_line read_eval line = Outcome.returned (some { raw_string := line }) := by
  unfold parse_line
  simp only [hs, if_true]
  rcases parse_info_string_cases read_eval line with ⟨_, h⟩ | ⟨pos, hp, _⟩ | ⟨pos, hp, _⟩
  · exact h
  · rw [(find_from_eq_none _ _ _).2 hn] at hp; cases hp
  · rw [(find_from_eq_none _ _ _).2 hn] at hp; cases hp

/-- C19 on the line `info string depth 5 pv e2e4`: the words `depth 5` and
`pv e2e4` set nothing. -/
theorem parse_line_info_string_plain_witness :
    parse_line (fun _ => some 7) "info string depth 5 pv e2e4".toList =
      Outcome.returned (some
        { depth := none
          seldepth := none
          score := none
          nodes := none
          nps := none
          tbhits := none
          hashfull := none
          time := none
          multipv := none
          pv := []
          wdl := none
          static_eval := none
          raw_string := "info string depth 5 pv e2e4".toList
          currmove := []
          currmovenumber := none }) :=
  parse_line_info_string_plain (fun _ => some 7) "info string depth 5 pv e2e4".toList
    (by decide) (by decide)

/-! ## C14 -/

/-- C14. For every integer `n` in signed 32-bit range written as the decimal
numeral `txt` with an optional leading minus sign, and every move token `m`
(a token has no space), parsing `info score mate n pv m` yields the score
`Mate n`, the sign kept and the value not clamped; the pv is `[m]` and no other
field is set. -/
theorem parse_line_score_mate (read_eval : Str → Option Int) (txt : Str) (n : Int) (m : Str)
    (hn : IsSignedDecimal txt n) (hr : -2147483648 ≤ n ∧ n ≤ 2147483647)
    (hm : ∀ c ∈ m, c ≠ ' ') :
    parse_line read_eval ("info score mate ".toList ++ txt ++ " pv ".toList ++ m) =
      Outcome.returned (some
        { score := some { type := ScoreType.Mate, value := n }
          pv := [m]
          raw_string := "info score mate ".toList ++ txt ++ " pv ".toList ++ m }) := by
  have hline : "info score mate ".toList ++ txt ++ " pv ".toList ++ m =
      unwords ["info".toList, Key.score.text, "mate".toList, txt, Key.pv.text, m] := by
    simp [unwords, Key.text]
  have hsplit : split ("info score mate ".toList ++ txt ++ " pv ".toList ++ m) ' ' =
      ["info".toList, Key.score.text, "mate".toList, txt, Key.pv.text, m] := by
    rw [hline]
    apply split_unwords
    intro tok htok
    simp only [List.mem_cons, List.mem_singleton, List.not_mem_nil, or_false] at htok
    rcases htok with rfl | rfl | rfl | rfl | rfl | rfl
    · decide
    · decide
    · decide
    · exact signed_decimal_no_space _ _ hn
    · decide
    · exact hm
  have h1 : ("info string".toList).isPrefixOf
      ("info score mate ".toList ++ txt ++ " pv ".toList ++ m) = false := by
    simp [List.isPrefixOf]
  have h2 : ("info".toList).isPrefixOf
      ("info score mate ".toList ++ txt ++ " pv ".toList ++ m) = true := by
    simp [List.isPrefixOf]
  have hc := parse_signed_decimal i32 txt n hn (by simp only [i32]; constructor <;> omega)
  unfold parse_line
  rw [h1, h2, parse_info_search_eq, hsplit]
  simp only [List.drop_succ_cons, List.drop_zero, Bool.false_eq_true, if_false, if_true]
  rw [scan_all_key Key.score _ _ (by decide) (by simp [Key.arity])]
  simp only [Key.arity, List.drop_succ_cons, List.drop_zero]
  rw [scan_all_pv _ _ (by simp)]
  have hmate : ("mate".toList = "cp".toList) = False := by decide
  simp [store_key, at_index, parse_score, hc, hmate]

/-- C14 on the line of the specification, `info score mate -3 pv g1f3`. -/
theorem parse_line_score_mate_witness :
    parse_line (fun _ => none) "info score mate -3 pv g1f3".toList =
      Outcome.returned (some
        { score := some { type := ScoreType.Mate, value := -3 }
          pv := ["g1f3".toList]
          raw_string := "info score mate -3 pv g1f3".toList }) :=
  parse_line_score_mate (fun _ => none) "-3".toList (-3) "g1f3".toList
    (Or.inr ⟨"3".toList, 3, rfl, ⟨by decide, by decide, by decide⟩, rfl⟩) (by decide) (by decide)

/-! ## Key positions of a line -/

theorem advance_le (token : Str) (rest : List Str) (k : Nat)
    (h : advance token rest = some k) : k ≤ rest.length + 1 := by
  unfold advance at h
  split at h
  · split_ifs at h <;> (injection h with h; omega)
  · injection h with h; omega

theorem reaches_le (fuel : Nat) (toks : List Str) (n : Nat) (h : reaches fuel toks n = true) :
    n ≤ toks.length := by
  induction fuel generalizing toks n with
  | zero =>
    cases n with
    | zero => exact Nat.zero_le _
    | succ n => simp [reaches] at h
  | succ fuel ih =>
    cases n with
    | zero => exact Nat.zero_le _
    | succ n =>
      cases toks with
      | nil => simp [reaches] at h
      | cons tok rest =>
        simp only [reaches] at h
        cases ha : advance tok rest with
        | none => simp [ha] at h
        | some k =>
          simp only [ha, Bool.and_eq_true, decide_eq_true_eq] at h
          have := ih _ _ h.2
          have hk := advance_pos _ _ _ ha
          have hk1 := h.1
          have hk2 := advance_le _ _ _ ha
          simp only [List.length_drop, List.length_cons] at this ⊢
          omega

theorem reaches_mono (f1 f2 : Nat) (toks : List Str) (n : Nat) (hf : f1 ≤ f2)
    (h : reaches f1 toks n = true) : reaches f2 toks n = true := by
  induction f1 generalizing f2 toks n with
  | zero =>
    cases n with
    | zero => cases f2 <;> cases toks <;> rfl
    | succ n => simp [reaches] at h
  | succ f1 ih =>
    cases n with
    | zero => cases f2 <;> cases toks <;> rfl
    | succ n =>
      cases toks with
      | nil => simp [reaches] at h
      | cons tok rest =>
        cases f2 with
        | zero => omega
        | succ f2 =>
          simp only [reaches] at h ⊢
          cases ha : advance tok rest with
          | none => simp [ha] at h
          | some k =>
            simp only [ha, Bool.and_eq_true, decide_eq_true_eq] at h ⊢
            exact ⟨h.1, ih f2 _ _ (by omega) h.2⟩

/-- When the loop reaches the end of `pre` and from there goes `m` tokens
further, it reaches the place `m` tokens behind `pre`. -/
theorem reaches_extend (f1 f2 : Nat) (pre tail : List Str) (m : Nat)
    (h1 : reaches f1 (pre ++ tail) pre.length = true) (h2 : reaches f2 tail m = true) :
    reaches (f1 + f2) (pre ++ tail) (pre.length + m) = true := by
  induction f1 generalizing pre with
  | zero =>
    cases pre with
    | nil => simpa using h2
    | cons tok pre => simp [reaches] at h1
  | succ f1 ih =>
    cases pre with
    | nil => exact reaches_mono f2 _ _ _ (by omega) (by simpa using h2)
    | cons tok pre =>
      simp only [List.cons_append, List.length_cons, reaches, List.append_eq] at h1
      cases ha : advance tok (pre ++ tail) with
      | none => simp [ha] at h1
      | some j =>
        simp only [ha, Bool.and_eq_true, decide_eq_true_eq] at h1
        obtain ⟨hj, hr⟩ := h1
        have hj1 := advance_pos _ _ _ ha
        have hd : (pre ++ tail).drop (j - 1) = pre.drop (j - 1) ++ tail := by
          rw [List.drop_append_of_le_length (by omega)]
        have hl : pre.length + 1 - j = (pre.drop (j - 1)).length := by
          simp only [List.length_drop]; omega
        rw [hd, hl] at hr
        have := ih _ hr
        have e1 : f1 + 1 + f2 = (f1 + f2) + 1 := by omega
        have e2 : pre.length + 1 + m = (pre.length + m) + 1 := by omega
        simp only [List.cons_append, List.length_cons, e1, e2, reaches, ha, Bool.and_eq_true,
          decide_eq_true_eq]
        refine ⟨by omega, ?_⟩
        rw [hd]
        have e3 : pre.length + m + 1 - j = (pre.drop (j - 1)).length + m := by
          simp only [List.length_drop]; omega
        rw [e3]
        exact this

/-- An iteration that goes on does not touch the pv. -/
theorem store_pv (tok : Str) (rest : List Str) (d : InfoData) (j : Nat)
    (ha : advance tok rest = some j) : (store tok rest d).pv = d.pv := by
  unfold advance at ha
  unfold store
  cases hk : key_of tok with
  | none => rfl
  | some k =>
    simp only [hk] at ha ⊢
    by_cases hg : k.arity ≤ rest.length
    · simp only [hg, if_true] at ha ⊢
      cases k <;> simp only [store_key] <;> first
        | rfl
        | (split <;> rfl)
        | simp at ha
    · simp only [hg, if_false]

/-- When the loop reaches the end of `pre`, it does on `pre ++ tail` what it does
on `pre` alone and then on `tail`; and on `pre` it leaves the pv as it is. -/
theorem scan_all_at_reach (fuel : Nat) (pre tail : List Str)
    (hr : reaches fuel (pre ++ tail) pre.length = true) (d : InfoData) :
    scan_all (pre ++ tail) d = scan_all tail (scan_all pre d) ∧ (scan_all pre d).pv = d.pv := by
  induction fuel generalizing pre d with
  | zero =>
    cases pre with
    | nil => exact ⟨rfl, rfl⟩
    | cons tok pre => simp [reaches] at hr
  | succ fuel ih =>
    cases pre with
    | nil => exact ⟨rfl, rfl⟩
    | cons tok pre =>
      simp only [List.cons_append, List.length_cons, reaches, List.append_eq] at hr
      cases ha : advance tok (pre ++ tail) with
      | none => simp [ha] at hr
      | some j =>
        simp only [ha, Bool.and_eq_true, decide_eq_true_eq] at hr
        obtain ⟨hj, hr⟩ := hr
        have hj1 := advance_pos _ _ _ ha
        obtain ⟨ha2, hst⟩ := step_prefix tok pre tail [] j ha hj (by simp)
        simp only [List.append_nil] at ha2 hst
        have hd1 : (pre ++ tail).drop (j - 1) = pre.drop (j - 1) ++ tail := by
          rw [List.drop_append_of_le_length (by omega)]
        have hl : pre.length + 1 - j = (pre.drop (j - 1)).length := by
          simp only [List.length_drop]; omega
        rw [hd1, hl] at hr
        obtain ⟨h1, h2⟩ := ih (pre.drop (j - 1)) hr (store tok pre d)
        simp only [List.cons_append]
        rw [scan_all_cons, ha, scan_all_cons tok pre, ha2]
        simp only [hd1, hst]
        exact ⟨h1, by rw [h2, store_pv tok pre d j ha2]⟩

theorem split_length_pos (s : Str) (d : Char) : 1 ≤ (split s d).length := by
  cases s with
  | nil => simp [split]
  | cons c cs =>
    simp only [split]
    split
    · simp
    · cases split cs d <;> simp [consToken]

/-- A line at one of its key positions: the snapshot is what the loop yields on
the tokens from that position on, begun with what it yields on the tokens
before. -/
theorem parse_line_at_key_position (read_eval : Str → Option Int) (line : Str) (i : Nat)
    (h : line_key_position line i = true) :
    1 ≤ i ∧ i ≤ (split line ' ').length ∧
    parse_line read_eval line = Outcome.returned (some
      (scan_all ((split line ' ').drop i)
        (scan_all (((split line ' ').drop 1).take (i - 1)) { raw_string := line }))) ∧
    (scan_all (((split line ' ').drop 1).take (i - 1)) { raw_string := line }).pv = [] ∧
    reaches i ((split line ' ').drop 1) (i - 1) = true := by
  simp only [line_key_position, key_position, Bool.and_eq_true, Bool.not_eq_true',
    decide_eq_true_eq] at h
  obtain ⟨⟨hi, hs⟩, h1, hr⟩ := h
  have hle := reaches_le _ _ _ hr
  simp only [List.length_drop] at hle
  have hpos := split_length_pos line ' '
  have hle2 : i ≤ (split line ' ').length := by omega
  have hsplit : (split line ' ').drop 1 =
      ((split line ' ').drop 1).take (i - 1) ++ (split line ' ').drop i := by
    have := (List.take_append_drop (i - 1) ((split line ' ').drop 1)).symm
    rw [List.drop_drop] at this
    have e : 1 + (i - 1) = i := by omega
    rw [e] at this
    exact this
  have hlen : (((split line ' ').drop 1).take (i - 1)).length = i - 1 := by
    simp only [List.length_take, List.length_drop]; omega
  have hr2 : reaches i (((split line ' ').drop 1).take (i - 1) ++ (split line ' ').drop i)
      (((split line ' ').drop 1).take (i - 1)).length = true := by
    rw [← hsplit, hlen]; exact hr
  obtain ⟨e1, e2⟩ := scan_all_at_reach i _ _ hr2 { raw_string := line }
  refine ⟨h1, hle2, ?_, e2, hr⟩
  unfold parse_line
  rw [if_neg (by rw [hs]; decide), if_pos hi, parse_info_search_eq, hsplit, e1, ← hsplit]

theorem loop_on_prefix (tokens : List Str) (i : Nat) (d : InfoData) :
    parse_info_search_loop (tokens.take i) i 1 d = scan_all ((tokens.drop 1).take (i - 1)) d := by
  rw [loop_eq_scan, List.drop_take]
  unfold scan_all
  apply scan_fuel
  · simp only [List.length_take]; omega
  · exact le_refl _

/-! ## C12 -/

/-- C12. For every line handed to the field parser in which a `pv` token stands in
key position and is followed by at least one token, the pv of the snapshot is
the list of all tokens after that `pv`, in their order, and every other field is
what the loop yields on the tokens before that `pv` alone: no field is set from
a token after it. -/
theorem pv_takes_all_tokens_after (read_eval : Str → Option Int) (line : Str) (i : Nat)
    (hpos : line_key_position line i = true)
    (hpv : at_index (split line ' ') i = Key.pv.text)
    (hnext : i + 1 < (split line ' ').length) :
    parse_line read_eval line = Outcome.returned (some
      { parse_info_search_loop ((split line ' ').take i) i 1 { raw_string := line } with
        pv := (split line ' ').drop (i + 1) }) := by
  obtain ⟨_, _, hp, hpv0, _⟩ := parse_line_at_key_position read_eval line i hpos
  rw [hp, drop_eq_cons_at_index _ i (by omega), hpv,
    scan_all_pv _ _ (by simp only [List.length_drop]; omega), hpv0, loop_on_prefix]
  rfl

/-- C12 on the line `info pv e2e4 depth 5`: the pv is `e2e4 depth 5` and the depth
is absent. -/
theorem pv_takes_all_tokens_after_witness :
    parse_line (fun _ => none) "info pv e2e4 depth 5".toList =
      Outcome.returned (some
        { depth := none
          pv := ["e2e4".toList, "depth".toList, "5".toList]
          raw_string := "info pv e2e4 depth 5".toList }) :=
  pv_takes_all_tokens_after (fun _ => none) "info pv e2e4 depth 5".toList 1
    (by decide) (by decide) (by decide)

/-! ## Fields that the other tokens leave alone -/

theorem store_field_other (k : Key) (tok : Str) (rest : List Str) (d : InfoData)
    (h : tok ≠ k.text) : field k (store tok rest d) = field k d := by
  unfold store
  cases hk2 : key_of tok with
  | none => rfl
  | some k2 =>
    have hne : k2 ≠ k := by
      intro hc; subst hc; exact h (key_of_eq_some tok k2 hk2)
    by_cases hg : k2.arity ≤ rest.length
    · simp only [hg, if_true]
      cases k <;> cases k2 <;> first
        | exact absurd rfl hne
        | rfl
        | (simp only [store_key, field]; split <;> rfl)
    · simp only [hg, if_false]

theorem store_score_other (tok : Str) (rest : List Str) (d : InfoData)
    (h : tok ≠ Key.score.text) : (store tok rest d).score = d.score := by
  unfold store
  cases hk2 : key_of tok with
  | none => rfl
  | some k2 =>
    have hne : k2 ≠ Key.score := by
      intro hc; subst hc; exact h (key_of_eq_some tok _ hk2)
    by_cases hg : k2.arity ≤ rest.length
    · simp only [hg, if_true]
      cases k2 <;> first
        | exact absurd rfl hne
        | rfl
        | (simp only [store_key]; split <;> rfl)
    · simp only [hg, if_false]

theorem store_wdl_other (tok : Str) (rest : List Str) (d : InfoData)
    (h : tok ≠ Key.wdl.text) : (store tok rest d).wdl = d.wdl := by
  unfold store
  cases hk2 : key_of tok with
  | none => rfl
  | some k2 =>
    have hne : k2 ≠ Key.wdl := by
      intro hc; subst hc; exact h (key_of_eq_some tok _ hk2)
    by_cases hg : k2.arity ≤ rest.length
    · simp only [hg, if_true]
      cases k2 <;> first
        | exact absurd rfl hne
        | rfl
    · simp only [hg, if_false]

/-- The loop moves a property of the snapshot along when no iteration on a token
other than `key` changes it and `key` is not among the tokens. -/
theorem scan_frame {α : Type} (get : InfoData → α) (key : Str)
    (hstore : ∀ tok rest d, tok ≠ key → get (store tok rest d) = get d)
    (fuel : Nat) (toks : List Str) (d : InfoData) (h : key ∉ toks) :
    get (scan fuel toks d) = get d := by
  induction fuel generalizing toks d with
  | zero => rfl
  | succ fuel ih =>
    cases toks with
    | nil => rfl
    | cons tok rest =>
      have htok : tok ≠ key := fun hc => h (hc ▸ List.mem_cons_self _ _)
      have hrest : ∀ j, key ∉ rest.drop j := fun j hc =>
        h (List.mem_cons_of_mem _ (List.mem_of_mem_drop hc))
      simp only [scan]
      cases advance tok rest with
      | none => exact hstore tok rest d htok
      | some j => rw [ih _ _ (hrest _), hstore tok rest d htok]

theorem scan_all_field (k : Key) (toks : List Str) (d : InfoData) (h : k.text ∉ toks) :
    field k (scan_all toks d) = field k d :=
  scan_frame (field k) k.text (fun tok rest d ht => store_field_other k tok rest d ht) _ _ _ h

theorem scan_all_score (toks : List Str) (d : InfoData) (h : Key.score.text ∉ toks) :
    (scan_all toks d).score = d.score :=
  scan_frame InfoData.score _ (fun tok rest d ht => store_score_other tok rest d ht) _ _ _ h

theorem scan_all_wdl (toks : List Str) (d : InfoData) (h : Key.wdl.text ∉ toks) :
    (scan_all toks d).wdl = d.wdl :=
  scan_frame InfoData.wdl _ (fun tok rest d ht => store_wdl_other tok rest d ht) _ _ _ h

theorem advance_key (k : Key) (rest : List Str) (hk : k ≠ Key.pv)
    (hr : k.arity ≤ rest.length) : advance k.text rest = some (k.arity + 1) := by
  simp [advance, key_of_text, hr, hk]

/-- A line at a key position where a key other than `pv` stands with enough
tokens behind it: the snapshot is what the loop yields on the tokens behind the
values, begun with what the key stores. -/
theorem parse_line_at_key (read_eval : Str → Option Int) (line : Str) (i : Nat) (k : Key)
    (hpos : line_key_position line i = true)
    (hkey : at_index (split line ' ') i = k.text) (hk : k ≠ Key.pv)
    (hval : i + k.arity < (split line ' ').length) :
    parse_line read_eval line = Outcome.returned (some
      (scan_all ((split line ' ').drop (i + 1 + k.arity))
        (store_key k ((split line ' ').drop (i + 1))
          (scan_all (((split line ' ').drop 1).take (i - 1)) { raw_string := line })))) ∧
    line_key_position line (i + 1 + k.arity) = true := by
  obtain ⟨h1, _, hp, _, hr⟩ := parse_line_at_key_position read_eval line i hpos
  have hlen : k.arity ≤ ((split line ' ').drop (i + 1)).length := by
    simp only [List.length_drop]; omega
  refine ⟨?_, ?_⟩
  · rw [hp, drop_eq_cons_at_index _ i (by omega), hkey, scan_all_key k _ _ hk hlen,
      List.drop_drop]
  · simp only [line_key_position, key_position, Bool.and_eq_true, Bool.not_eq_true',
      decide_eq_true_eq] at hpos ⊢
    refine ⟨hpos.1, by omega, ?_⟩
    have hsplit : (split line ' ').drop 1 =
        ((split line ' ').drop 1).take (i - 1) ++ (split line ' ').drop i := by
      have := (List.take_append_drop (i - 1) ((split line ' ').drop 1)).symm
      rw [List.drop_drop] at this
      have e : 1 + (i - 1) = i := by omega
      rw [e] at this
      exact this
    have hl : (((split line ' ').drop 1).take (i - 1)).length = i - 1 := by
      simp only [List.length_take, List.length_drop]; omega
    have hr1 : reaches i (((split line ' ').drop 1).take (i - 1) ++ (split line ' ').drop i)
        (((split line ' ').drop 1).take (i - 1)).length = true := by
      rw [← hsplit, hl]; exact hr
    have hr2 : reaches 1 ((split line ' ').drop i) (k.arity + 1) = true := by
      rw [drop_eq_cons_at_index _ i (by omega), hkey]
      have ha := advance_key k _ hk hlen
      have hz : ∀ l : List Str, reaches 0 l 0 = true := fun l => by simp [reaches]
      simp only [reaches, ha, Nat.sub_self, le_refl, decide_True, Bool.true_and, hz]
    have := reaches_extend i 1 _ _ _ hr1 hr2
    rw [← hsplit, hl] at this
    have e : i - 1 + (k.arity + 1) = i + 1 + k.arity - 1 := by omega
    rw [e] at this
    exact reaches_mono _ _ _ _ (by omega) this

/-! ## C13 -/

/-- C13 as stated fails. In `info score cp abc` the value `abc` is not a number,
yet the score is present: `parse_score` puts 0 where `parse_signed` reads no
value. -/
theorem score_group_counterexample :
    parse_line (fun _ => none) "info score cp abc".toList =
      Outcome.returned (some
        { score := some { type := ScoreType.Centipawns, value := 0 }
          raw_string := "info score cp abc".toList }) := by
  decide

/-- C13, amended. For every line handed to the field parser in which `score`
stands in key position, is followed by two tokens `T V` and does not occur again
after them, the score is present if and only if `T` is `cp` or `mate`; it then
has that type and the value that `parse_signed` reads from `V`, or 0 when
`parse_signed` reads none. When `T` is anything else the score is absent. -/
theorem score_group (read_eval : Str → Option Int) (line : Str) (i : Nat)
    (hpos : line_key_position line i = true)
    (hkey : at_index (split line ' ') i = Key.score.text)
    (hval : i + 2 < (split line ' ').length)
    (hlater : Key.score.text ∉ (split line ' ').drop (i + 3)) :
    ∃ d, parse_line read_eval line = Outcome.returned (some d) ∧
      (d.score.isSome = true ↔
        (at_index (split line ' ') (i + 1) = "cp".toList ∨
          at_index (split line ' ') (i + 1) = "mate".toList)) ∧
      d.score =
        if at_index (split line ' ') (i + 1) = "cp".toList then
          some { type := ScoreType.Centipawns
                 value := (parse_signed i32 (at_index (split line ' ') (i + 2))).getD 0 }
        else if at_index (split line ' ') (i + 1) = "mate".toList then
          some { type := ScoreType.Mate
                 value := (parse_signed i32 (at_index (split line ' ') (i + 2))).getD 0 }
        else none := by
  obtain ⟨hp, _⟩ := parse_line_at_key read_eval line i Key.score hpos hkey (by decide) hval
  have hs : ∀ d0 : InfoData, (scan_all ((split line ' ').drop (i + 1 + Key.score.arity))
      (store_key Key.score ((split line ' ').drop (i + 1)) d0)).score =
      parse_score (at_index (split line ' ') (i + 1)) (at_index (split line ' ') (i + 2)) := by
    intro d0
    rw [show i + 1 + Key.score.arity = i + 3 from rfl, scan_all_score _ _ hlater]
    simp only [store_key, at_index_drop]
  refine ⟨_, hp, ?_, ?_⟩
  · rw [hs]
    unfold parse_score
    by_cases h1 : at_index (split line ' ') (i + 1) = "cp".toList
    · rw [if_pos h1]; exact ⟨fun _ => Or.inl h1, fun _ => rfl⟩
    · rw [if_neg h1]
      by_cases h2 : at_index (split line ' ') (i + 1) = "mate".toList
      · rw [if_pos h2]; exact ⟨fun _ => Or.inr h2, fun _ => rfl⟩
      · rw [if_neg h2]
        exact ⟨fun hc => (by cases hc), fun hc => (by rcases hc with hc | hc <;> contradiction)⟩
  · rw [hs]
    rfl

/-- C13, amended, on the line `info score lowerbound 5 depth 3`: the type is
neither `cp` nor `mate`, the score is absent. -/
theorem score_group_witness :
    ∃ d, parse_line (fun _ => none) "info score lowerbound 5 depth 3".toList =
        Outcome.returned (some d) ∧
      d.score = none :=
  have h := score_group (fun _ => none) "info score lowerbound 5 depth 3".toList 1
    (by decide) (by decide) (by decide) (by decide)
  h.elim fun d hd => ⟨d, hd.1, hd.2.2.trans (by decide)⟩

/-! ## C15 -/

/-- C15 as stated fails. In `info wdl 1 2 3 wdl x y z` the second `wdl` stands in
key position and its three tokens do not parse, yet the wdl field is present:
a group that does not parse leaves the field as the first group set it. And in
`info wdl 1 2 3 wdl 4 5 6` the three tokens of the first group parse, yet the
field is not `(1, 2, 3)` but what the second group stores. -/
theorem wdl_group_counterexample :
    line_key_position "info wdl 1 2 3 wdl x y z".toList 5 = true ∧
    parse_line (fun _ => none) "info wdl 1 2 3 wdl x y z".toList =
      Outcome.returned (some
        { wdl := some { win := 1, draw := 2, loss := 3 }
          raw_string := "info wdl 1 2 3 wdl x y z".toList }) ∧
    line_key_position "info wdl 1 2 3 wdl 4 5 6".toList 1 = true ∧
    parse_line (fun _ => none) "info wdl 1 2 3 wdl 4 5 6".toList =
      Outcome.returned (some
        { wdl := some { win := 4, draw := 5, loss := 6 }
          raw_string := "info wdl 1 2 3 wdl 4 5 6".toList }) := by
  decide

/-- C15, amended. For every line handed to the field parser in which `wdl` stands
in key position, is followed by three tokens `A B C` and occurs neither before
nor after them: the wdl field is present, with the three values read, if and
only if `parse_unsigned` reads a 32-bit value from each of the three tokens,
and absent otherwise; in both cases the loop goes on right after the third
token. -/
theorem wdl_group (read_eval : Str → Option Int) (line : Str) (i : Nat)
    (hpos : line_key_position line i = true)
    (hkey : at_index (split line ' ') i = Key.wdl.text)
    (hval : i + 3 < (split line ' ').length)
    (hbefore : Key.wdl.text ∉ (split line ' ').take i)
    (hlater : Key.wdl.text ∉ (split line ' ').drop (i + 4)) :
    ∃ d, parse_line read_eval line = Outcome.returned (some d) ∧
      d.wdl =
        (match parse_unsigned u32 (at_index (split line ' ') (i + 1)),
            parse_unsigned u32 (at_index (split line ' ') (i + 2)),
            parse_unsigned u32 (at_index (split line ' ') (i + 3)) with
          | some w, some dr, some l => some { win := w, draw := dr, loss := l }
          | _, _, _ => none) ∧
      line_key_position line (i + 4) = true := by
  obtain ⟨hp, hnext⟩ := parse_line_at_key read_eval line i Key.wdl hpos hkey (by decide) hval
  have hb : Key.wdl.text ∉ ((split line ' ').drop 1).take (i - 1) := by
    rw [← List.drop_take]
    exact fun hc => hbefore (List.mem_of_mem_drop hc)
  refine ⟨_, hp, ?_, hnext⟩
  rw [show i + 1 + Key.wdl.arity = i + 4 from rfl, scan_all_wdl _ _ hlater]
  have h0 : (scan_all (((split line ' ').drop 1).take (i - 1)) { raw_string := line }).wdl
      = none := scan_all_wdl _ _ hb
  simp only [store_key, at_index_drop]
  split <;> simp_all

/-- C15, amended, on the line `info wdl 300 600 x depth 7`: the third token does
not parse, the wdl field is absent, and the loop goes on at `depth`. -/
theorem wdl_group_witness :
    ∃ d, parse_line (fun _ => none) "info wdl 300 600 x depth 7".toList =
        Outcome.returned (some d) ∧
      d.wdl = none ∧ line_key_position "info wdl 300 600 x depth 7".toList 5 = true :=
  have h := wdl_group (fun _ => none) "info wdl 300 600 x depth 7".toList 1
    (by decide) (by decide) (by decide) (by decide) (by decide)
  h.elim fun d hd => ⟨d, hd.1, hd.2.1.trans (by decide), hd.2.2⟩

/-! ## C16 -/

theorem parse_unsigned_iff (bits : Nat) (val : Str) (n : Nat) :
    parse_unsigned bits val = some n ↔
      (IsDecimal (val.takeWhile Char.isDigit) n ∧ n < 2 ^ bits) := by
  have hall : ∀ c ∈ val.takeWhile Char.isDigit, c.isDigit = true :=
    fun c hc => List.mem_takeWhile_imp hc
  unfold parse_unsigned from_chars_unsigned IsDecimal
  rw [← digitsValue_eq_ofDigits]
  by_cases he : val.takeWhile Char.isDigit = []
  · simp [he]
  · by_cases hv : digitsValue (val.takeWhile Char.isDigit) < 2 ^ bits
    · simp only [List.isEmpty_eq_true, he, if_false, hv, if_true, Option.some.injEq,
        ne_eq, not_false_eq_true, true_and]
      constructor
      · intro h; subst h; exact ⟨⟨hall, rfl⟩, hv⟩
      · intro h; exact h.1.2
    · simp only [List.isEmpty_eq_true, he, if_false, hv, ne_eq, not_false_eq_true, true_and]
      constructor
      · intro h; simp at h
      · intro h; exact absurd (h.1.2 ▸ h.2) hv

theorem store_key_numeric (k : Key) (rest : List Str) (d : InfoData) (hk : k.numeric = true) :
    field k (store_key k rest d) = parse_unsigned k.bits (at_index rest 0) := by
  cases k <;> simp [Key.numeric] at hk <;> rfl

/-- C16 as stated fails. In `info depth 12abc` the value token is not a decimal
integer in its entirety, yet the depth is present: `std::from_chars` reads the
digits `12` and reports no error for what follows them. -/
theorem numeric_field_counterexample :
    parse_line (fun _ => none) "info depth 12abc".toList =
      Outcome.returned (some
        { depth := some 12
          raw_string := "info depth 12abc".toList }) := by
  decide

/-- C16, amended. For every line handed to the field parser in which a numeric key
stands in key position, is followed by a value token and does not occur again
after it, the field is present with the value `n` if and only if the digits at
the start of the value token are a decimal numeral (one or more digits) of value
`n` and `n` is within the range of the field; what follows the digits is not
looked at. So a value token that does not begin with a digit, or whose leading
digits exceed the maximum of the field, leaves the field absent. -/
theorem numeric_field_reads_leading_digits (read_eval : Str → Option Int) (line : Str)
    (i : Nat) (k : Key) (hk : k.numeric = true)
    (hpos : line_key_position line i = true)
    (hkey : at_index (split line ' ') i = k.text)
    (hval : i + 1 < (split line ' ').length)
    (hlater : k.text ∉ (split line ' ').drop (i + 2)) :
    ∃ d, parse_line read_eval line = Outcome.returned (some d) ∧
      field k d = parse_unsigned k.bits (at_index (split line ' ') (i + 1)) ∧
      ∀ n, field k d = some n ↔
        (IsDecimal ((at_index (split line ' ') (i + 1)).takeWhile Char.isDigit) n ∧
          n < 2 ^ k.bits) := by
  have hpv : k ≠ Key.pv := by intro hc; subst hc; simp [Key.numeric] at hk
  have har : k.arity = 1 := by cases k <;> simp [Key.numeric] at hk <;> rfl
  obtain ⟨hp, _⟩ := parse_line_at_key read_eval line i k hpos hkey hpv (by omega)
  have hf : ∀ d0 : InfoData, field k (scan_all ((split line ' ').drop (i + 1 + k.arity))
      (store_key k ((split line ' ').drop (i + 1)) d0)) =
      parse_unsigned k.bits (at_index (split line ' ') (i + 1)) := by
    intro d0
    rw [har, scan_all_field k _ _ hlater, store_key_numeric k _ _ hk, at_index_drop]
  refine ⟨_, hp, hf _, fun n => ?_⟩
  rw [hf, parse_unsigned_iff]

/-- C16, amended, on the line `info depth 70000 nodes 12abc`: the depth is absent,
70000 being above the maximum 65535 of the field. -/
theorem numeric_field_reads_leading_digits_witness :
    ∃ d, parse_line (fun _ => none) "info depth 70000 nodes 12abc".toList =
        Outcome.returned (some d) ∧
      field Key.depth d = none :=
  have h := numeric_field_reads_leading_digits (fun _ => none)
    "info depth 70000 nodes 12abc".toList 1 Key.depth (by decide) (by decide) (by decide)
    (by decide) (by decide)
  h.elim fun d hd => ⟨d, hd.1, hd.2.1.trans (by decide)⟩

end vgce.uci

namespace vgce

/-! ## The queue of lines -/

theorem push_all_content {α : Type} (items : List α) (q : ConcurrentQueue α) :
    (q.push_all items).m_queue = q.m_queue ++ items := by
  induction items generalizing q with
  | nil => simp [ConcurrentQueue.push_all]
  | cons x xs ih =>
    have h := ih (q.push x)
    simp only [ConcurrentQueue.push_all, List.foldl_cons] at h ⊢
    rw [h]
    simp [ConcurrentQueue.push]

theorem pop_n_content {α : Type} (items rest : List α) :
    ConcurrentQueue.pop_n items.length { m_queue := items ++ rest } =
      (items.map some, { m_queue := rest }) := by
  induction items with
  | nil => rfl
  | cons x xs ih =>
    simp only [List.length_cons, ConcurrentQueue.pop_n, ConcurrentQueue.pop, List.cons_append,
      ih, List.map_cons]

/-! ## C21 -/

/-- C21. With the content of the queue as a list, front first: `push` puts the
item at the back and always returns; `pop` on a queue with front item `y` returns
`y` and leaves the other items; `pop` on an empty queue returns nothing and
leaves the queue as it is. Hence for every list of items, pushing them onto an
empty queue and then calling `pop` as many times returns exactly these items in
the order in which they were pushed and leaves an empty queue of size 0. -/
theorem queue_is_fifo {α : Type} (q : ConcurrentQueue α) (x y : α) (ys items : List α) :
    (q.push x).m_queue = q.m_queue ++ [x] ∧
    ConcurrentQueue.pop { m_queue := y :: ys } = (some y, { m_queue := ys }) ∧
    ConcurrentQueue.pop (ConcurrentQueue.new : ConcurrentQueue α) =
      (none, ConcurrentQueue.new) ∧
    ConcurrentQueue.pop_n items.length (ConcurrentQueue.new.push_all items) =
      (items.map some, ConcurrentQueue.new) ∧
    (ConcurrentQueue.pop_n items.length (ConcurrentQueue.new.push_all items)).2.size = 0 ∧
    (ConcurrentQueue.pop_n items.length (ConcurrentQueue.new.push_all items)).2.empty = true := by
  have h : ConcurrentQueue.pop_n items.length (ConcurrentQueue.new.push_all items) =
      (items.map some, ConcurrentQueue.new) := by
    have e : (ConcurrentQueue.new : ConcurrentQueue α).push_all items =
        { m_queue := items ++ [] } := by
      have := push_all_content items (ConcurrentQueue.new : ConcurrentQueue α)
      cases hq : (ConcurrentQueue.new : ConcurrentQueue α).push_all items with
      | mk c =>
        rw [hq] at this
        simp only [ConcurrentQueue.new, List.nil_append] at this
        simp [this]
    rw [e, pop_n_content]
    rfl
  refine ⟨rfl, rfl, rfl, h, ?_, ?_⟩
  · rw [h]; rfl
  · rw [h]; rfl

end vgce

namespace vgce.core

open vgce.uci vgce.model vgce.process

/-! ## The stream step -/

theorem store_stats_eq (info : InfoData) (stats : GlobalStats) :
    store_stats info stats =
      { nodes := info.nodes.getD stats.nodes
        nps := info.nps.getD stats.nps
        hashfull := info.hashfull.getD stats.hashfull
        tbhits := info.tbhits.getD stats.tbhits
        time_ms := info.time.getD stats.time_ms
        static_eval := info.static_eval.or stats.static_eval
        wdl_stats := info.wdl.or stats.wdl_stats
        engine_name := stats.engine_name
        current_multipv := info.multipv.getD stats.current_multipv
        current_move := if info.currmove = [] then stats.current_move else info.currmove
        current_move_number := info.currmovenumber.getD stats.current_move_number } := by
  have e1 : ∀ (o : Option Nat) (s : GlobalStats),
      (match o with
        | some v => { s with nodes := v }
        | none => s) = { s with nodes := o.getD s.nodes } := by
    intro o s; cases o <;> rfl
  have e2 : ∀ (o : Option Nat) (s : GlobalStats),
      (match o with
        | some v => { s with nps := v }
        | none => s) = { s with nps := o.getD s.nps } := by
    intro o s; cases o <;> rfl
  have e3 : ∀ (o : Option Nat) (s : GlobalStats),
      (match o with
        | some v => { s with hashfull := v }
        | none => s) = { s with hashfull := o.getD s.hashfull } := by
    intro o s; cases o <;> rfl
  have e4 : ∀ (o : Option Nat) (s : GlobalStats),
      (match o with
        | some v => { s with tbhits := v }
        | none => s) = { s with tbhits := o.getD s.tbhits } := by
    intro o s; cases o <;> rfl
  have e5 : ∀ (o : Option Nat) (s : GlobalStats),
      (match o with
        | some v => { s with time_ms := v }
        | none => s) = { s with time_ms := o.getD s.time_ms } := by
    intro o s; cases o <;> rfl
  have e6 : ∀ (o : Option WDL) (s : GlobalStats),
      (match o with
        | some v => { s with wdl_stats := some v }
        | none => s) = { s with wdl_stats := o.or s.wdl_stats } := by
    intro o s; cases o <;> rfl
  have e7 : ∀ (o : Option Score) (s : GlobalStats),
      (match o with
        | some v => { s with static_eval := some v }
        | none => s) = { s with static_eval := o.or s.static_eval } := by
    intro o s; cases o <;> rfl
  have e8 : ∀ (o : Option Nat) (s : GlobalStats),
      (match o with
        | some v => { s with current_multipv := v }
        | none => s) = { s with current_multipv := o.getD s.current_multipv } := by
    intro o s; cases o <;> rfl
  have e9 : ∀ (m : Str) (s : GlobalStats),
      (if (!m.isEmpty) = true then { s with current_move := m } else s) =
        { s with current_move := if m = [] then s.current_move else m } := by
    intro m s; cases m <;> rfl
  have e10 : ∀ (o : Option Nat) (s : GlobalStats),
      (match o with
        | some v => { s with current_move_number := v }
        | none => s) = { s with current_move_number := o.getD s.current_move_number } := by
    intro o s; cases o <;> rfl
  unfold store_stats
  simp -zeta only [e1, e2, e3, e4, e5, e6, e7, e8, e9, e10]

theorem process_line_none (read_eval : Str → Option Int) (line : Str) (app : Application)
    (hp : parse_line read_eval line = Outcome.returned none) :
    ∃ app2, app.process_line read_eval line = Outcome.returned app2 ∧
      app2.m_global_stats = app.m_global_stats ∧ app2.m_search_tree = app.m_search_tree ∧
      app2.m_uci_client = app.m_uci_client := by
  simp only [Application.process_line, hp]
  refine ⟨_, rfl, ?_⟩
  cases app.m_log_file <;> exact ⟨rfl, rfl, rfl⟩

theorem process_line_some (read_eval : Str → Option Int) (line : Str) (app : Application)
    (info : InfoData) (hp : parse_line read_eval line = Outcome.returned (some info)) :
    ∃ app2, app.process_line read_eval line = Outcome.returned app2 ∧
      app2.m_global_stats = store_stats info app.m_global_stats ∧
      app2.m_search_tree =
        (if info.pv = [] then app.m_search_tree else app.m_search_tree.update info) ∧
      app2.m_uci_client = app.m_uci_client := by
  simp only [Application.process_line, hp]
  refine ⟨_, rfl, ?_⟩
  cases app.m_log_file <;> cases hpv : info.pv <;>
    simp [hpv]

/-! ## C22 -/

/-- C22. One pass of the streaming loop that pops the line `line` from the queue,
where `parse_line` returns `r` for that line. The pass returns, and:
if `r` is a snapshot, each of the fields nodes, nps, hashfull, tbhits, time, wdl,
static eval, current multipv, current move text and current move number of
`GlobalStats` holds the value of the snapshot when the snapshot carries one (for
the move text: a non-empty text) and its prior value otherwise, the engine name
is as before, and the tree is the prior tree updated with the snapshot when the
pv of the snapshot is non-empty and the prior tree itself otherwise;
if `r` is no snapshot, `GlobalStats` and the tree are as before. -/
theorem stream_step_stores_present_fields (read_eval : Str → Option Int) (app : Application)
    (line : Str) (rest : List Str) (r : Option InfoData)
    (hq : app.m_uci_client.m_output_queue.m_queue = line :: rest)
    (hp : parse_line read_eval line = Outcome.returned r) :
    ∃ app2, app.uci_processing_step read_eval = Outcome.returned app2 ∧
      app2.m_uci_client.m_output_queue.m_queue = rest ∧
      match r with
      | none =>
        app2.m_global_stats = app.m_global_stats ∧ app2.m_search_tree = app.m_search_tree
      | some info =>
        app2.m_global_stats.nodes = info.nodes.getD app.m_global_stats.nodes ∧
        app2.m_global_stats.nps = info.nps.getD app.m_global_stats.nps ∧
        app2.m_global_stats.hashfull = info.hashfull.getD app.m_global_stats.hashfull ∧
        app2.m_global_stats.tbhits = info.tbhits.getD app.m_global_stats.tbhits ∧
        app2.m_global_stats.time_ms = info.time.getD app.m_global_stats.time_ms ∧
        app2.m_global_stats.wdl_stats = info.wdl.or app.m_global_stats.wdl_stats ∧
        app2.m_global_stats.static_eval =
          info.static_eval.or app.m_global_stats.static_eval ∧
        app2.m_global_stats.current_multipv =
          info.multipv.getD app.m_global_stats.current_multipv ∧
        app2.m_global_stats.current_move =
          (if info.currmove = [] then app.m_global_stats.current_move else info.currmove) ∧
        app2.m_global_stats.current_move_number =
          info.currmovenumber.getD app.m_global_stats.current_move_number ∧
        app2.m_global_stats.engine_name = app.m_global_stats.engine_name ∧
        app2.m_search_tree =
          (if info.pv = [] then app.m_search_tree else app.m_search_tree.update info) := by
  have hstep : app.uci_processing_step read_eval =
      Application.process_line read_eval line
        { app with
          m_uci_client := { app.m_uci_client with m_output_queue := { m_queue := rest } } } := by
    simp only [Application.uci_processing_step, UciClient.get_output_queue,
      ConcurrentQueue.pop, hq]
  rw [hstep]
  cases r with
  | none =>
    obtain ⟨app2, h1, h2, h3, h4⟩ := process_line_none read_eval line
      { app with
        m_uci_client := { app.m_uci_client with m_output_queue := { m_queue := rest } } } hp
    exact ⟨app2, h1, by rw [h4], h2, h3⟩
  | some info =>
    obtain ⟨app2, h1, h2, h3, h4⟩ := process_line_some read_eval line
      { app with
        m_uci_client := { app.m_uci_client with m_output_queue := { m_queue := rest } } }
      info hp
    refine ⟨app2, h1, by rw [h4], ?_⟩
    rw [h2, h3, store_stats_eq]
    exact ⟨rfl, rfl, rfl, rfl, rfl, rfl, rfl, rfl, rfl, rfl, rfl, rfl⟩

/-- C22 on the line `info depth 5 nodes 100 nps 7 currmove e2e4 pv e2e4 e7e5`
streamed into the application as it starts: nodes, nps and the move text are
stored, the other fields keep their initial values, and the tree is updated. -/
theorem stream_step_stores_present_fields_witness :
    ∃ app2,
      (Application.streaming {}
        ["info depth 5 nodes 100 nps 7 currmove e2e4 pv e2e4 e7e5".toList]).uci_processing_step
        (fun _ => none) = Outcome.returned app2 ∧
      app2.m_uci_client.m_output_queue.m_queue = [] ∧
      app2.m_global_stats.nodes = 100 ∧
      app2.m_global_stats.nps = 7 ∧
      app2.m_global_stats.hashfull = 0 ∧
      app2.m_global_stats.tbhits = 0 ∧
      app2.m_global_stats.time_ms = 0 ∧
      app2.m_global_stats.wdl_stats = none ∧
      app2.m_global_stats.static_eval = none ∧
      app2.m_global_stats.current_multipv = 1 ∧
      app2.m_global_stats.current_move = "e2e4".toList ∧
      app2.m_global_stats.current_move_number = 0 ∧
      app2.m_global_stats.engine_name = [] ∧
      app2.m_search_tree =
        SearchTree.new.update
          { depth := some 5
            nodes := some 100
            nps := some 7
            currmove := "e2e4".toList
            pv := ["e2e4".toList, "e7e5".toList]
            raw_string := "info depth 5 nodes 100 nps 7 currmove e2e4 pv e2e4 e7e5".toList } :=
  stream_step_stores_present_fields (fun _ => none)
    (Application.streaming {}
      ["info depth 5 nodes 100 nps 7 currmove e2e4 pv e2e4 e7e5".toList])
    "info depth 5 nodes 100 nps 7 currmove e2e4 pv e2e4 e7e5".toList []
    (some
      { depth := some 5
        nodes := some 100
        nps := some 7
        currmove := "e2e4".toList
        pv := ["e2e4".toList, "e7e5".toList]
        raw_string := "info depth 5 nodes 100 nps 7 currmove e2e4 pv e2e4 e7e5".toList })
    rfl (by decide)

end vgce.core

namespace vgce.core

open vgce.uci vgce.model vgce.process

/-! ## Commands to the engine -/

theorem send_command_eq (sys_write : Process → Str → Int) (c : UciClient) (command : Str) :
    c.send_command sys_write command =
      { c with m_process :=
          { m_engine_stdin := c.m_process.m_engine_stdin ++ [command ++ "\n".toList] } } :=
  rfl

/-! ## C25 -/

/-- C25. From the state that is not paused, `toggle_pause` called twice hands to
the engine exactly two lines, whatever the writes return: first `stop`, then one
start command, which is `go depth n` with the decimal digits of the configured
maximum depth `n` when `n > 0` and `go infinite` otherwise. After the first call
the application is paused and only `stop` has been sent; after the second it is
not paused again. The tree, `GlobalStats` and the configuration are the same
after as before. -/
theorem pause_then_resume (sys_write : Process → Str → Int) (now1 now2 : Nat)
    (app : Application) (h : app.m_is_paused = false) :
    (app.toggle_pause sys_write now1).m_is_paused = true ∧
    (app.toggle_pause sys_write now1).m_uci_client.m_process.m_engine_stdin =
      app.m_uci_client.m_process.m_engine_stdin ++ ["stop\n".toList] ∧
    ((app.toggle_pause sys_write now1).toggle_pause sys_write now2).m_is_paused = false ∧
    ((app.toggle_pause sys_write now1).toggle_pause
        sys_write now2).m_uci_client.m_process.m_engine_stdin =
      app.m_uci_client.m_process.m_engine_stdin ++
        ["stop\n".toList,
          if app.m_config.max_depth > 0 then
            "go depth ".toList ++ to_string app.m_config.max_depth ++ "\n".toList
          else "go infinite\n".toList] ∧
    ((app.toggle_pause sys_write now1).toggle_pause sys_write now2).m_search_tree =
      app.m_search_tree ∧
    ((app.toggle_pause sys_write now1).toggle_pause sys_write now2).m_global_stats =
      app.m_global_stats ∧
    ((app.toggle_pause sys_write now1).toggle_pause sys_write now2).m_config =
      app.m_config := by
  have e1 : app.toggle_pause sys_write now1 =
      { app with
        m_is_paused := true
        m_uci_client := app.m_uci_client.send_command sys_write "stop".toList
        m_screen := app.m_screen + 1 } := by
    simp only [Application.toggle_pause, Application.stop_search, h]
    rfl
  rw [e1]
  refine ⟨rfl, rfl, rfl, ?_, rfl, rfl, rfl⟩
  simp only [Application.toggle_pause, Application.start_search, if_true, send_command_eq]
  by_cases hd : app.m_config.max_depth > 0
  · simp [hd]
  · simp [hd]

/-- C25 for an application with maximum depth 12 that streams and is not paused:
the engine is handed `stop` and then `go depth 12`. -/
theorem pause_then_resume_witness :
    ((Application.streaming { max_depth := 12 } []).toggle_pause
        (fun _ buf => buf.length) 5).m_is_paused = true ∧
    ((Application.streaming { max_depth := 12 } []).toggle_pause
        (fun _ buf => buf.length) 5).m_uci_client.m_process.m_engine_stdin =
      [] ++ ["stop\n".toList] ∧
    (((Application.streaming { max_depth := 12 } []).toggle_pause
        (fun _ buf => buf.length) 5).toggle_pause
        (fun _ buf => buf.length) 9).m_is_paused = false ∧
    (((Application.streaming { max_depth := 12 } []).toggle_pause
        (fun _ buf => buf.length) 5).toggle_pause
        (fun _ buf => buf.length) 9).m_uci_client.m_process.m_engine_stdin =
      [] ++ ["stop\n".toList, "go depth 12\n".toList] ∧
    (((Application.streaming { max_depth := 12 } []).toggle_pause
        (fun _ buf => buf.length) 5).toggle_pause
        (fun _ buf => buf.length) 9).m_search_tree = SearchTree.new ∧
    (((Application.streaming { max_depth := 12 } []).toggle_pause
        (fun _ buf => buf.length) 5).toggle_pause
        (fun _ buf => buf.length) 9).m_global_stats = {} ∧
    (((Application.streaming { max_depth := 12 } []).toggle_pause
        (fun _ buf => buf.length) 5).toggle_pause
        (fun _ buf => buf.length) 9).m_config = { max_depth := 12 } :=
  pause_then_resume (fun _ buf => buf.length) 5 9
    (Application.streaming { max_depth := 12 } []) rfl

/-! ## C26 -/

/-- C26 fails. For the command `stop` and a client that has written nothing yet:
when the system call writes the whole line `write_line` returns true, when the
system call fails `write_line` returns false, and `send_command` gives its caller
the same in both cases. -/
theorem send_command_counterexample :
    ((Application.streaming {} []).m_uci_client.m_process.write_line
        (fun _ buf => buf.length) "stop".toList).1 = true ∧
    ((Application.streaming {} []).m_uci_client.m_process.write_line
        (fun _ _ => -1) "stop".toList).1 = false ∧
    (Application.streaming {} []).m_uci_client.send_command (fun _ buf => buf.length)
        "stop".toList =
      (Application.streaming {} []).m_uci_client.send_command (fun _ _ => -1) "stop".toList := by
  decide

/-- C26 as the code has it. `send_command` hands the command with a newline after
it to one call of `write_line` and leaves the rest of the client as it is; what
`write_line` returns does not reach the caller: whatever the system call returns,
bytes written or failure, the caller has the same of the call. -/
theorem send_command_drops_write_result (sys_write1 sys_write2 : Process → Str → Int)
    (c : UciClient) (command : Str) :
    c.send_command sys_write1 command = c.send_command sys_write2 command ∧
    (c.send_command sys_write1 command).m_process =
      (c.m_process.write_line sys_write1 command).2 ∧
    (c.send_command sys_write1 command).m_process.m_engine_stdin =
      c.m_process.m_engine_stdin ++ [command ++ "\n".toList] ∧
    (c.send_command sys_write1 command).m_output_queue = c.m_output_queue ∧
    (c.send_command sys_write1 command).m_is_running = c.m_is_running :=
  ⟨rfl, rfl, rfl, rfl, rfl⟩

end vgce.core

namespace vgce.tui

open vgce.uci vgce.model

/-! ## C27 -/

/-- C27 fails at two thresholds. A node with score 150 centipawns under a parent
with score 0 has improvement exactly 150, not more, and is annotated `!!`; a node
with score 0 under a parent with score 200 has loss exactly 200, not more, and is
annotated `??`. -/
theorem move_annotation_counterexample :
    get_move_annotation
        (some { Node.make with
          data := { score := some { type := ScoreType.Centipawns, value := 150 } } })
        (some { Node.make with
          data := { score := some { type := ScoreType.Centipawns, value := 0 } } }) =
      some "!!".toList ∧
    get_move_annotation
        (some { Node.make with
          data := { score := some { type := ScoreType.Centipawns, value := 0 } } })
        (some { Node.make with
          data := { score := some { type := ScoreType.Centipawns, value := 200 } } }) =
      some "??".toList := by
  decide

/-- The comparisons of `get_move_annotation` read off as a table. For a node and
its parent that both carry a score, with a difference that an `i32` holds: the
annotation is `!!` exactly when the score of the node is at least 150 above that
of the parent, `!` exactly when it is more than 30 and less than 150 above, `?!`
exactly when it is at least 50 and less than 100 below, `?` exactly when it is at
least 100 and less than 200 below, `??` exactly when it is at least 200 below,
and empty in the other cases. -/
theorem annotation_table (node parent : Node) :
    (∀ v, node.data.score = some { type := ScoreType.Mate, value := v } →
      node.get_score_cp = if v > 0 then 10000 else -10000) ∧
    (∀ v, node.data.score = some { type := ScoreType.Centipawns, value := v } →
      node.get_score_cp = v) ∧
    (node.data.score = none ∨ parent.data.score = none →
      get_move_annotation (some node) (some parent) = some []) ∧
    get_move_annotation none (some parent) = some [] ∧
    get_move_annotation (some node) none = some [] ∧
    (node.data.score ≠ none → parent.data.score ≠ none →
      -(2 : Int) ^ 31 < parent.get_score_cp - node.get_score_cp →
      parent.get_score_cp - node.get_score_cp < (2 : Int) ^ 31 →
      ∃ a, get_move_annotation (some node) (some parent) = some a ∧
        (a = "!!".toList ↔ 150 ≤ node.get_score_cp - parent.get_score_cp) ∧
        (a = "!".toList ↔ 30 < node.get_score_cp - parent.get_score_cp ∧
          node.get_score_cp - parent.get_score_cp < 150) ∧
        (a = "?!".toList ↔ 50 ≤ parent.get_score_cp - node.get_score_cp ∧
          parent.get_score_cp - node.get_score_cp < 100) ∧
        (a = "?".toList ↔ 100 ≤ parent.get_score_cp - node.get_score_cp ∧
          parent.get_score_cp - node.get_score_cp < 200) ∧
        (a = "??".toList ↔ 200 ≤ parent.get_score_cp - node.get_score_cp) ∧
        (a = [] ↔ node.get_score_cp - parent.get_score_cp ≤ 30 ∧
          parent.get_score_cp - node.get_score_cp < 50)) := by
  refine ⟨?_, ?_, ?_, rfl, rfl, ?_⟩
  · intro v h
    simp [Node.get_score_cp, h]
  · intro v h
    simp [Node.get_score_cp, h]
  · intro h
    rcases h with h | h
    · simp [Node.has_score, h, get_move_annotation]
    · simp [Node.has_score, h, get_move_annotation]
  · intro hn hp hlo hhi
    have hn2 : node.has_score = true := by
      simp only [Node.has_score]; cases hs : node.data.score with
      | none => exact absurd hs hn
      | some s => rfl
    have hp2 : parent.has_score = true := by
      simp only [Node.has_score]; cases hs : parent.data.score with
      | none => exact absurd hs hp
      | some s => rfl
    generalize hx : node.get_score_cp = x at hlo hhi ⊢
    generalize hy : parent.get_score_cp = y at hlo hhi ⊢
    have hrange : ¬ (y - x ≤ -(2 : Int) ^ (i32 - 1) ∨ (2 : Int) ^ (i32 - 1) ≤ y - x) := by
      simp only [i32]; norm_num; constructor <;> omega
    simp only [hn2, hp2, hx, hy, get_move_annotation, Bool.not_true, Bool.or_self,
      Bool.false_eq_true, if_false, hrange, BLUNDER_THRESHOLD_CP, MISTAKE_THRESHOLD_CP,
      INACCURACY_THRESHOLD_CP, GOOD_THRESHOLD_CP, BRILLIANT_THRESHOLD_CP]
    have d1 : "!!".toList ≠ "!".toList := by decide
    have d2 : "!!".toList ≠ "?!".toList := by decide
    have d3 : "!!".toList ≠ "?".toList := by decide
    have d4 : "!!".toList ≠ "??".toList := by decide
    have d5 : "!!".toList ≠ ([] : Str) := by decide
    have d6 : "!".toList ≠ "?!".toList := by decide
    have d7 : "!".toList ≠ "?".toList := by decide
    have d8 : "!".toList ≠ "??".toList := by decide
    have d9 : "!".toList ≠ ([] : Str) := by decide
    have d10 : "?!".toList ≠ "?".toList := by decide
    have d11 : "?!".toList ≠ "??".toList := by decide
    have d12 : "?!".toList ≠ ([] : Str) := by decide
    have d13 : "?".toList ≠ "??".toList := by decide
    have d14 : "?".toList ≠ ([] : Str) := by decide
    have d15 : "??".toList ≠ ([] : Str) := by decide
    split_ifs <;>
      refine ⟨_, rfl, ?_⟩ <;>
      simp only [d1, d2, d3, d4, d5, d6, d7, d8, d9, d10, d11, d12, d13, d14, d15,
        d1.symm, d2.symm, d3.symm, d4.symm, d5.symm, d6.symm, d7.symm, d8.symm, d9.symm,
        d10.symm, d11.symm, d12.symm, d13.symm, d14.symm, d15.symm, true_iff, false_iff,
        not_and, not_le, not_lt] <;>
      omega

/-- C27. A mate score counts as 10000 centipawns when its value is positive and
as -10000 otherwise, a centipawn score as its value, and the annotation is empty
whenever the node or the parent is missing or carries no score. For a node and
its parent that both carry a score, with a difference that an `i32` holds, let
improvement be the score of the node minus that of the parent and loss the score
of the parent minus that of the node. Away from the two values improvement 150
and loss 200 the annotation is as claimed: `!!` exactly when improvement is more
than 150, `!` exactly when it is more than 30 and not more than 150, `?!`
exactly for a loss from 50 to below 100, `?` exactly for a loss from 100 to 200,
`??` exactly when loss is more than 200, and empty otherwise. At the two values
the code differs from the claim: an improvement of exactly 150 is annotated `!!`
and a loss of exactly 200 is annotated `??`. -/
theorem move_annotation_thresholds (node parent : Node) :
    (∀ v, node.data.score = some { type := ScoreType.Mate, value := v } →
      node.get_score_cp = if v > 0 then 10000 else -10000) ∧
    (∀ v, node.data.score = some { type := ScoreType.Centipawns, value := v } →
      node.get_score_cp = v) ∧
    (node.data.score = none ∨ parent.data.score = none →
      get_move_annotation (some node) (some parent) = some []) ∧
    get_move_annotation none (some parent) = some [] ∧
    get_move_annotation (some node) none = some [] ∧
    (node.data.score ≠ none → parent.data.score ≠ none →
      -(2 : Int) ^ 31 < parent.get_score_cp - node.get_score_cp →
      parent.get_score_cp - node.get_score_cp < (2 : Int) ^ 31 →
      ∃ a, get_move_annotation (some node) (some parent) = some a ∧
        (node.get_score_cp - parent.get_score_cp = 150 → a = "!!".toList) ∧
        (parent.get_score_cp - node.get_score_cp = 200 → a = "??".toList) ∧
        (node.get_score_cp - parent.get_score_cp ≠ 150 →
          parent.get_score_cp - node.get_score_cp ≠ 200 →
          (a = "!!".toList ↔ 150 < node.get_score_cp - parent.get_score_cp) ∧
          (a = "!".toList ↔ 30 < node.get_score_cp - parent.get_score_cp ∧
            node.get_score_cp - parent.get_score_cp ≤ 150) ∧
          (a = "?!".toList ↔ 50 ≤ parent.get_score_cp - node.get_score_cp ∧
            parent.get_score_cp - node.get_score_cp < 100) ∧
          (a = "?".toList ↔ 100 ≤ parent.get_score_cp - node.get_score_cp ∧
            parent.get_score_cp - node.get_score_cp ≤ 200) ∧
          (a = "??".toList ↔ 200 < parent.get_score_cp - node.get_score_cp) ∧
          (a = [] ↔ node.get_score_cp - parent.get_score_cp ≤ 30 ∧
            parent.get_score_cp - node.get_score_cp < 50))) := by
  obtain ⟨t1, t2, t3, t4, t5, t6⟩ := annotation_table node parent
  refine ⟨t1, t2, t3, t4, t5, ?_⟩
  intro hn hp hlo hhi
  obtain ⟨a, ha, h1, h2, h3, h4, h5, h6⟩ := t6 hn hp hlo hhi
  refine ⟨a, ha, fun h => h1.2 (by omega), fun h => h5.2 (by omega), fun hi hl => ?_⟩
  refine ⟨?_, ?_, h3, ?_, ?_, h6⟩
  · rw [h1]; omega
  · rw [h2]; omega
  · rw [h4]; omega
  · rw [h5]; omega

/-- C27 on a node with the score mate in 3 under a parent with the score 9900
centipawns: the improvement is 100 and the annotation is `!`. -/
theorem move_annotation_thresholds_witness :
    get_move_annotation
        (some { Node.make with
          data := { score := some { type := ScoreType.Mate, value := 3 } } })
        (some { Node.make with
          data := { score := some { type := ScoreType.Centipawns, value := 9900 } } }) =
      some "!".toList := by
  obtain ⟨a, ha, _, _, h⟩ :=
    (move_annotation_thresholds
      { Node.make with data := { score := some { type := ScoreType.Mate, value := 3 } } }
      { Node.make with
        data := { score := some { type := ScoreType.Centipawns, value := 9900 } } }).2.2.2.2.2
      (by decide) (by decide) (by decide) (by decide)
  rw [ha, (h (by decide) (by decide)).2.1.2 ⟨by decide, by decide⟩]

end vgce.tui

namespace vgce.model

open vgce.uci

/-! ## The outline -/

mutual
theorem export_node_rows (print_pawns : Int → Str) :
    ∀ (n : Node) (path : List Str) (indent : Str) (is_last : Bool) (levels : Nat),
      levels ≤ 101 →
      export_node print_pawns n indent is_last (101 - levels) =
        ((rows_node n path indent is_last levels).map (Row.text print_pawns)).flatten
  | ⟨move, data, visit_count, multipv_index, is_pv_node, children⟩, path, indent, is_last,
      levels, h => by
    cases levels with
    | zero => simp [export_node, rows_node]
    | succ l =>
      have ih := export_children_rows print_pawns children path
        (indent ++ (if is_last then "    ".toList else "│   ".toList)) l (by omega)
      have e1 : ¬ 101 - (l + 1) > 100 := by omega
      have e2 : (101 - (l + 1) + 1) % 2 ^ u16 = 101 - l := by
        simp only [u16]; omega
      simp only [export_node, rows_node, e1, if_false, e2, ih, List.map_cons, List.flatten_cons,
        Row.text]
theorem export_children_rows (print_pawns : Int → Str) :
    ∀ (cs : List (Str × Node)) (path : List Str) (indent : Str) (levels : Nat),
      levels ≤ 101 →
      export_children print_pawns cs indent (101 - levels) =
        ((rows_children cs path indent levels).map (Row.text print_pawns)).flatten
  | [], _, _, _, _ => by simp [export_children, rows_children]
  | (key, child) :: rest, path, indent, levels, h => by
    have ih1 := export_node_rows print_pawns child (path ++ [key]) indent rest.isEmpty levels h
    have ih2 := export_children_rows print_pawns rest path indent levels h
    simp only [export_children, rows_children, ih1, ih2, List.map_append, List.flatten_append]
end

mutual
theorem rows_node_path :
    ∀ (n : Node) (path : List Str) (indent : Str) (is_last : Bool) (levels : Nat) (r : Row),
      r ∈ rows_node n path indent is_last levels →
      r.path = path ∨ ∃ k q, r.path = path ++ k :: q
  | ⟨move, data, visit_count, multipv_index, is_pv_node, children⟩, path, indent, is_last,
      levels, r, h => by
    cases levels with
    | zero => simp [rows_node] at h
    | succ l =>
      simp only [rows_node, List.mem_cons] at h
      rcases h with h | h
      · left; rw [h]
      · right
        obtain ⟨k, q, _, e⟩ := rows_children_path children path _ l r h
        exact ⟨k, q, e⟩
theorem rows_children_path :
    ∀ (cs : List (Str × Node)) (path : List Str) (indent : Str) (levels : Nat) (r : Row),
      r ∈ rows_children cs path indent levels →
      ∃ k q, k ∈ cs.map Prod.fst ∧ r.path = path ++ k :: q
  | [], _, _, _, _, h => by simp [rows_children] at h
  | (key, child) :: rest, path, indent, levels, r, h => by
    simp only [rows_children, List.mem_append] at h
    rcases h with h | h
    · rcases rows_node_path child (path ++ [key]) indent rest.isEmpty levels r h with e | ⟨k, q, e⟩
      · exact ⟨key, [], by simp, by rw [e]⟩
      · exact ⟨key, k :: q, by simp, by rw [e]; simp⟩
    · obtain ⟨k, q, hk, e⟩ := rows_children_path rest path indent levels r h
      exact ⟨k, q, by simp [hk], e⟩
end

theorem path_lt_extension (path : List Str) (k : Str) (q : List Str) : path < path ++ k :: q := by
  have h := List.Lex.append_left (· < ·) (List.Lex.nil : List.Lex (· < ·) [] (k :: q)) path
  rw [List.append_nil] at h
  exact h

theorem path_lt_sibling (path : List Str) (k1 k2 : Str) (q1 q2 : List Str) (h : k1 < k2) :
    path ++ k1 :: q1 < path ++ k2 :: q2 :=
  List.Lex.append_left (· < ·) (List.Lex.rel h) path

theorem sorted_child (cs : List (Str × Node)) (n : Node) (hs : Sorted n) (hc : n.children = cs)
    (e : Str × Node) (he : e ∈ cs) : Sorted e.2 := by
  have hk : (child_keys n).Pairwise (· < ·) := hs [] n rfl
  obtain ⟨k, c⟩ := e
  have hf : find n.children k = some c := by
    rw [hc]
    rw [child_keys, hc] at hk
    exact find_of_mem cs k c hk he
  exact sorted_of_find n k c hs hf

mutual
theorem rows_node_sorted :
    ∀ (n : Node) (path : List Str) (indent : Str) (is_last : Bool) (levels : Nat),
      Sorted n → ((rows_node n path indent is_last levels).map Row.path).Pairwise (· < ·)
  | ⟨move, data, visit_count, multipv_index, is_pv_node, children⟩, path, indent, is_last,
      levels, hs => by
    cases levels with
    | zero => simp [rows_node]
    | succ l =>
      simp only [rows_node, List.map_cons, List.pairwise_cons]
      constructor
      · intro p hp
        obtain ⟨r, hr, e⟩ := List.mem_map.1 hp
        obtain ⟨k, q, _, e2⟩ := rows_children_path children path _ l r hr
        rw [← e, e2]
        exact path_lt_extension path k q
      · exact rows_children_sorted children path _ l (hs [] _ rfl)
          (fun e he => sorted_child children _ hs rfl e he)
theorem rows_children_sorted :
    ∀ (cs : List (Str × Node)) (path : List Str) (indent : Str) (levels : Nat),
      (cs.map Prod.fst).Pairwise (· < ·) → (∀ e ∈ cs, Sorted e.2) →
      ((rows_children cs path indent levels).map Row.path).Pairwise (· < ·)
  | [], _, _, _, _, _ => by simp [rows_children]
  | (key, child) :: rest, path, indent, levels, hk, hs => by
    simp only [List.map_cons, List.pairwise_cons] at hk
    simp only [rows_children, List.map_append, List.pairwise_append]
    refine ⟨rows_node_sorted child (path ++ [key]) indent rest.isEmpty levels
        (hs (key, child) (List.mem_cons_self _ _)),
      rows_children_sorted rest path indent levels hk.2
        (fun e he => hs e (List.mem_cons_of_mem _ he)), ?_⟩
    intro p1 hp1 p2 hp2
    obtain ⟨r1, hr1, e1⟩ := List.mem_map.1 hp1
    obtain ⟨r2, hr2, e2⟩ := List.mem_map.1 hp2
    obtain ⟨k2, q2, hk2, e4⟩ := rows_children_path rest path indent levels r2 hr2
    have hlt : key < k2 := hk.1 k2 hk2
    rw [← e1, ← e2, e4]
    rcases rows_node_path child (path ++ [key]) indent rest.isEmpty levels r1 hr1 with
      e3 | ⟨k, q, e3⟩
    · rw [e3]
      exact path_lt_sibling path key k2 [] q2 hlt
    · rw [e3, List.append_assoc]
      exact path_lt_sibling path key k2 (k :: q) q2 hlt
end

theorem mem_keys_of_find (cs : List (Str × Node)) (k : Str) (c : Node)
    (h : find cs k = some c) : k ∈ cs.map Prod.fst := by
  by_contra hn
  rw [(find_eq_none_iff cs k).2 hn] at h
  cases h

mutual
theorem mem_rows_node :
    ∀ (n : Node) (path : List Str) (indent : Str) (is_last : Bool) (levels : Nat),
      Sorted n → ∀ (p : List Str) (m : Node),
      (∃ r ∈ rows_node n path indent is_last levels, r.path = p ∧ r.node = m) ↔
        ∃ q, p = path ++ q ∧ q.length < levels ∧ node_at n q = some m
  | ⟨move, data, visit_count, multipv_index, is_pv_node, children⟩, path, indent, is_last,
      levels, hs, p, m => by
    cases levels with
    | zero => simp [rows_node]
    | succ l =>
      have ih := mem_rows_children children path
        (indent ++ (if is_last then "    ".toList else "│   ".toList)) l (hs [] _ rfl)
        (fun e he => sorted_child children _ hs rfl e he) p m
      simp only [rows_node, List.mem_cons]
      constructor
      · rintro ⟨r, hr | hr, e1, e2⟩
        · subst hr
          exact ⟨[], by simp [← e1], by simp, by rw [← e2]; rfl⟩
        · obtain ⟨k, q, c, hf, hp, hq, hn⟩ := ih.1 ⟨r, hr, e1, e2⟩
          refine ⟨k :: q, hp, by simp only [List.length_cons]; omega, ?_⟩
          rw [node_at_cons, hf]
          exact hn
      · rintro ⟨q, hp, hq, hn⟩
        cases q with
        | nil =>
          refine ⟨_, Or.inl rfl, by simp [hp], ?_⟩
          rw [node_at_nil] at hn
          exact Option.some.inj hn
        | cons k q =>
          rw [node_at_cons] at hn
          cases hf : find children k with
          | none =>
            have hf2 : find (Node.mk move data visit_count multipv_index is_pv_node
                children).children k = none := hf
            rw [hf2] at hn; cases hn
          | some c =>
            have hf2 : find (Node.mk move data visit_count multipv_index is_pv_node
                children).children k = some c := hf
            rw [hf2] at hn
            obtain ⟨r, hr, e1, e2⟩ := ih.2 ⟨k, q, c, hf, hp,
              by simp only [List.length_cons] at hq; omega, hn⟩
            exact ⟨r, Or.inr hr, e1, e2⟩
theorem mem_rows_children :
    ∀ (cs : List (Str × Node)) (path : List Str) (indent : Str) (levels : Nat),
      (cs.map Prod.fst).Pairwise (· < ·) → (∀ e ∈ cs, Sorted e.2) →
      ∀ (p : List Str) (m : Node),
      (∃ r ∈ rows_children cs path indent levels, r.path = p ∧ r.node = m) ↔
        ∃ k q c, find cs k = some c ∧ p = path ++ k :: q ∧ q.length < levels ∧
          node_at c q = some m
  | [], _, _, _, _, _, _, _ => by simp [rows_children, find]
  | (key, child) :: rest, path, indent, levels, hk, hs, p, m => by
    simp only [List.map_cons, List.pairwise_cons] at hk
    have ih1 := mem_rows_node child (path ++ [key]) indent rest.isEmpty levels
      (hs (key, child) (List.mem_cons_self _ _)) p m
    have ih2 := mem_rows_children rest path indent levels hk.2
      (fun e he => hs e (List.mem_cons_of_mem _ he)) p m
    simp only [rows_children, List.mem_append]
    constructor
    · rintro ⟨r, hr | hr, e1, e2⟩
      · obtain ⟨q, hp, hq, hn⟩ := ih1.1 ⟨r, hr, e1, e2⟩
        exact ⟨key, q, child, by simp [find], by rw [hp]; simp, hq, hn⟩
      · obtain ⟨k, q, c, hf, hp, hq, hn⟩ := ih2.1 ⟨r, hr, e1, e2⟩
        have hne : key ≠ k := ne_of_lt (hk.1 k (mem_keys_of_find rest k c hf))
        exact ⟨k, q, c, by simp [find, hne, hf], hp, hq, hn⟩
    · rintro ⟨k, q, c, hf, hp, hq, hn⟩
      by_cases hkey : key = k
      · subst hkey
        simp only [find, if_true, Option.some.injEq] at hf
        subst hf
        obtain ⟨r, hr, e1, e2⟩ := ih1.2 ⟨q, by rw [hp]; simp, hq, hn⟩
        exact ⟨r, Or.inl hr, e1, e2⟩
      · simp only [find, hkey, if_false] at hf
        obtain ⟨r, hr, e1, e2⟩ := ih2.2 ⟨k, q, c, hf, hp, hq, hn⟩
        exact ⟨r, Or.inr hr, e1, e2⟩
end

mutual
theorem rows_node_length :
    ∀ (n : Node) (path : List Str) (indent : Str) (is_last : Bool) (levels : Nat),
      (rows_node n path indent is_last levels).length ≤ n.size ∧
      (n.height < levels → (rows_node n path indent is_last levels).length = n.size)
  | ⟨move, data, visit_count, multipv_index, is_pv_node, children⟩, path, indent, is_last,
      levels => by
    cases levels with
    | zero => simp [rows_node]
    | succ l =>
      have ih := rows_children_length children path
        (indent ++ (if is_last then "    ".toList else "│   ".toList)) l
      simp only [rows_node, List.length_cons, Node.size, Node.height]
      constructor
      · omega
      · intro h
        have := ih.2 (by omega)
        omega
theorem rows_children_length :
    ∀ (cs : List (Str × Node)) (path : List Str) (indent : Str) (levels : Nat),
      (rows_children cs path indent levels).length ≤ size_children cs ∧
      (height_children cs ≤ levels →
        (rows_children cs path indent levels).length = size_children cs)
  | [], _, _, _ => by simp [rows_children, size_children]
  | (key, child) :: rest, path, indent, levels => by
    have ih1 := rows_node_length child (path ++ [key]) indent rest.isEmpty levels
    have ih2 := rows_children_length rest path indent levels
    simp only [rows_children, List.length_append, size_children, height_children]
    constructor
    · omega
    · intro h
      have h1 := ih1.2 (by omega)
      have h2 := ih2.2 (by omega)
      omega
end

mutual
theorem count_nodes_eq :
    ∀ (n : Node) (count : Nat), count_nodes n count = (count + n.size) % 2 ^ u64
  | ⟨move, data, visit_count, multipv_index, is_pv_node, children⟩, count => by
    have ih := count_nodes_children_eq children ((count + 1) % 2 ^ u64)
      (Nat.mod_lt _ (by simp only [u64]; norm_num))
    simp only [count_nodes, Node.size, ih]
    simp only [u64]
    omega
theorem count_nodes_children_eq :
    ∀ (cs : List (Str × Node)) (count : Nat), count < 2 ^ u64 →
      count_nodes_children cs count = (count + size_children cs) % 2 ^ u64
  | [], count, h => by
    simp only [count_nodes_children, size_children, Nat.add_zero]
    exact (Nat.mod_eq_of_lt h).symm
  | (key, child) :: rest, count, h => by
    have ih1 := count_nodes_eq child count
    have ih2 := count_nodes_children_eq rest (count_nodes child count)
      (by rw [ih1]; exact Nat.mod_lt _ (by simp only [u64]; norm_num))
    rw [ih1] at ih2
    simp only [count_nodes_children, size_children, ih1, ih2]
    simp only [u64]
    omega
end

theorem size_pos (n : Node) : 1 ≤ n.size := by
  cases n; simp only [Node.size]; omega

theorem total_nodes_eq (t : SearchTree) (h : t.m_root.size < 2 ^ u64) :
    t.get_total_nodes = size_children t.m_root.children := by
  have h1 : count_nodes t.m_root 0 = t.m_root.size := by
    rw [count_nodes_eq, Nat.zero_add, Nat.mod_eq_of_lt h]
  have h2 : t.m_root.size = 1 + size_children t.m_root.children := by
    cases t.m_root; simp only [Node.size]
  simp only [SearchTree.get_total_nodes, h1]
  have := size_pos t.m_root
  rw [if_pos (by omega)]
  omega

theorem height_root (n : Node) : n.height = height_children n.children := by
  cases n; simp only [Node.height]

theorem export_label_newline (print_pawns : Int → Str) (move : Str) (data : InfoData)
    (visit_count : Nat) :
    ∃ body, export_label print_pawns move data visit_count = body ++ "\n".toList :=
  ⟨_, rfl⟩

/-! ## The height of a tree -/

mutual
theorem height_le_iff :
    ∀ (n : Node) (k : Nat), Sorted n →
      (n.height ≤ k ↔ ∀ p c, node_at n p = some c → p.length ≤ k)
  | ⟨move, data, visit_count, multipv_index, is_pv_node, children⟩, k, hs => by
    have ih := height_children_le_iff children k (hs [] _ rfl)
      (fun e he => sorted_child children _ hs rfl e he)
    simp only [Node.height]
    rw [ih]
    constructor
    · intro h p c hc
      cases p with
      | nil => simp
      | cons key q =>
        rw [node_at_cons] at hc
        cases hf : find children key with
        | none =>
          have hf2 : find (Node.mk move data visit_count multipv_index is_pv_node
              children).children key = none := hf
          rw [hf2] at hc; cases hc
        | some child =>
          have hf2 : find (Node.mk move data visit_count multipv_index is_pv_node
              children).children key = some child := hf
          rw [hf2] at hc
          simpa using h key child q c hf hc
    · intro h key child q c hf hc
      have := h (key :: q) c (by
        rw [node_at_cons]
        have hf2 : find (Node.mk move data visit_count multipv_index is_pv_node
            children).children key = some child := hf
        rw [hf2]; exact hc)
      simpa using this
theorem height_children_le_iff :
    ∀ (cs : List (Str × Node)) (k : Nat),
      (cs.map Prod.fst).Pairwise (· < ·) → (∀ e ∈ cs, Sorted e.2) →
      (height_children cs ≤ k ↔
        ∀ key child q c, find cs key = some child → node_at child q = some c → q.length + 1 ≤ k)
  | [], k, _, _ => by simp [height_children, find]
  | (key0, child0) :: rest, k, hk, hs => by
    simp only [List.map_cons, List.pairwise_cons] at hk
    have ih2 := height_children_le_iff rest k hk.2
      (fun e he => hs e (List.mem_cons_of_mem _ he))
    simp only [height_children, max_le_iff, ih2]
    constructor
    · rintro ⟨h1, h2⟩ key child q c hf hc
      by_cases hkey : key0 = key
      · simp only [find, hkey, if_true, Option.some.injEq] at hf
        subst hf
        cases k with
        | zero => omega
        | succ k =>
          have ih1 := height_le_iff child0 k (hs (key0, child0) (List.mem_cons_self _ _))
          have := (ih1.1 (by omega)) q c hc
          omega
      · simp only [find, hkey, if_false] at hf
        exact h2 key child q c hf hc
    · intro h
      constructor
      · cases k with
        | zero =>
          have := h key0 child0 [] child0 (by simp [find]) rfl
          simp at this
        | succ k =>
          have ih1 := height_le_iff child0 k (hs (key0, child0) (List.mem_cons_self _ _))
          have : child0.height ≤ k := ih1.2 (fun p c hc => by
            have := h key0 child0 p c (by simp [find]) hc
            omega)
          omega
      · intro key child q c hf hc
        have hne : key0 ≠ key := ne_of_lt (hk.1 key (mem_keys_of_find rest key child hf))
        exact h key child q c (by simp [find, hne, hf]) hc
end

/-! ## Every node carries the move of its entry -/

theorem named_update (t : SearchTree) (data : InfoData)
    (h : ∀ p c, p ≠ [] → node_at t.m_root p = some c → c.move = p.getLastD []) :
    ∀ p c, p ≠ [] → node_at (t.update data).m_root p = some c → c.move = p.getLastD [] := by
  intro p c hp hc
  by_cases hpv : data.pv = []
  · rw [update_empty t data hpv] at hc
    exact h p c hp hc
  · by_cases hpre : p <+: data.pv
    · obtain ⟨c2, hc2, hm, _⟩ := update_on_path t data p hpre hp
      rw [hc2] at hc
      cases hc
      rw [hm, origin]
      cases hn : node_at t.m_root p with
      | none => rfl
      | some c0 => exact h p c0 hp hn
    · rw [update_off_path t data p hpv hpre] at hc
      split at hc
      · cases hn : node_at t.m_root p with
        | none => rw [hn] at hc; cases hc
        | some c0 =>
          rw [hn] at hc
          cases hc
          rw [(clear_fields c0).1]
          exact h p c0 hp hn
      · exact h p c hp hc

theorem named_run (ops : List Op) (t : SearchTree)
    (h : ∀ p c, p ≠ [] → node_at t.m_root p = some c → c.move = p.getLastD []) :
    ∀ p c, p ≠ [] → node_at (t.run ops).m_root p = some c → c.move = p.getLastD [] := by
  induction ops generalizing t with
  | nil => exact h
  | cons op ops ih =>
    apply ih
    cases op with
    | update data => exact named_update t data h
    | clear =>
      intro p c hp hc
      rw [show (t.apply Op.clear) = SearchTree.new from rfl,
        node_at_fresh SearchTree.new (Or.inl rfl) p hp] at hc
      cases hc

theorem named_new :
    ∀ p c, p ≠ [] → node_at SearchTree.new.m_root p = some c → c.move = p.getLastD [] := by
  intro p c hp hc
  rw [node_at_fresh SearchTree.new (Or.inl rfl) p hp] at hc
  cases hc

/-! ## C23 -/

set_option maxRecDepth 10000 in
/-- C23 fails for a tree with a node below depth 100. After one update with a pv
of 101 moves the tree has 101 nodes other than the root, and the outline has the
header and 100 rows: the node at depth 101 has no line. -/
theorem export_to_string_counterexample :
    (SearchTree.new.update { pv := List.replicate 101 "a".toList }).get_total_nodes = 101 ∧
    (SearchTree.new.update { pv := List.replicate 101 "a".toList }).export_to_string
        two_decimals =
      "Search Tree:\n".toList ++
        ((outline (SearchTree.new.update { pv := List.replicate 101 "a".toList })).map
          (Row.text two_decimals)).flatten ∧
    (outline (SearchTree.new.update { pv := List.replicate 101 "a".toList })).length = 100 := by
  refine ⟨by decide, ?_, by decide⟩
  simp only [SearchTree.export_to_string, outline]
  rw [show (1 : Nat) = 101 - 100 from rfl, export_children_rows two_decimals _ [] [] 100 (by omega)]

/-- C23 as the code has it, for every tree that a sequence of updates and clears
builds from the empty tree. The outline is the header line `Search Tree:` and
after it the texts of the rows of the tree, each of which ends with its newline.
The rows are the nodes other than the root down to depth 100, one row for each:
a path is the path of a row exactly when it is not empty, has at most 100 moves
and leads to a node, which is then the node of the row and carries the last move
of the path. The paths of the rows ascend in the lexicographic order of lists of
move tokens, which is the depth-first pre-order with the children of a node in
ascending order of their move tokens. When the tree has fewer than 2^64 nodes
the number of rows is at most `get_total_nodes`, with equality when the height
of the tree is at most 100, that is, when no path that leads to a node has more
than 100 moves. -/
theorem export_to_string_outline (print_pawns : Int → Str) (ops : List Op) :
    (SearchTree.new.run ops).export_to_string print_pawns =
      "Search Tree:\n".toList ++
        ((outline (SearchTree.new.run ops)).map (Row.text print_pawns)).flatten ∧
    (∀ r : Row, ∃ body, Row.text print_pawns r = body ++ "\n".toList) ∧
    ((outline (SearchTree.new.run ops)).map Row.path).Pairwise (· < ·) ∧
    (∀ (p : List Str) (n : Node),
      (∃ r ∈ outline (SearchTree.new.run ops), r.path = p ∧ r.node = n) ↔
        p ≠ [] ∧ p.length ≤ 100 ∧ node_at (SearchTree.new.run ops).m_root p = some n) ∧
    (∀ r ∈ outline (SearchTree.new.run ops), r.node.move = r.path.getLastD []) ∧
    ((SearchTree.new.run ops).m_root.size < 2 ^ u64 →
      (outline (SearchTree.new.run ops)).length ≤ (SearchTree.new.run ops).get_total_nodes ∧
      ((SearchTree.new.run ops).m_root.height ≤ 100 →
        (outline (SearchTree.new.run ops)).length =
          (SearchTree.new.run ops).get_total_nodes)) ∧
    ((SearchTree.new.run ops).m_root.height ≤ 100 ↔
      ∀ p c, node_at (SearchTree.new.run ops).m_root p = some c → p.length ≤ 100) := by
  have hs : Sorted (SearchTree.new.run ops).m_root := sorted_run ops _ sorted_new
  have hnamed := named_run ops _ named_new
  generalize SearchTree.new.run ops = t at hs hnamed ⊢
  have hk : (t.m_root.children.map Prod.fst).Pairwise (· < ·) := hs [] _ rfl
  have hc : ∀ e ∈ t.m_root.children, Sorted e.2 :=
    fun e he => sorted_child t.m_root.children _ hs rfl e he
  have hmem : ∀ (p : List Str) (n : Node),
      (∃ r ∈ outline t, r.path = p ∧ r.node = n) ↔
        p ≠ [] ∧ p.length ≤ 100 ∧ node_at t.m_root p = some n := by
    intro p n
    rw [outline, mem_rows_children _ _ _ _ hk hc]
    constructor
    · rintro ⟨k, q, c, hf, hp, hq, hn⟩
      rw [List.nil_append] at hp
      subst hp
      refine ⟨by simp, by simp only [List.length_cons]; omega, ?_⟩
      rw [node_at_cons, hf]
      exact hn
    · rintro ⟨hp, hl, hn⟩
      cases p with
      | nil => exact absurd rfl hp
      | cons k q =>
        rw [node_at_cons] at hn
        cases hf : find t.m_root.children k with
        | none => rw [hf] at hn; cases hn
        | some c =>
          rw [hf] at hn
          exact ⟨k, q, c, hf, rfl, by simp only [List.length_cons] at hl; omega, hn⟩
  refine ⟨?_, ?_, ?_, hmem, ?_, ?_, height_le_iff t.m_root 100 hs⟩
  · simp only [SearchTree.export_to_string, outline]
    rw [show (1 : Nat) = 101 - 100 from rfl,
      export_children_rows print_pawns _ [] [] 100 (by omega)]
  · intro r
    obtain ⟨body, h⟩ := export_label_newline print_pawns r.node.move r.node.data r.node.visit_count
    exact ⟨r.indent ++ (if r.is_last then "└── ".toList else "├── ".toList) ++ body, by
      simp only [Row.text, h, List.append_assoc]⟩
  · exact rows_children_sorted _ _ _ _ hk hc
  · intro r hr
    obtain ⟨hp, _, hn⟩ := (hmem r.path r.node).1 ⟨r, hr, rfl, rfl⟩
    exact hnamed r.path r.node hp hn
  · intro hsize
    rw [total_nodes_eq t hsize, outline]
    refine ⟨(rows_children_length _ _ _ _).1, fun hh => (rows_children_length _ _ _ _).2 ?_⟩
    rw [← height_root]
    exact hh

/-- C23 on the tree built by `info multipv 1 pv e2e4 e7e5` and `info multipv 2 pv
d2d4`: the outline has three rows, as many as the tree has nodes other than the
root. -/
theorem export_to_string_outline_witness :
    (outline (SearchTree.new.run
      [Op.update { multipv := some 1, pv := ["e2e4".toList, "e7e5".toList] },
        Op.update { multipv := some 2, pv := ["d2d4".toList] }])).length =
      (SearchTree.new.run
        [Op.update { multipv := some 1, pv := ["e2e4".toList, "e7e5".toList] },
          Op.update { multipv := some 2, pv := ["d2d4".toList] }]).get_total_nodes ∧
    (SearchTree.new.run
        [Op.update { multipv := some 1, pv := ["e2e4".toList, "e7e5".toList] },
          Op.update { multipv := some 2, pv := ["d2d4".toList] }]).export_to_string
        two_decimals =
      "Search Tree:\n├── d2d4\n└── e2e4\n    └── e7e5\n".toList :=
  ⟨((export_to_string_outline two_decimals
      [Op.update { multipv := some 1, pv := ["e2e4".toList, "e7e5".toList] },
        Op.update { multipv := some 2, pv := ["d2d4".toList] }]).2.2.2.2.2.1 (by decide)).2
      (by decide),
    by decide⟩

/-! ## C24 -/

/-- C24 fails for a node whose snapshot has a score and no depth. The line `info
score cp 34 pv e2e4` is parsed to a snapshot with the score 34 centipawns and no
depth; in the outline of the tree updated with it the line of `e2e4` is the move
token alone and shows no score. -/
theorem export_label_counterexample :
    parse_line (fun _ => none) "info score cp 34 pv e2e4".toList =
      Outcome.returned (some
        { score := some { type := ScoreType.Centipawns, value := 34 }
          pv := ["e2e4".toList]
          raw_string := "info score cp 34 pv e2e4".toList }) ∧
    (SearchTree.new.update
        { score := some { type := ScoreType.Centipawns, value := 34 }
          pv := ["e2e4".toList]
          raw_string := "info score cp 34 pv e2e4".toList }).export_to_string two_decimals =
      "Search Tree:\n└── e2e4\n".toList := by
  decide

/-- C24 as the code has it. The line of a node is its move, then the depth group,
then the visit counter, then the newline. A snapshot without depth has no depth
group, so its score is not shown whether it has one or not. A snapshot with
depth `d` has the group `(d...)` with the depth, the selective depth when known,
and, when the snapshot has a score, a comma and the score: the pawn units for a
centipawn score, `M` and the number for a mate score. The visit counter is
shown, as `[TT×n]`, exactly when it is more than one. -/
theorem export_label_shows (print_pawns : Int → Str) (move : Str) (data : InfoData)
    (visit_count : Nat) :
    (data.depth = none →
      export_label print_pawns move data visit_count =
        move ++ visit_text visit_count ++ "\n".toList) ∧
    (∀ d s, data.depth = some d → data.score = some s →
      export_label print_pawns move data visit_count =
        move ++ " (d".toList ++ to_string d ++ seldepth_text data.seldepth ++ ", ".toList ++
          score_text print_pawns s ++ ")".toList ++ visit_text visit_count ++ "\n".toList) ∧
    (∀ d, data.depth = some d → data.score = none →
      export_label print_pawns move data visit_count =
        move ++ " (d".toList ++ to_string d ++ seldepth_text data.seldepth ++ ")".toList ++
          visit_text visit_count ++ "\n".toList) ∧
    (visit_count ≤ 1 → visit_text visit_count = []) ∧
    (visit_count > 1 →
      visit_text visit_count = " [TT×".toList ++ to_string visit_count ++ "]".toList) := by
  refine ⟨?_, ?_, ?_, ?_, ?_⟩
  · intro h
    simp only [export_label, h, visit_text]
    split <;> simp
  · intro d s hd hs
    obtain ⟨ty, v⟩ := s
    simp only [export_label, hd, hs, visit_text, seldepth_text, score_text]
    cases data.seldepth <;> cases ty <;> split <;> simp
  · intro d hd hs
    simp only [export_label, hd, hs, visit_text, seldepth_text]
    cases data.seldepth <;> split <;> simp
  · intro h
    simp only [visit_text, if_neg (show ¬ visit_count > 1 by omega)]
  · intro h
    simp only [visit_text, if_pos h]

/-- C24 on a node with move `e2e4`, visited three times, whose snapshot has depth
12, selective depth 18 and the score 34 centipawns. -/
theorem export_label_shows_witness :
    export_label two_decimals "e2e4".toList
        { depth := some 12
          seldepth := some 18
          score := some { type := ScoreType.Centipawns, value := 34 } } 3 =
      "e2e4 (d12/18, 0.34) [TT×3]\n".toList :=
  ((export_label_shows two_decimals "e2e4".toList
    { depth := some 12
      seldepth := some 18
      score := some { type := ScoreType.Centipawns, value := 34 } } 3).2.1
    12 { type := ScoreType.Centipawns, value := 34 } rfl rfl).trans (by decide)

end vgce.model

namespace vgce.uci

/-! ## `split` on every delimiter -/

theorem split_ne_nil (s : Str) (d : Char) : split s d ≠ [] := by
  intro h
  have := split_length_pos s d
  rw [h] at this
  simp at this

theorem consToken_append (c : Char) (l1 l2 : List Str) (h : l1 ≠ []) :
    consToken c (l1 ++ l2) = consToken c l1 ++ l2 := by
  cases l1 with
  | nil => exact absurd rfl h
  | cons t ts => rfl

theorem split_append (a b : Str) (d : Char) :
    split (a ++ d :: b) d = split a d ++ split b d := by
  induction a with
  | nil => simp [split]
  | cons c cs ih =>
    by_cases hc : c = d
    · simp [split, hc, ih]
    · have e : split (c :: cs ++ d :: b) d = consToken c (split (cs ++ d :: b) d) := by
        simp only [List.cons_append, split, hc, if_false, List.append_eq]
      rw [e, ih, consToken_append c _ _ (split_ne_nil cs d)]
      simp only [split, hc, if_false]

theorem split_length (s : Str) (d : Char) : (split s d).length = s.count d + 1 := by
  induction s with
  | nil => simp [split]
  | cons c cs ih =>
    by_cases hc : c = d
    · simp [split, hc, ih]
    · have hl : (consToken c (split cs d)).length = (split cs d).length := by
        cases hs : split cs d with
        | nil => exact absurd hs (split_ne_nil cs d)
        | cons t ts => rfl
      simp only [split, hc, if_false, hl, ih]
      rw [List.count_cons_of_ne (fun h => hc h.symm)]

theorem unwords_split (s : Str) : unwords (split s ' ') = s := by
  induction s with
  | nil => rfl
  | cons c cs ih =>
    by_cases hc : c = ' '
    · subst hc
      simp only [split, if_true]
      cases hs : split cs ' ' with
      | nil => exact absurd hs (split_ne_nil cs ' ')
      | cons t ts =>
        rw [hs] at ih
        simp only [unwords, List.nil_append, ih]
    · simp only [split, hc, if_false]
      cases hs : split cs ' ' with
      | nil => exact absurd hs (split_ne_nil cs ' ')
      | cons t ts =>
        rw [hs] at ih
        cases ts with
        | nil =>
          simp only [unwords] at ih
          simp only [consToken, unwords, ih]
        | cons t2 ts =>
          simp only [unwords] at ih
          simp only [consToken, unwords, List.cons_append, ih]

theorem split_no_delim (s : Str) (d : Char) : ∀ tok ∈ split s d, d ∉ tok := by
  induction s with
  | nil => simp [split]
  | cons c cs ih =>
    by_cases hc : c = d
    · simp only [split, hc, if_true, List.mem_cons]
      rintro tok (h | h)
      · simp [h]
      · exact ih tok h
    · simp only [split, hc, if_false]
      cases hs : split cs d with
      | nil => exact absurd hs (split_ne_nil cs d)
      | cons t ts =>
        rw [hs] at ih
        simp only [consToken, List.mem_cons]
        rintro tok (h | h)
        · rw [h]
          simp only [List.mem_cons, not_or]
          exact ⟨fun e => hc e.symm, ih t (List.mem_cons_self _ _)⟩
        · exact ih tok (List.mem_cons_of_mem _ h)

theorem store_pv_break (tok : Str) (rest : List Str) (d : InfoData)
    (ha : advance tok rest = none) : (store tok rest d).pv = d.pv ++ rest := by
  unfold advance at ha
  unfold store
  cases hk : key_of tok with
  | none => simp [hk] at ha
  | some k =>
    simp only [hk] at ha ⊢
    by_cases hg : k.arity ≤ rest.length
    · simp only [hg, if_true] at ha ⊢
      by_cases hpv : k = Key.pv
      · subst hpv; rfl
      · simp [hpv] at ha
    · simp [hg] at ha

theorem scan_pv_mem (fuel : Nat) (toks : List Str) (d : InfoData) (m : Str)
    (h : m ∈ (scan fuel toks d).pv) : m ∈ d.pv ∨ m ∈ toks := by
  induction fuel generalizing toks d with
  | zero => exact Or.inl h
  | succ fuel ih =>
    cases toks with
    | nil => exact Or.inl h
    | cons tok rest =>
      simp only [scan] at h
      cases ha : advance tok rest with
      | none =>
        simp only [ha] at h
        rw [store_pv_break tok rest d ha, List.mem_append] at h
        rcases h with h | h
        · exact Or.inl h
        · exact Or.inr (List.mem_cons_of_mem _ h)
      | some k =>
        simp only [ha] at h
        rcases ih _ _ h with h2 | h2
        · rw [store_pv tok rest d k ha] at h2
          exact Or.inl h2
        · exact Or.inr (List.mem_cons_of_mem _ (List.mem_of_mem_drop h2))

theorem parse_line_pv_tokens (read_eval : Str → Option Int) (line : Str) (d : InfoData)
    (h : parse_line read_eval line = Outcome.returned (some d)) :
    ∀ m ∈ d.pv, m ∈ split line ' ' := by
  unfold parse_line at h
  by_cases h1 : "info string".toList.isPrefixOf line = true
  · rw [if_pos h1] at h
    rcases parse_info_string_cases read_eval line with ⟨_, e⟩ | ⟨_, _, _, e⟩ | ⟨_, _, _, e⟩
    · rw [e] at h
      cases h
      intro m hm
      cases hm
    · rw [e] at h
      cases h
    · rw [e] at h
      cases h
      intro m hm
      cases hm
  · rw [if_neg h1] at h
    by_cases h2 : "info".toList.isPrefixOf line = true
    · rw [if_pos h2, parse_info_search_eq] at h
      cases h
      intro m hm
      rcases scan_pv_mem _ _ _ m hm with h3 | h3
      · cases h3
      · exact List.mem_of_mem_drop h3
    · rw [if_neg h2] at h
      cases h

/-! ## C29 -/

/-- C29. `split` cuts at every single space: for every text, the number of tokens
is the number of its spaces plus one, the tokens written with single spaces
between them are the text again, and no token contains a space. Two spaces in a
row give an empty token between the tokens of the text before and of the text
after, a space at the end gives an empty token at the end. For every line
`head pv moves` handed to the field parser whose `pv` stands in key position,
the pv of the snapshot is the list of the tokens of the text `moves`, cut in
this way, empty tokens included. For every line that `parse_line` turns into a
snapshot, every move token of its pv is one of the tokens of the line and
contains no space. -/
theorem split_on_every_space (read_eval : Str → Option Int) (s a b head moves : Str)
    (hpos : line_key_position (head ++ " pv ".toList ++ moves) (split head ' ').length = true) :
    (split s ' ').length = s.count ' ' + 1 ∧
    unwords (split s ' ') = s ∧
    (∀ tok ∈ split s ' ', ' ' ∉ tok) ∧
    split (a ++ "  ".toList ++ b) ' ' = split a ' ' ++ [] :: split b ' ' ∧
    split (a ++ " ".toList) ' ' = split a ' ' ++ [[]] ∧
    (∃ d, parse_line read_eval (head ++ " pv ".toList ++ moves) = Outcome.returned (some d) ∧
      d.pv = split moves ' ') ∧
    (∀ d, parse_line read_eval s = Outcome.returned (some d) →
      ∀ m ∈ d.pv, m ∈ split s ' ' ∧ ' ' ∉ m) := by
  refine ⟨split_length s ' ', unwords_split s, split_no_delim s ' ', ?_, ?_, ?_,
    fun d hd m hm => ⟨parse_line_pv_tokens read_eval s d hd m hm,
      split_no_delim s ' ' m (parse_line_pv_tokens read_eval s d hd m hm)⟩⟩
  · have e : a ++ "  ".toList ++ b = a ++ ' ' :: ([] ++ ' ' :: b) := by simp
    rw [e, split_append, split_append]
    rfl
  · have e : a ++ " ".toList = a ++ ' ' :: [] := rfl
    rw [e, split_append]
    rfl
  · have e : head ++ " pv ".toList ++ moves = head ++ ' ' :: ("pv".toList ++ ' ' :: moves) := by
      simp
    have htok : split (head ++ " pv ".toList ++ moves) ' ' =
        split head ' ' ++ Key.pv.text :: split moves ' ' := by
      rw [e, split_append, split_append]
      rfl
    obtain ⟨_, _, hp, hpv0, _⟩ :=
      parse_line_at_key_position read_eval _ _ hpos
    have hdrop : (split (head ++ " pv ".toList ++ moves) ' ').drop (split head ' ').length =
        Key.pv.text :: split moves ' ' := by
      rw [htok, List.drop_left]
    rw [hdrop, scan_all_pv _ _ (split_length_pos moves ' ')] at hp
    refine ⟨_, hp, ?_⟩
    show _ ++ split moves ' ' = split moves ' '
    rw [hpv0, List.nil_append]

/-- C29 on the line `info pv e2e4 ` with a space at its end: the pv is `e2e4`
followed by an empty move token. -/
theorem split_on_every_space_witness :
    ∃ d, parse_line (fun _ => none) ("info".toList ++ " pv ".toList ++ "e2e4 ".toList) =
        Outcome.returned (some d) ∧
      d.pv = ["e2e4".toList, []] := by
  obtain ⟨d, h1, h2⟩ :=
    (split_on_every_space (fun _ => none) [] [] [] "info".toList "e2e4 ".toList
      (by decide)).2.2.2.2.2.1
  exact ⟨d, h1, h2.trans (by decide)⟩

end vgce.uci

namespace vgce.model

open vgce.uci

/-! ## The lock discipline -/

theorem project_cons_same (who : Bool) (acc : Access) (rest : Schedule) :
    project who ((who, acc) :: rest) = acc :: project who rest := by
  simp [project, List.filter_cons]

theorem project_cons_other (w who : Bool) (acc : Access) (rest : Schedule) (h : who ≠ w) :
    project w ((who, acc) :: rest) = project w rest := by
  simp [project, List.filter_cons, h]

theorem no_overlap_of_guarded (s : Schedule) :
    ∀ (l : Locks), (l.first = Hold.unique → l.second = Hold.free) →
      (l.second = Hold.unique → l.first = Hold.free) →
      guarded l.first (project false s) = true → guarded l.second (project true s) = true →
      permitted l s = true → overlaps l s = false := by
  induction s with
  | nil => intros; rfl
  | cons step rest ih =>
    intro l h1 h2 ha hb hp
    obtain ⟨who, acc⟩ := step
    obtain ⟨f, g⟩ := l
    cases who
    · rw [project_cons_same] at ha
      rw [project_cons_other true false acc rest (by decide)] at hb
      cases acc <;> cases f <;> cases g <;>
        simp only [guarded, permitted, overlaps, Locks.exec, Locks.other, Locks.set,
          Access.touches, Bool.false_eq_true, if_false, if_true, reduceCtorEq,
          Bool.and_eq_true, decide_eq_true_eq, ne_eq, not_true_eq_false, not_false_eq_true,
          Bool.false_and, Bool.true_and, Bool.false_or, Bool.or_false, decide_False,
          decide_True, false_and, and_false, true_and, and_true, imp_false, forall_const,
          IsEmpty.forall_iff] at h1 h2 ha hb hp ⊢
      all_goals first
        | contradiction
        | (apply ih <;> first | assumption | exact ha.2 | exact ha | simp)
    · rw [project_cons_same] at hb
      rw [project_cons_other false true acc rest (by decide)] at ha
      cases acc <;> cases f <;> cases g <;>
        simp only [guarded, permitted, overlaps, Locks.exec, Locks.other, Locks.set,
          Access.touches, Bool.false_eq_true, if_false, if_true, reduceCtorEq,
          Bool.and_eq_true, decide_eq_true_eq, ne_eq, not_true_eq_false, not_false_eq_true,
          Bool.false_and, Bool.true_and, Bool.false_or, Bool.or_false, decide_False,
          decide_True, false_and, and_false, true_and, and_true, imp_false, forall_const,
          IsEmpty.forall_iff] at h1 h2 ha hb hp ⊢
      all_goals first
        | contradiction
        | (apply ih <;> first | assumption | exact hb.2 | exact hb | simp)

theorem guarded_reads (h : Hold) (hne : h ≠ Hold.free) (paths : List (List Str))
    (rest : List Access) :
    guarded h (paths.map Access.read ++ rest) = guarded h rest := by
  induction paths with
  | nil => rfl
  | cons p ps ih => simp [guarded, hne, ih]

theorem guarded_writes (paths : List (List Str)) (rest : List Access) :
    guarded Hold.unique (paths.map Access.write ++ rest) = guarded Hold.unique rest := by
  induction paths with
  | nil => rfl
  | cons p ps ih => simp [guarded, ih]

theorem guarded_flag_reads (cs : List (Str × Node)) (rest : List Access) :
    guarded Hold.shared (flag_reads cs ++ rest) = guarded Hold.shared rest := by
  induction cs with
  | nil => rfl
  | cons e es ih =>
    obtain ⟨k, n⟩ := e
    by_cases hf : n.is_pv_node = true
    · simp [flag_reads, guarded, hf]
    · simp [flag_reads, guarded, hf, ih]

theorem guarded_walk (moves path : List Str) (current_node : Option Node) (rest : List Access) :
    guarded Hold.unique (walk_accesses current_node path moves ++ rest) =
      guarded Hold.unique rest := by
  induction moves generalizing path current_node with
  | nil => simp [walk_accesses, guarded]
  | cons m ms ih =>
    by_cases h : (current_node.bind (fun node => find node.children m)).isNone = true
    · simp [walk_accesses, guarded, ih, h]
    · simp [walk_accesses, guarded, ih, h]

theorem guarded_get_best_move (t : SearchTree) :
    guarded Hold.free t.get_best_move_accesses = true := by
  simp [SearchTree.get_best_move_accesses, guarded, guarded_flag_reads]

theorem guarded_get_total_nodes (t : SearchTree) :
    guarded Hold.free t.get_total_nodes_accesses = true := by
  have h := guarded_reads Hold.shared (by decide)
    ((rows_children t.m_root.children [] [] t.m_root.height).map Row.path)
    [Access.unlock_shared]
  simp only [List.map_map] at h
  simp [SearchTree.get_total_nodes_accesses, guarded]
  exact h

theorem guarded_export_to_string (t : SearchTree) :
    guarded Hold.free t.export_to_string_accesses = true := by
  have h := guarded_reads Hold.shared (by decide) ((outline t).map Row.path)
    [Access.unlock_shared]
  simp only [List.map_map] at h
  simp [SearchTree.export_to_string_accesses, guarded]
  exact h

theorem guarded_update (t : SearchTree) (data : InfoData) :
    guarded Hold.free (t.update_accesses data) = true := by
  unfold SearchTree.update_accesses
  by_cases hpv : data.pv.isEmpty = true
  · simp [hpv, guarded]
  · have hw := guarded_writes
      ((rows_children t.m_root.children [] [] t.m_root.height).map Row.path)
      (walk_accesses (some t.m_root) [] data.pv ++ [Access.unlock_unique])
    simp only [List.map_map] at hw
    by_cases hm : is_main data = true
    · simp only [hpv, hm, if_true, Bool.false_eq_true, if_false, List.singleton_append,
        guarded, clear_pv_flags_writes, List.cons_append, decide_True, Bool.true_and,
        List.append_assoc]
      have hw2 : guarded Hold.unique
          (List.map (fun r => Access.write r.path)
              (rows_children t.m_root.children [] [] t.m_root.height) ++
            (walk_accesses (some t.m_root) [] data.pv ++ [Access.unlock_unique])) =
          guarded Hold.unique
            (walk_accesses (some t.m_root) [] data.pv ++ [Access.unlock_unique]) := hw
      rw [hw2, guarded_walk]
      rfl
    · simp only [hpv, hm, Bool.false_eq_true, if_false, List.singleton_append, guarded,
        List.append_nil, List.nil_append, List.append_eq]
      rw [guarded_walk]
      rfl

theorem guarded_clear (t : SearchTree) : guarded Hold.free t.clear_accesses = true := rfl

/-! ## C28 -/

/-- C28 holds for `get_best_move`, `get_total_nodes` and `export_to_string` and
fails for the display traversal. Two threads run under the lock of the tree, each
step happening only when the lock admits it. When the first thread runs one of
the three functions and the second runs `update` or `clear`, on whatever trees,
then in every order of their steps no thread touches a node while the other
holds the exclusive lock. But when the first thread runs `render_tree_view` on
the tree with the one node `e2e4` and the second runs `update` with the pv `e2e4
e7e5`, there is an order of their steps that the lock admits in which the first
thread reads nodes while the second holds the exclusive lock: after `get_root`
has returned the first thread holds no lock. -/
theorem tree_lock_discipline :
    (∀ (t1 t2 : SearchTree) (data : InfoData) (ra wa : List Access),
      ra ∈ [t1.get_best_move_accesses, t1.get_total_nodes_accesses,
        t1.export_to_string_accesses] →
      wa ∈ [t2.update_accesses data, t2.clear_accesses] →
      ∀ s : Schedule, project false s = ra → project true s = wa →
        permitted { first := Hold.free, second := Hold.free } s = true →
        overlaps { first := Hold.free, second := Hold.free } s = false) ∧
    (project false
        ([(false, Access.lock_shared), (false, Access.unlock_shared),
          (true, Access.lock_unique), (false, Access.read []),
          (true, Access.write []), (true, Access.write ["e2e4".toList]),
          (false, Access.read ["e2e4".toList]),
          (true, Access.read []),
          (true, Access.write ["e2e4".toList]), (true, Access.read ["e2e4".toList]),
          (true, Access.write ["e2e4".toList]),
          (true, Access.write ["e2e4".toList, "e7e5".toList]),
          (true, Access.write ["e2e4".toList, "e7e5".toList]),
          (true, Access.unlock_unique)]) =
        vgce.tui.render_tree_view_accesses 20
          (SearchTree.new.update { pv := ["e2e4".toList] }) ∧
      project true
        ([(false, Access.lock_shared), (false, Access.unlock_shared),
          (true, Access.lock_unique), (false, Access.read []),
          (true, Access.write []), (true, Access.write ["e2e4".toList]),
          (false, Access.read ["e2e4".toList]),
          (true, Access.read []),
          (true, Access.write ["e2e4".toList]), (true, Access.read ["e2e4".toList]),
          (true, Access.write ["e2e4".toList]),
          (true, Access.write ["e2e4".toList, "e7e5".toList]),
          (true, Access.write ["e2e4".toList, "e7e5".toList]),
          (true, Access.unlock_unique)]) =
        (SearchTree.new.update { pv := ["e2e4".toList] }).update_accesses
          { pv := ["e2e4".toList, "e7e5".toList] } ∧
      permitted { first := Hold.free, second := Hold.free }
        ([(false, Access.lock_shared), (false, Access.unlock_shared),
          (true, Access.lock_unique), (false, Access.read []),
          (true, Access.write []), (true, Access.write ["e2e4".toList]),
          (false, Access.read ["e2e4".toList]),
          (true, Access.read []),
          (true, Access.write ["e2e4".toList]), (true, Access.read ["e2e4".toList]),
          (true, Access.write ["e2e4".toList]),
          (true, Access.write ["e2e4".toList, "e7e5".toList]),
          (true, Access.write ["e2e4".toList, "e7e5".toList]),
          (true, Access.unlock_unique)]) = true ∧
      overlaps { first := Hold.free, second := Hold.free }
        ([(false, Access.lock_shared), (false, Access.unlock_shared),
          (true, Access.lock_unique), (false, Access.read []),
          (true, Access.write []), (true, Access.write ["e2e4".toList]),
          (false, Access.read ["e2e4".toList]),
          (true, Access.read []),
          (true, Access.write ["e2e4".toList]), (true, Access.read ["e2e4".toList]),
          (true, Access.write ["e2e4".toList]),
          (true, Access.write ["e2e4".toList, "e7e5".toList]),
          (true, Access.write ["e2e4".toList, "e7e5".toList]),
          (true, Access.unlock_unique)]) = true) := by
  refine ⟨?_, by decide, by decide, by decide, by decide⟩
  intro t1 t2 data ra wa hra hwa s h1 h2 hp
  have hga : guarded Hold.free ra = true := by
    simp only [List.mem_cons, List.mem_singleton, List.not_mem_nil, or_false] at hra
    rcases hra with h | h | h
    · rw [h]; exact guarded_get_best_move t1
    · rw [h]; exact guarded_get_total_nodes t1
    · rw [h]; exact guarded_export_to_string t1
  have hgb : guarded Hold.free wa = true := by
    simp only [List.mem_cons, List.mem_singleton, List.not_mem_nil, or_false] at hwa
    rcases hwa with h | h
    · rw [h]; exact guarded_update t2 data
    · rw [h]; exact guarded_clear t2
  exact no_overlap_of_guarded s _ (fun h => by cases h) (fun h => by cases h)
    (by rw [h1]; exact hga) (by rw [h2]; exact hgb) hp

/-- C28 for `export_to_string` on the tree with the one node `e2e4` and `update`
with the pv `e2e4 e7e5`, the reader taking the lock first: the writer is admitted
only after the reader has released the lock, and no step overlaps. -/
theorem tree_lock_discipline_witness :
    overlaps { first := Hold.free, second := Hold.free }
      ([(false, Access.lock_shared), (false, Access.read []),
        (false, Access.read ["e2e4".toList]), (false, Access.unlock_shared),
        (true, Access.lock_unique), (true, Access.write []),
        (true, Access.write ["e2e4".toList]), (true, Access.read []),
        (true, Access.write ["e2e4".toList]), (true, Access.read ["e2e4".toList]),
        (true, Access.write ["e2e4".toList]),
        (true, Access.write ["e2e4".toList, "e7e5".toList]),
        (true, Access.write ["e2e4".toList, "e7e5".toList]),
        (true, Access.unlock_unique)]) = false :=
  tree_lock_discipline.1 (SearchTree.new.update { pv := ["e2e4".toList] })
    (SearchTree.new.update { pv := ["e2e4".toList] })
    { pv := ["e2e4".toList, "e7e5".toList] }
    (SearchTree.new.update { pv := ["e2e4".toList] }).export_to_string_accesses
    ((SearchTree.new.update { pv := ["e2e4".toList] }).update_accesses
      { pv := ["e2e4".toList, "e7e5".toList] })
    (by simp) (by simp) _ (by decide) (by decide) (by decide)

end vgce.model

namespace vgce.uci

/-! ## The static evaluation of an `info string` line -/

/-- A line with the marker and 18 characters after its start: the snapshot that
`parse_line` returns, for any reading of the number. -/
theorem parse_line_info_string_eval (read_eval : Str → Option Int) (line : Str) (pos : Nat)
    (hs : "info string".toList.isPrefixOf line = true)
    (hf : find_from "NNUE evaluation".toList line 0 = some pos)
    (hl : pos + 18 ≤ line.length) :
    parse_line read_eval line = Outcome.returned (some
      { raw_string := line
        static_eval := (read_eval (at_index (split (line.drop (pos + 18)) ' ') 0)).map
          (fun val => { type := ScoreType.Centipawns, value := val }) }) := by
  unfold parse_line
  rw [if_pos hs]
  rcases parse_info_string_cases read_eval line with ⟨h, _⟩ | ⟨p, h, h2, _⟩ | ⟨p, h, _, e⟩
  · rw [hf] at h; cases h
  · rw [hf] at h; cases h; omega
  · rw [hf] at h; cases h; exact e

/-- A line that ends less than 18 characters after the start of the marker:
`parse_line` throws, for any reading of the number. -/
theorem parse_line_info_string_short (read_eval : Str → Option Int) (line : Str) (pos : Nat)
    (hs : "info string".toList.isPrefixOf line = true)
    (hf : find_from "NNUE evaluation".toList line 0 = some pos)
    (hl : line.length < pos + 18) :
    parse_line read_eval line = Outcome.thrown Exception.out_of_range := by
  unfold parse_line
  rw [if_pos hs]
  rcases parse_info_string_cases read_eval line with ⟨h, _⟩ | ⟨p, h, _, e⟩ | ⟨p, h, h2, _⟩
  · rw [hf] at h; cases h
  · rw [hf] at h; cases h; exact e
  · rw [hf] at h; cases h; omega

/-- A text that opens with no number and no special word has no value. -/
theorem parse_float_no_number (tok : Str) (hd : read_decimal tok = none)
    (hw : names_special tok = false) : parse_float tok = none := by
  simp [names_special] at hw
  simp [parse_float, from_chars_float, hw.1, hw.2, hd]

/-- A text that opens with a decimal number in the range of `f64` has the nearest
value of the type. -/
theorem parse_float_number (tok : Str) (d : Decimal) (s : Bool) (m : Nat) (e : Int)
    (hd : read_decimal tok = some d) (hw : names_special tok = false)
    (hv : d.to_f64 = F64.finite s m e) (hz : m = 0 → d.digits = 0) :
    parse_float tok = some (F64.finite s m e) := by
  simp [names_special] at hw
  have hc : ¬ (m = 0 ∧ d.digits ≠ 0) := fun h => h.2 (hz h.1)
  simp [parse_float, from_chars_float, hw.1, hw.2, hd, hv, hc]

/-! ## C20 -/

set_option maxRecDepth 10000 in
/-- C20 fails on `info string NNUE evaluation   0.29`. The text 18 characters
after the start of the marker opens with the decimal number 0.29, whose
hundredfold truncated toward zero is 29; the snapshot has the static evaluation
28. The `f64` nearest to 0.29 is `5224175567749775 / 2 ^ 54`, just below 0.29;
its product with `100.0` rounds to `8162774324609023 / 2 ^ 48`, just below 29,
and the conversion to `i32` drops the fraction. With the sign the same happens
for -0.29. The word `nan` is no number, yet `parse_float` returns a value for
it, and its conversion to `i32` is undefined. A line that ends with the marker
has no such text, and gives no snapshot at all. -/
theorem parse_line_static_eval_counterexample :
    read_decimal "0.29".toList = some { negative := false, digits := 29, scale := -2 } ∧
    Decimal.hundredfold { negative := false, digits := 29, scale := -2 } = 29 ∧
    parse_float "0.29".toList = some (F64.finite false 5224175567749775 (-54)) ∧
    (F64.finite false 5224175567749775 (-54)).mul F64.hundred =
      F64.finite false 8162774324609023 (-48) ∧
    (F64.finite false 8162774324609023 (-48)).to_i32 = some 28 ∧
    parse_line read_static_eval "info string NNUE evaluation   0.29".toList =
      Outcome.returned (some
        { raw_string := "info string NNUE evaluation   0.29".toList
          static_eval := some { type := ScoreType.Centipawns, value := 28 } }) ∧
    parse_line read_static_eval "info string NNUE evaluation   -0.29".toList =
      Outcome.returned (some
        { raw_string := "info string NNUE evaluation   -0.29".toList
          static_eval := some { type := ScoreType.Centipawns, value := -28 } }) ∧
    read_decimal "nan".toList = none ∧ parse_float "nan".toList = some F64.nan ∧
    (F64.nan.mul F64.hundred).to_i32 = none ∧
    parse_line read_static_eval "info string NNUE evaluation".toList =
      Outcome.thrown Exception.out_of_range := by
  decide

/-- C20. For every line that starts with `info string` and contains the marker
`NNUE evaluation`, found first at `pos`; `parse_line` is run with the
floating-point reading that the code makes. A line that ends less than 18
characters after the start of the marker gives no snapshot: `substr` throws.
Otherwise let `tok` be the text from 18 characters after the start of the marker
up to the next space or the end of the line. The snapshot carries the raw text
and at most a static evaluation, no other field. When `tok` opens with no number
and with none of the words `inf` and `nan`, the static evaluation is absent.
When `tok` opens with the decimal number `d`, the static evaluation is the
Centipawns score whose value is made in three steps: `d` is rounded to the
nearest `f64`, that is multiplied by `100.0` with the product rounded to the
nearest `f64`, and the fraction of the product is dropped; this is stated where
the first step gives a finite value that is not zero for a non-zero `d` and the
last a value that an `i32` holds. The value of the claim, the hundredfold of `d`
itself truncated toward zero, is not what these steps give for 0.29. -/
theorem parse_line_static_eval (line : Str) (pos : Nat)
    (hs : "info string".toList.isPrefixOf line = true)
    (hf : find_from "NNUE evaluation".toList line 0 = some pos) :
    (line.length < pos + 18 →
      parse_line read_static_eval line = Outcome.thrown Exception.out_of_range) ∧
    (pos + 18 ≤ line.length →
      (∃ eval : Option Score, parse_line read_static_eval line =
        Outcome.returned (some { raw_string := line, static_eval := eval })) ∧
      (read_decimal (at_index (split (line.drop (pos + 18)) ' ') 0) = none →
        names_special (at_index (split (line.drop (pos + 18)) ' ') 0) = false →
        parse_line read_static_eval line = Outcome.returned (some { raw_string := line })) ∧
      (∀ (d : Decimal) (s : Bool) (m : Nat) (e : Int) (z : Int),
        read_decimal (at_index (split (line.drop (pos + 18)) ' ') 0) = some d →
        names_special (at_index (split (line.drop (pos + 18)) ' ') 0) = false →
        d.to_f64 = F64.finite s m e → (m = 0 → d.digits = 0) →
        ((F64.finite s m e).mul F64.hundred).to_i32 = some z →
        parse_line read_static_eval line = Outcome.returned (some
          { raw_string := line
            static_eval := some { type := ScoreType.Centipawns, value := z } }))) := by
  refine ⟨fun hl => ?_, fun hl => ?_⟩
  · exact parse_line_info_string_short read_static_eval line pos hs hf hl
  · have h := parse_line_info_string_eval read_static_eval line pos hs hf hl
    refine ⟨⟨_, h⟩, ?_, ?_⟩
    · intro hd hw
      rw [h]
      simp only [read_static_eval, parse_float_no_number _ hd hw]
      rfl
    · intro d s m e z hd hw hv hz hc
      rw [h]
      simp only [read_static_eval, parse_float_number _ d s m e hd hw hv hz, hc]
      rfl

set_option maxRecDepth 10000 in
/-- C20 on the line `info string NNUE evaluation   1.25`: 1.25 and its hundredfold
are values of `f64`, nothing is lost in the three steps, and the static
evaluation is 125. -/
theorem parse_line_static_eval_witness :
    parse_line read_static_eval "info string NNUE evaluation   1.25".toList =
      Outcome.returned (some
        { raw_string := "info string NNUE evaluation   1.25".toList
          static_eval := some { type := ScoreType.Centipawns, value := 125 } }) :=
  ((parse_line_static_eval "info string NNUE evaluation   1.25".toList 12
    (by decide) (by decide)).2 (by decide)).2.2
    { negative := false, digits := 125, scale := -2 } false 5629499534213120 (-52) 125
    (by decide) (by decide) (by decide) (by decide) (by decide)

end vgce.uci
